import Mathlib

/-!
Shallow embedding of the entropy-coding core of `prototype_jpeg/codec.py`:
the functions `encode_huffman`, `decode_huffman`, `encode_differential`,
`decode_differential`, `encode_run_length`, `decode_run_length`,
`iter_zig_zag`, `inverse_iter_zig_zag`, `move_zig_zag_idx`, the constant
tables `HUFFMAN_CATEGORIES` and `HUFFMAN_CATEGORY_CODEWORD`, and the
`Encoder` / `Decoder` orchestrators.

Representation choices:
* bit strings (Python strings over the characters 0 and 1) are `List Bool`,
  `true` standing for the character 1;
* numpy matrices are functions `Nat → Nat → Int`, indexed `m row col`; the
  8×8 blocks handed to the encoder are `Fin 8 → Fin 8 → Int`;
* code that can raise returns `Option` (`none` is the raised error);
* the `bidict` tables are association lists; both lookup directions use
  `List.find?`, faithful to dict lookup because keys and codewords are
  duplicate-free (proved below).
-/

/-- Bit strings are lists of booleans; `w` spells a codeword from its digits. -/
def w (l : List Nat) : List Bool := l.map (fun d => d == 1)

/-- The two table selectors (the strings 'luminance' / 'chrominance'). -/
inductive LayerType
  | luminance
  | chrominance
deriving DecidableEq

/-- EOB sentinel `(0, 0)` as a run-length symbol `(run, value)`. -/
def EOB : Nat × Int := (0, 0)

/-- ZRL sentinel `(15, 0)` as a run-length symbol `(run, value)`. -/
def ZRL : Nat × Int := (15, 0)

/-- Row `s` of `HUFFMAN_CATEGORIES` (codec.py 399-416): row 0 is `(0,)`;
row `s+1` lists `range(-(2^(s+1)-1), -2^s+1)` then `range(2^s, 2^(s+1))`. -/
def catRow : Nat → List Int
  | 0 => [0]
  | s + 1 =>
      (List.range (2 ^ s)).map (fun k : Nat => -((2 : Int) ^ (s + 1) - 1) + (k : Int)) ++
      (List.range (2 ^ s)).map (fun k : Nat => ((2 : Int) ^ s) + (k : Int))

/-- HUFFMAN_CATEGORIES (codec.py 399-416): sixteen rows, sizes 0 to 15. -/
def HUFFMAN_CATEGORIES : List (List Int) := (List.range 16).map catRow

/-! The four codeword tables `HUFFMAN_CATEGORY_CODEWORD` (codec.py 418-811),
entry for entry in source order (EOB is the key `(0, 0)`, ZRL is `(15, 0)`). -/

def dc_luminance_codewords : List (Nat × List Bool) := [
  (0, w [0,0]),
  (1, w [0,1,0]),
  (2, w [0,1,1]),
  (3, w [1,0,0]),
  (4, w [1,0,1]),
  (5, w [1,1,0]),
  (6, w [1,1,1,0]),
  (7, w [1,1,1,1,0]),
  (8, w [1,1,1,1,1,0]),
  (9, w [1,1,1,1,1,1,0]),
  (10, w [1,1,1,1,1,1,1,0]),
  (11, w [1,1,1,1,1,1,1,1,0])
]

def dc_chrominance_codewords : List (Nat × List Bool) := [
  (0, w [0,0]),
  (1, w [0,1]),
  (2, w [1,0]),
  (3, w [1,1,0]),
  (4, w [1,1,1,0]),
  (5, w [1,1,1,1,0]),
  (6, w [1,1,1,1,1,0]),
  (7, w [1,1,1,1,1,1,0]),
  (8, w [1,1,1,1,1,1,1,0]),
  (9, w [1,1,1,1,1,1,1,1,0]),
  (10, w [1,1,1,1,1,1,1,1,1,0]),
  (11, w [1,1,1,1,1,1,1,1,1,1,0])
]

def ac_luminance_codewords : List ((Nat × Nat) × List Bool) := [
  ((0, 0), w [1,0,1,0]),
  ((15, 0), w [1,1,1,1,1,1,1,1,0,0,1]),
  ((0, 1), w [0,0]),
  ((0, 2), w [0,1]),
  ((0, 3), w [1,0,0]),
  ((0, 4), w [1,0,1,1]),
  ((0, 5), w [1,1,0,1,0]),
  ((0, 6), w [1,1,1,1,0,0,0]),
  ((0, 7), w [1,1,1,1,1,0,0,0]),
  ((0, 8), w [1,1,1,1,1,1,0,1,1,0]),
  ((0, 9), w [1,1,1,1,1,1,1,1,1,0,0,0,0,0,1,0]),
  ((0, 10), w [1,1,1,1,1,1,1,1,1,0,0,0,0,0,1,1]),
  ((1, 1), w [1,1,0,0]),
  ((1, 2), w [1,1,0,1,1]),
  ((1, 3), w [1,1,1,1,0,0,1]),
  ((1, 4), w [1,1,1,1,1,0,1,1,0]),
  ((1, 5), w [1,1,1,1,1,1,1,0,1,1,0]),
  ((1, 6), w [1,1,1,1,1,1,1,1,1,0,0,0,0,1,0,0]),
  ((1, 7), w [1,1,1,1,1,1,1,1,1,0,0,0,0,1,0,1]),
  ((1, 8), w [1,1,1,1,1,1,1,1,1,0,0,0,0,1,1,0]),
  ((1, 9), w [1,1,1,1,1,1,1,1,1,0,0,0,0,1,1,1]),
  ((1, 10), w [1,1,1,1,1,1,1,1,1,0,0,0,1,0,0,0]),
  ((2, 1), w [1,1,1,0,0]),
  ((2, 2), w [1,1,1,1,1,0,0,1]),
  ((2, 3), w [1,1,1,1,1,1,0,1,1,1]),
  ((2, 4), w [1,1,1,1,1,1,1,1,0,1,0,0]),
  ((2, 5), w [1,1,1,1,1,1,1,1,1,0,0,0,1,0,0,1]),
  ((2, 6), w [1,1,1,1,1,1,1,1,1,0,0,0,1,0,1,0]),
  ((2, 7), w [1,1,1,1,1,1,1,1,1,0,0,0,1,0,1,1]),
  ((2, 8), w [1,1,1,1,1,1,1,1,1,0,0,0,1,1,0,0]),
  ((2, 9), w [1,1,1,1,1,1,1,1,1,0,0,0,1,1,0,1]),
  ((2, 10), w [1,1,1,1,1,1,1,1,1,0,0,0,1,1,1,0]),
  ((3, 1), w [1,1,1,0,1,0]),
  ((3, 2), w [1,1,1,1,1,0,1,1,1]),
  ((3, 3), w [1,1,1,1,1,1,1,1,0,1,0,1]),
  ((3, 4), w [1,1,1,1,1,1,1,1,1,0,0,0,1,1,1,1]),
  ((3, 5), w [1,1,1,1,1,1,1,1,1,0,0,1,0,0,0,0]),
  ((3, 6), w [1,1,1,1,1,1,1,1,1,0,0,1,0,0,0,1]),
  ((3, 7), w [1,1,1,1,1,1,1,1,1,0,0,1,0,0,1,0]),
  ((3, 8), w [1,1,1,1,1,1,1,1,1,0,0,1,0,0,1,1]),
  ((3, 9), w [1,1,1,1,1,1,1,1,1,0,0,1,0,1,0,0]),
  ((3, 10), w [1,1,1,1,1,1,1,1,1,0,0,1,0,1,0,1]),
  ((4, 1), w [1,1,1,0,1,1]),
  ((4, 2), w [1,1,1,1,1,1,1,0,0,0]),
  ((4, 3), w [1,1,1,1,1,1,1,1,1,0,0,1,0,1,1,0]),
  ((4, 4), w [1,1,1,1,1,1,1,1,1,0,0,1,0,1,1,1]),
  ((4, 5), w [1,1,1,1,1,1,1,1,1,0,0,1,1,0,0,0]),
  ((4, 6), w [1,1,1,1,1,1,1,1,1,0,0,1,1,0,0,1]),
  ((4, 7), w [1,1,1,1,1,1,1,1,1,0,0,1,1,0,1,0]),
  ((4, 8), w [1,1,1,1,1,1,1,1,1,0,0,1,1,0,1,1]),
  ((4, 9), w [1,1,1,1,1,1,1,1,1,0,0,1,1,1,0,0]),
  ((4, 10), w [1,1,1,1,1,1,1,1,1,0,0,1,1,1,0,1]),
  ((5, 1), w [1,1,1,1,0,1,0]),
  ((5, 2), w [1,1,1,1,1,1,1,0,1,1,1]),
  ((5, 3), w [1,1,1,1,1,1,1,1,1,0,0,1,1,1,1,0]),
  ((5, 4), w [1,1,1,1,1,1,1,1,1,0,0,1,1,1,1,1]),
  ((5, 5), w [1,1,1,1,1,1,1,1,1,0,1,0,0,0,0,0]),
  ((5, 6), w [1,1,1,1,1,1,1,1,1,0,1,0,0,0,0,1]),
  ((5, 7), w [1,1,1,1,1,1,1,1,1,0,1,0,0,0,1,0]),
  ((5, 8), w [1,1,1,1,1,1,1,1,1,0,1,0,0,0,1,1]),
  ((5, 9), w [1,1,1,1,1,1,1,1,1,0,1,0,0,1,0,0]),
  ((5, 10), w [1,1,1,1,1,1,1,1,1,0,1,0,0,1,0,1]),
  ((6, 1), w [1,1,1,1,0,1,1]),
  ((6, 2), w [1,1,1,1,1,1,1,1,0,1,1,0]),
  ((6, 3), w [1,1,1,1,1,1,1,1,1,0,1,0,0,1,1,0]),
  ((6, 4), w [1,1,1,1,1,1,1,1,1,0,1,0,0,1,1,1]),
  ((6, 5), w [1,1,1,1,1,1,1,1,1,0,1,0,1,0,0,0]),
  ((6, 6), w [1,1,1,1,1,1,1,1,1,0,1,0,1,0,0,1]),
  ((6, 7), w [1,1,1,1,1,1,1,1,1,0,1,0,1,0,1,0]),
  ((6, 8), w [1,1,1,1,1,1,1,1,1,0,1,0,1,0,1,1]),
  ((6, 9), w [1,1,1,1,1,1,1,1,1,0,1,0,1,1,0,0]),
  ((6, 10), w [1,1,1,1,1,1,1,1,1,0,1,0,1,1,0,1]),
  ((7, 1), w [1,1,1,1,1,0,1,0]),
  ((7, 2), w [1,1,1,1,1,1,1,1,0,1,1,1]),
  ((7, 3), w [1,1,1,1,1,1,1,1,1,0,1,0,1,1,1,0]),
  ((7, 4), w [1,1,1,1,1,1,1,1,1,0,1,0,1,1,1,1]),
  ((7, 5), w [1,1,1,1,1,1,1,1,1,0,1,1,0,0,0,0]),
  ((7, 6), w [1,1,1,1,1,1,1,1,1,0,1,1,0,0,0,1]),
  ((7, 7), w [1,1,1,1,1,1,1,1,1,0,1,1,0,0,1,0]),
  ((7, 8), w [1,1,1,1,1,1,1,1,1,0,1,1,0,0,1,1]),
  ((7, 9), w [1,1,1,1,1,1,1,1,1,0,1,1,0,1,0,0]),
  ((7, 10), w [1,1,1,1,1,1,1,1,1,0,1,1,0,1,0,1]),
  ((8, 1), w [1,1,1,1,1,1,0,0,0]),
  ((8, 2), w [1,1,1,1,1,1,1,1,1,0,0,0,0,0,0]),
  ((8, 3), w [1,1,1,1,1,1,1,1,1,0,1,1,0,1,1,0]),
  ((8, 4), w [1,1,1,1,1,1,1,1,1,0,1,1,0,1,1,1]),
  ((8, 5), w [1,1,1,1,1,1,1,1,1,0,1,1,1,0,0,0]),
  ((8, 6), w [1,1,1,1,1,1,1,1,1,0,1,1,1,0,0,1]),
  ((8, 7), w [1,1,1,1,1,1,1,1,1,0,1,1,1,0,1,0]),
  ((8, 8), w [1,1,1,1,1,1,1,1,1,0,1,1,1,0,1,1]),
  ((8, 9), w [1,1,1,1,1,1,1,1,1,0,1,1,1,1,0,0]),
  ((8, 10), w [1,1,1,1,1,1,1,1,1,0,1,1,1,1,0,1]),
  ((9, 1), w [1,1,1,1,1,1,0,0,1]),
  ((9, 2), w [1,1,1,1,1,1,1,1,1,0,1,1,1,1,1,0]),
  ((9, 3), w [1,1,1,1,1,1,1,1,1,0,1,1,1,1,1,1]),
  ((9, 4), w [1,1,1,1,1,1,1,1,1,1,0,0,0,0,0,0]),
  ((9, 5), w [1,1,1,1,1,1,1,1,1,1,0,0,0,0,0,1]),
  ((9, 6), w [1,1,1,1,1,1,1,1,1,1,0,0,0,0,1,0]),
  ((9, 7), w [1,1,1,1,1,1,1,1,1,1,0,0,0,0,1,1]),
  ((9, 8), w [1,1,1,1,1,1,1,1,1,1,0,0,0,1,0,0]),
  ((9, 9), w [1,1,1,1,1,1,1,1,1,1,0,0,0,1,0,1]),
  ((9, 10), w [1,1,1,1,1,1,1,1,1,1,0,0,0,1,1,0]),
  ((10, 1), w [1,1,1,1,1,1,0,1,0]),
  ((10, 2), w [1,1,1,1,1,1,1,1,1,1,0,0,0,1,1,1]),
  ((10, 3), w [1,1,1,1,1,1,1,1,1,1,0,0,1,0,0,0]),
  ((10, 4), w [1,1,1,1,1,1,1,1,1,1,0,0,1,0,0,1]),
  ((10, 5), w [1,1,1,1,1,1,1,1,1,1,0,0,1,0,1,0]),
  ((10, 6), w [1,1,1,1,1,1,1,1,1,1,0,0,1,0,1,1]),
  ((10, 7), w [1,1,1,1,1,1,1,1,1,1,0,0,1,1,0,0]),
  ((10, 8), w [1,1,1,1,1,1,1,1,1,1,0,0,1,1,0,1]),
  ((10, 9), w [1,1,1,1,1,1,1,1,1,1,0,0,1,1,1,0]),
  ((10, 10), w [1,1,1,1,1,1,1,1,1,1,0,0,1,1,1,1]),
  ((11, 1), w [1,1,1,1,1,1,1,0,0,1]),
  ((11, 2), w [1,1,1,1,1,1,1,1,1,1,0,1,0,0,0,0]),
  ((11, 3), w [1,1,1,1,1,1,1,1,1,1,0,1,0,0,0,1]),
  ((11, 4), w [1,1,1,1,1,1,1,1,1,1,0,1,0,0,1,0]),
  ((11, 5), w [1,1,1,1,1,1,1,1,1,1,0,1,0,0,1,1]),
  ((11, 6), w [1,1,1,1,1,1,1,1,1,1,0,1,0,1,0,0]),
  ((11, 7), w [1,1,1,1,1,1,1,1,1,1,0,1,0,1,0,1]),
  ((11, 8), w [1,1,1,1,1,1,1,1,1,1,0,1,0,1,1,0]),
  ((11, 9), w [1,1,1,1,1,1,1,1,1,1,0,1,0,1,1,1]),
  ((11, 10), w [1,1,1,1,1,1,1,1,1,1,0,1,1,0,0,0]),
  ((12, 1), w [1,1,1,1,1,1,1,0,1,0]),
  ((12, 2), w [1,1,1,1,1,1,1,1,1,1,0,1,1,0,0,1]),
  ((12, 3), w [1,1,1,1,1,1,1,1,1,1,0,1,1,0,1,0]),
  ((12, 4), w [1,1,1,1,1,1,1,1,1,1,0,1,1,0,1,1]),
  ((12, 5), w [1,1,1,1,1,1,1,1,1,1,0,1,1,1,0,0]),
  ((12, 6), w [1,1,1,1,1,1,1,1,1,1,0,1,1,1,0,1]),
  ((12, 7), w [1,1,1,1,1,1,1,1,1,1,0,1,1,1,1,0]),
  ((12, 8), w [1,1,1,1,1,1,1,1,1,1,0,1,1,1,1,1]),
  ((12, 9), w [1,1,1,1,1,1,1,1,1,1,1,0,0,0,0,0]),
  ((12, 10), w [1,1,1,1,1,1,1,1,1,1,1,0,0,0,0,1]),
  ((13, 1), w [1,1,1,1,1,1,1,1,0,0,0]),
  ((13, 2), w [1,1,1,1,1,1,1,1,1,1,1,0,0,0,1,0]),
  ((13, 3), w [1,1,1,1,1,1,1,1,1,1,1,0,0,0,1,1]),
  ((13, 4), w [1,1,1,1,1,1,1,1,1,1,1,0,0,1,0,0]),
  ((13, 5), w [1,1,1,1,1,1,1,1,1,1,1,0,0,1,0,1]),
  ((13, 6), w [1,1,1,1,1,1,1,1,1,1,1,0,0,1,1,0]),
  ((13, 7), w [1,1,1,1,1,1,1,1,1,1,1,0,0,1,1,1]),
  ((13, 8), w [1,1,1,1,1,1,1,1,1,1,1,0,1,0,0,0]),
  ((13, 9), w [1,1,1,1,1,1,1,1,1,1,1,0,1,0,0,1]),
  ((13, 10), w [1,1,1,1,1,1,1,1,1,1,1,0,1,0,1,0]),
  ((14, 1), w [1,1,1,1,1,1,1,1,1,1,1,0,1,0,1,1]),
  ((14, 2), w [1,1,1,1,1,1,1,1,1,1,1,0,1,1,0,0]),
  ((14, 3), w [1,1,1,1,1,1,1,1,1,1,1,0,1,1,0,1]),
  ((14, 4), w [1,1,1,1,1,1,1,1,1,1,1,0,1,1,1,0]),
  ((14, 5), w [1,1,1,1,1,1,1,1,1,1,1,0,1,1,1,1]),
  ((14, 6), w [1,1,1,1,1,1,1,1,1,1,1,1,0,0,0,0]),
  ((14, 7), w [1,1,1,1,1,1,1,1,1,1,1,1,0,0,0,1]),
  ((14, 8), w [1,1,1,1,1,1,1,1,1,1,1,1,0,0,1,0]),
  ((14, 9), w [1,1,1,1,1,1,1,1,1,1,1,1,0,0,1,1]),
  ((14, 10), w [1,1,1,1,1,1,1,1,1,1,1,1,0,1,0,0]),
  ((15, 1), w [1,1,1,1,1,1,1,1,1,1,1,1,0,1,0,1]),
  ((15, 2), w [1,1,1,1,1,1,1,1,1,1,1,1,0,1,1,0]),
  ((15, 3), w [1,1,1,1,1,1,1,1,1,1,1,1,0,1,1,1]),
  ((15, 4), w [1,1,1,1,1,1,1,1,1,1,1,1,1,0,0,0]),
  ((15, 5), w [1,1,1,1,1,1,1,1,1,1,1,1,1,0,0,1]),
  ((15, 6), w [1,1,1,1,1,1,1,1,1,1,1,1,1,0,1,0]),
  ((15, 7), w [1,1,1,1,1,1,1,1,1,1,1,1,1,0,1,1]),
  ((15, 8), w [1,1,1,1,1,1,1,1,1,1,1,1,1,1,0,0]),
  ((15, 9), w [1,1,1,1,1,1,1,1,1,1,1,1,1,1,0,1]),
  ((15, 10), w [1,1,1,1,1,1,1,1,1,1,1,1,1,1,1,0])
]

def ac_chrominance_codewords : List ((Nat × Nat) × List Bool) := [
  ((0, 0), w [0,0]),
  ((15, 0), w [1,1,1,1,1,1,1,0,1,0]),
  ((0, 1), w [0,1]),
  ((0, 2), w [1,0,0]),
  ((0, 3), w [1,0,1,0]),
  ((0, 4), w [1,1,0,0,0]),
  ((0, 5), w [1,1,0,0,1]),
  ((0, 6), w [1,1,1,0,0,0]),
  ((0, 7), w [1,1,1,1,0,0,0]),
  ((0, 8), w [1,1,1,1,1,0,1,0,0]),
  ((0, 9), w [1,1,1,1,1,1,0,1,1,0]),
  ((0, 10), w [1,1,1,1,1,1,1,1,0,1,0,0]),
  ((1, 1), w [1,0,1,1]),
  ((1, 2), w [1,1,1,0,0,1]),
  ((1, 3), w [1,1,1,1,0,1,1,0]),
  ((1, 4), w [1,1,1,1,1,0,1,0,1]),
  ((1, 5), w [1,1,1,1,1,1,1,0,1,1,0]),
  ((1, 6), w [1,1,1,1,1,1,1,1,0,1,0,1]),
  ((1, 7), w [1,1,1,1,1,1,1,1,1,0,0,0,1,0,0,0]),
  ((1, 8), w [1,1,1,1,1,1,1,1,1,0,0,0,1,0,0,1]),
  ((1, 9), w [1,1,1,1,1,1,1,1,1,0,0,0,1,0,1,0]),
  ((1, 10), w [1,1,1,1,1,1,1,1,1,0,0,0,1,0,1,1]),
  ((2, 1), w [1,1,0,1,0]),
  ((2, 2), w [1,1,1,1,0,1,1,1]),
  ((2, 3), w [1,1,1,1,1,1,0,1,1,1]),
  ((2, 4), w [1,1,1,1,1,1,1,1,0,1,1,0]),
  ((2, 5), w [1,1,1,1,1,1,1,1,1,0,0,0,0,1,0]),
  ((2, 6), w [1,1,1,1,1,1,1,1,1,0,0,0,1,1,0,0]),
  ((2, 7), w [1,1,1,1,1,1,1,1,1,0,0,0,1,1,0,1]),
  ((2, 8), w [1,1,1,1,1,1,1,1,1,0,0,0,1,1,1,0]),
  ((2, 9), w [1,1,1,1,1,1,1,1,1,0,0,0,1,1,1,1]),
  ((2, 10), w [1,1,1,1,1,1,1,1,1,0,0,1,0,0,0,0]),
  ((3, 1), w [1,1,0,1,1]),
  ((3, 2), w [1,1,1,1,1,0,0,0]),
  ((3, 3), w [1,1,1,1,1,1,1,0,0,0]),
  ((3, 4), w [1,1,1,1,1,1,1,1,0,1,1,1]),
  ((3, 5), w [1,1,1,1,1,1,1,1,1,0,0,1,0,0,0,1]),
  ((3, 6), w [1,1,1,1,1,1,1,1,1,0,0,1,0,0,1,0]),
  ((3, 7), w [1,1,1,1,1,1,1,1,1,0,0,1,0,0,1,1]),
  ((3, 8), w [1,1,1,1,1,1,1,1,1,0,0,1,0,1,0,0]),
  ((3, 9), w [1,1,1,1,1,1,1,1,1,0,0,1,0,1,0,1]),
  ((3, 10), w [1,1,1,1,1,1,1,1,1,0,0,1,0,1,1,0]),
  ((4, 1), w [1,1,1,0,1,0]),
  ((4, 2), w [1,1,1,1,1,0,1,1,0]),
  ((4, 3), w [1,1,1,1,1,1,1,1,1,0,0,1,0,1,1,1]),
  ((4, 4), w [1,1,1,1,1,1,1,1,1,0,0,1,1,0,0,0]),
  ((4, 5), w [1,1,1,1,1,1,1,1,1,0,0,1,1,0,0,1]),
  ((4, 6), w [1,1,1,1,1,1,1,1,1,0,0,1,1,0,1,0]),
  ((4, 7), w [1,1,1,1,1,1,1,1,1,0,0,1,1,0,1,1]),
  ((4, 8), w [1,1,1,1,1,1,1,1,1,0,0,1,1,1,0,0]),
  ((4, 9), w [1,1,1,1,1,1,1,1,1,0,0,1,1,1,0,1]),
  ((4, 10), w [1,1,1,1,1,1,1,1,1,0,0,1,1,1,1,0]),
  ((5, 1), w [1,1,1,0,1,1]),
  ((5, 2), w [1,1,1,1,1,1,1,0,0,1]),
  ((5, 3), w [1,1,1,1,1,1,1,1,1,0,0,1,1,1,1,1]),
  ((5, 4), w [1,1,1,1,1,1,1,1,1,0,1,0,0,0,0,0]),
  ((5, 5), w [1,1,1,1,1,1,1,1,1,0,1,0,0,0,0,1]),
  ((5, 6), w [1,1,1,1,1,1,1,1,1,0,1,0,0,0,1,0]),
  ((5, 7), w [1,1,1,1,1,1,1,1,1,0,1,0,0,0,1,1]),
  ((5, 8), w [1,1,1,1,1,1,1,1,1,0,1,0,0,1,0,0]),
  ((5, 9), w [1,1,1,1,1,1,1,1,1,0,1,0,0,1,0,1]),
  ((5, 10), w [1,1,1,1,1,1,1,1,1,0,1,0,0,1,1,0]),
  ((6, 1), w [1,1,1,1,0,0,1]),
  ((6, 2), w [1,1,1,1,1,1,1,0,1,1,1]),
  ((6, 3), w [1,1,1,1,1,1,1,1,1,0,1,0,0,1,1,1]),
  ((6, 4), w [1,1,1,1,1,1,1,1,1,0,1,0,1,0,0,0]),
  ((6, 5), w [1,1,1,1,1,1,1,1,1,0,1,0,1,0,0,1]),
  ((6, 6), w [1,1,1,1,1,1,1,1,1,0,1,0,1,0,1,0]),
  ((6, 7), w [1,1,1,1,1,1,1,1,1,0,1,0,1,0,1,1]),
  ((6, 8), w [1,1,1,1,1,1,1,1,1,0,1,0,1,1,0,0]),
  ((6, 9), w [1,1,1,1,1,1,1,1,1,0,1,0,1,1,0,1]),
  ((6, 10), w [1,1,1,1,1,1,1,1,1,0,1,0,1,1,1,0]),
  ((7, 1), w [1,1,1,1,0,1,0]),
  ((7, 2), w [1,1,1,1,1,1,1,1,0,0,0,0]),
  ((7, 3), w [1,1,1,1,1,1,1,1,1,0,1,0,1,1,1,1]),
  ((7, 4), w [1,1,1,1,1,1,1,1,1,0,1,1,0,0,0,0]),
  ((7, 5), w [1,1,1,1,1,1,1,1,1,0,1,1,0,0,0,1]),
  ((7, 6), w [1,1,1,1,1,1,1,1,1,0,1,1,0,0,1,0]),
  ((7, 7), w [1,1,1,1,1,1,1,1,1,0,1,1,0,0,1,1]),
  ((7, 8), w [1,1,1,1,1,1,1,1,1,0,1,1,0,1,0,0]),
  ((7, 9), w [1,1,1,1,1,1,1,1,1,0,1,1,0,1,0,1]),
  ((7, 10), w [1,1,1,1,1,1,1,1,1,0,1,1,0,1,1,0]),
  ((8, 1), w [1,1,1,1,1,0,0,1]),
  ((8, 2), w [1,1,1,1,1,1,1,1,1,0,1,1,0,1,1,1]),
  ((8, 3), w [1,1,1,1,1,1,1,1,1,0,1,1,1,0,0,0]),
  ((8, 4), w [1,1,1,1,1,1,1,1,1,0,1,1,1,0,0,1]),
  ((8, 5), w [1,1,1,1,1,1,1,1,1,0,1,1,1,0,1,0]),
  ((8, 6), w [1,1,1,1,1,1,1,1,1,0,1,1,1,0,1,1]),
  ((8, 7), w [1,1,1,1,1,1,1,1,1,0,1,1,1,1,0,0]),
  ((8, 8), w [1,1,1,1,1,1,1,1,1,0,1,1,1,1,0,1]),
  ((8, 9), w [1,1,1,1,1,1,1,1,1,0,1,1,1,1,1,0]),
  ((8, 10), w [1,1,1,1,1,1,1,1,1,0,1,1,1,1,1,1]),
  ((9, 1), w [1,1,1,1,1,0,1,1,1]),
  ((9, 2), w [1,1,1,1,1,1,1,1,1,1,0,0,0,0,0,0]),
  ((9, 3), w [1,1,1,1,1,1,1,1,1,1,0,0,0,0,0,1]),
  ((9, 4), w [1,1,1,1,1,1,1,1,1,1,0,0,0,0,1,0]),
  ((9, 5), w [1,1,1,1,1,1,1,1,1,1,0,0,0,0,1,1]),
  ((9, 6), w [1,1,1,1,1,1,1,1,1,1,0,0,0,1,0,0]),
  ((9, 7), w [1,1,1,1,1,1,1,1,1,1,0,0,0,1,0,1]),
  ((9, 8), w [1,1,1,1,1,1,1,1,1,1,0,0,0,1,1,0]),
  ((9, 9), w [1,1,1,1,1,1,1,1,1,1,0,0,0,1,1,1]),
  ((9, 10), w [1,1,1,1,1,1,1,1,1,1,0,0,1,0,0,0]),
  ((10, 1), w [1,1,1,1,1,1,0,0,0]),
  ((10, 2), w [1,1,1,1,1,1,1,1,1,1,0,0,1,0,0,1]),
  ((10, 3), w [1,1,1,1,1,1,1,1,1,1,0,0,1,0,1,0]),
  ((10, 4), w [1,1,1,1,1,1,1,1,1,1,0,0,1,0,1,1]),
  ((10, 5), w [1,1,1,1,1,1,1,1,1,1,0,0,1,1,0,0]),
  ((10, 6), w [1,1,1,1,1,1,1,1,1,1,0,0,1,1,0,1]),
  ((10, 7), w [1,1,1,1,1,1,1,1,1,1,0,0,1,1,1,0]),
  ((10, 8), w [1,1,1,1,1,1,1,1,1,1,0,0,1,1,1,1]),
  ((10, 9), w [1,1,1,1,1,1,1,1,1,1,0,1,0,0,0,0]),
  ((10, 10), w [1,1,1,1,1,1,1,1,1,1,0,1,0,0,0,1]),
  ((11, 1), w [1,1,1,1,1,1,0,0,1]),
  ((11, 2), w [1,1,1,1,1,1,1,1,1,1,0,1,0,0,1,0]),
  ((11, 3), w [1,1,1,1,1,1,1,1,1,1,0,1,0,0,1,1]),
  ((11, 4), w [1,1,1,1,1,1,1,1,1,1,0,1,0,1,0,0]),
  ((11, 5), w [1,1,1,1,1,1,1,1,1,1,0,1,0,1,0,1]),
  ((11, 6), w [1,1,1,1,1,1,1,1,1,1,0,1,0,1,1,0]),
  ((11, 7), w [1,1,1,1,1,1,1,1,1,1,0,1,0,1,1,1]),
  ((11, 8), w [1,1,1,1,1,1,1,1,1,1,0,1,1,0,0,0]),
  ((11, 9), w [1,1,1,1,1,1,1,1,1,1,0,1,1,0,0,1]),
  ((11, 10), w [1,1,1,1,1,1,1,1,1,1,0,1,1,0,1,0]),
  ((12, 1), w [1,1,1,1,1,1,0,1,0]),
  ((12, 2), w [1,1,1,1,1,1,1,1,1,1,0,1,1,0,1,1]),
  ((12, 3), w [1,1,1,1,1,1,1,1,1,1,0,1,1,1,0,0]),
  ((12, 4), w [1,1,1,1,1,1,1,1,1,1,0,1,1,1,0,1]),
  ((12, 5), w [1,1,1,1,1,1,1,1,1,1,0,1,1,1,1,0]),
  ((12, 6), w [1,1,1,1,1,1,1,1,1,1,0,1,1,1,1,1]),
  ((12, 7), w [1,1,1,1,1,1,1,1,1,1,1,0,0,0,0,0]),
  ((12, 8), w [1,1,1,1,1,1,1,1,1,1,1,0,0,0,0,1]),
  ((12, 9), w [1,1,1,1,1,1,1,1,1,1,1,0,0,0,1,0]),
  ((12, 10), w [1,1,1,1,1,1,1,1,1,1,1,0,0,0,1,1]),
  ((13, 1), w [1,1,1,1,1,1,1,1,0,0,1]),
  ((13, 2), w [1,1,1,1,1,1,1,1,1,1,1,0,0,1,0,0]),
  ((13, 3), w [1,1,1,1,1,1,1,1,1,1,1,0,0,1,0,1]),
  ((13, 4), w [1,1,1,1,1,1,1,1,1,1,1,0,0,1,1,0]),
  ((13, 5), w [1,1,1,1,1,1,1,1,1,1,1,0,0,1,1,1]),
  ((13, 6), w [1,1,1,1,1,1,1,1,1,1,1,0,1,0,0,0]),
  ((13, 7), w [1,1,1,1,1,1,1,1,1,1,1,0,1,0,0,1]),
  ((13, 8), w [1,1,1,1,1,1,1,1,1,1,1,0,1,0,1,0]),
  ((13, 9), w [1,1,1,1,1,1,1,1,1,1,1,0,1,0,1,1]),
  ((13, 10), w [1,1,1,1,1,1,1,1,1,1,1,0,1,1,0,0]),
  ((14, 1), w [1,1,1,1,1,1,1,1,1,0,0,0,0,0]),
  ((14, 2), w [1,1,1,1,1,1,1,1,1,1,1,0,1,1,0,1]),
  ((14, 3), w [1,1,1,1,1,1,1,1,1,1,1,0,1,1,1,0]),
  ((14, 4), w [1,1,1,1,1,1,1,1,1,1,1,0,1,1,1,1]),
  ((14, 5), w [1,1,1,1,1,1,1,1,1,1,1,1,0,0,0,0]),
  ((14, 6), w [1,1,1,1,1,1,1,1,1,1,1,1,0,0,0,1]),
  ((14, 7), w [1,1,1,1,1,1,1,1,1,1,1,1,0,0,1,0]),
  ((14, 8), w [1,1,1,1,1,1,1,1,1,1,1,1,0,0,1,1]),
  ((14, 9), w [1,1,1,1,1,1,1,1,1,1,1,1,0,1,0,0]),
  ((14, 10), w [1,1,1,1,1,1,1,1,1,1,1,1,0,1,0,1]),
  ((15, 1), w [1,1,1,1,1,1,1,1,1,0,0,0,0,1,1]),
  ((15, 2), w [1,1,1,1,1,1,1,1,1,1,1,1,0,1,1,0]),
  ((15, 3), w [1,1,1,1,1,1,1,1,1,1,1,1,0,1,1,1]),
  ((15, 4), w [1,1,1,1,1,1,1,1,1,1,1,1,1,0,0,0]),
  ((15, 5), w [1,1,1,1,1,1,1,1,1,1,1,1,1,0,0,1]),
  ((15, 6), w [1,1,1,1,1,1,1,1,1,1,1,1,1,0,1,0]),
  ((15, 7), w [1,1,1,1,1,1,1,1,1,1,1,1,1,0,1,1]),
  ((15, 8), w [1,1,1,1,1,1,1,1,1,1,1,1,1,1,0,0]),
  ((15, 9), w [1,1,1,1,1,1,1,1,1,1,1,1,1,1,0,1]),
  ((15, 10), w [1,1,1,1,1,1,1,1,1,1,1,1,1,1,1,0])
]

/-- DC half of `HUFFMAN_CATEGORY_CODEWORD`, selected by layer type. -/
def dc_codewords : LayerType → List (Nat × List Bool)
  | .luminance => dc_luminance_codewords
  | .chrominance => dc_chrominance_codewords

/-- AC half of `HUFFMAN_CATEGORY_CODEWORD`, selected by layer type. -/
def ac_codewords : LayerType → List ((Nat × Nat) × List Bool)
  | .luminance => ac_luminance_codewords
  | .chrominance => ac_chrominance_codewords

/-- Forward lookup in a codeword table (Python dict access by key). -/
def lookupKey {K : Type} [DecidableEq K] (tbl : List (K × List Bool)) (k : K) :
    Option (List Bool) :=
  (tbl.find? (fun kv => kv.1 == k)).map (fun kv => kv.2)

/-- Inner loop of `index_2d` (codec.py 208-213): position of the first
occurrence of `target` in one row. -/
def row_index (target : Int) : List Int → Option Nat
  | [] => none
  | x :: xs => if x = target then some 0 else (row_index target xs).map (· + 1)

/-- Scan of `index_2d` starting at row number `i`. -/
def index_2d_from (target : Int) (i : Nat) : List (List Int) → Option (Nat × Nat)
  | [] => none
  | row :: rows =>
      match row_index target row with
      | some j => some (i, j)
      | none => index_2d_from target (i + 1) rows

/-- index_2d (codec.py 208-213): first (row, column) holding `target`;
`none` is the ValueError. -/
def index_2d (table : List (List Int)) (target : Int) : Option (Nat × Nat) :=
  index_2d_from target 0 table

/-- Big-endian binary of `n`, exactly `s` bits. Models the Python
`'{:0{padding}b}'.format(n, padding=s)`, with which it agrees whenever
`n < 2 ^ s` — always the case at the call sites, where `n` is a position
inside a category row of length `2 ^ s`. -/
def natToBits : Nat → Nat → List Bool
  | 0, _ => []
  | s + 1, n => natToBits s (n / 2) ++ [n % 2 == 1]

/-- Big-endian parse of a bit string, Python `int(bits, 2)`. -/
def bitsToNat (l : List Bool) : Nat :=
  l.foldl (fun n b => 2 * n + (if b then 1 else 0)) 0

/-- DC branch of `encode_huffman` (codec.py 215-226). -/
def encode_huffman_dc (value : Int) (layer : LayerType) : Option (List Bool) :=
  if value ≤ -2048 ∨ 2048 ≤ value then none
  else
    match index_2d HUFFMAN_CATEGORIES value with
    | none => none
    | some (size, fixed_code_idx) =>
        match lookupKey (dc_codewords layer) size with
        | none => none
        | some cw =>
            if size = 0 then some cw else some (cw ++ natToBits size fixed_code_idx)

/-- AC branch of `encode_huffman` (codec.py 227-241). -/
def encode_huffman_ac (value : Nat × Int) (layer : LayerType) : Option (List Bool) :=
  if value = EOB then lookupKey (ac_codewords layer) (0, 0)
  else if value = ZRL then lookupKey (ac_codewords layer) (15, 0)
  else
    if value.2 = 0 ∨ value.2 ≤ -1024 ∨ 1024 ≤ value.2 then none
    else
      match index_2d HUFFMAN_CATEGORIES value.2 with
      | none => none
      | some (size, fixed_code_idx) =>
          (lookupKey (ac_codewords layer) (value.1, size)).map
            (· ++ natToBits size fixed_code_idx)

/-- Inner loop of `decode_huffman` (codec.py 286-317): try `window.take n`
for `n` from `window.length` down to 1 against the codeword column
(`bidict.inv`); result is the key found and the matched length.
`none` is the KeyError raised when no slice matches. -/
def strip_match {K : Type} [DecidableEq K] (tbl : List (K × List Bool))
    (window : List Bool) : Nat → Option (K × Nat)
  | 0 => none
  | n + 1 =>
      match tbl.find? (fun kv => kv.2 == window.take (n + 1)) with
      | some kv => some (kv.1, n + 1)
      | none => strip_match tbl window n

/-- DC direction of `decode_huffman` (codec.py 244-317). The fuel drops by
one per decoded symbol; the caller passes `bits.length`, always enough
because each symbol consumes at least one bit. The `after` guard is the
IndexError of `diff_value`; the category lookup mirrors
`HUFFMAN_CATEGORIES[size][diff_value(...)]`. -/
def decode_huffman_dc_go (layer : LayerType) : Nat → List Bool → Option (List Int)
  | _, [] => some []
  | 0, _ :: _ => none
  | fuel + 1, b :: bs =>
      let bits := b :: bs
      let window := bits.take 16
      match strip_match (dc_codewords layer) window window.length with
      | none => none
      | some (size, clen) =>
          if size = 0 then
            (decode_huffman_dc_go layer fuel (bits.drop clen)).map (fun r => 0 :: r)
          else
            let after := bits.drop clen
            if after.length = 0 ∨ after.length < size then none
            else
              match (HUFFMAN_CATEGORIES.get? size).bind
                  (fun row => row.get? (bitsToNat (after.take size))) with
              | none => none
              | some v =>
                  (decode_huffman_dc_go layer fuel (bits.drop (clen + size))).map
                    (fun r => v :: r)

/-- decode_huffman with dc_ac = DC. -/
def decode_huffman_dc (bit_seq : List Bool) (layer : LayerType) : Option (List Int) :=
  decode_huffman_dc_go layer bit_seq.length bit_seq

/-- AC direction of `decode_huffman` (codec.py 244-317): EOB and ZRL are
yielded verbatim, every other key `(run, size)` yields
`(run, HUFFMAN_CATEGORIES[size][diff_value(...)])`. -/
def decode_huffman_ac_go (layer : LayerType) :
    Nat → List Bool → Option (List (Nat × Int))
  | _, [] => some []
  | 0, _ :: _ => none
  | fuel + 1, b :: bs =>
      let bits := b :: bs
      let window := bits.take 16
      match strip_match (ac_codewords layer) window window.length with
      | none => none
      | some (key, clen) =>
          if key = (0, 0) ∨ key = (15, 0) then
            (decode_huffman_ac_go layer fuel (bits.drop (clen + key.2))).map
              (fun r => (key.1, (key.2 : Int)) :: r)
          else
            let after := bits.drop clen
            if after.length = 0 ∨ after.length < key.2 then none
            else
              match (HUFFMAN_CATEGORIES.get? key.2).bind
                  (fun row => row.get? (bitsToNat (after.take key.2))) with
              | none => none
              | some v =>
                  (decode_huffman_ac_go layer fuel (bits.drop (clen + key.2))).map
                    (fun r => (key.1, v) :: r)

/-- decode_huffman with dc_ac = AC. -/
def decode_huffman_ac (bit_seq : List Bool) (layer : LayerType) :
    Option (List (Nat × Int)) :=
  decode_huffman_ac_go layer bit_seq.length bit_seq

/-- Tail of `encode_differential` (codec.py 320-324): differences against
the previous element. -/
def diff_from (prev : Int) : List Int → List Int
  | [] => []
  | x :: xs => (x - prev) :: diff_from x xs

/-- encode_differential (codec.py 320-324). -/
def encode_differential : List Int → List Int
  | [] => []
  | x :: xs => x :: diff_from x xs

/-- Running sums of `decode_differential`, starting from `acc`. -/
def acc_from (acc : Int) : List Int → List Int
  | [] => []
  | x :: xs => (acc + x) :: acc_from (acc + x) xs

/-- decode_differential (codec.py 327-328): itertools.accumulate. -/
def decode_differential (seq : List Int) : List Int := acc_from 0 seq

/-- itertools.groupby in `encode_run_length`: maximal runs of equal values
as (length, key) pairs. -/
def group_runs : List Int → List (Nat × Int)
  | [] => []
  | x :: xs =>
      match group_runs xs with
      | [] => [(1, x)]
      | (n, k) :: rest =>
          if k = x then (n + 1, x) :: rest else (1, x) :: (n, k) :: rest

/-- Main loop of `encode_run_length` (codec.py 338-352) over the group
list, with the borrow flag. In the zero-key branch the source reads
`groups[idx + 1][1]`; `none` is the IndexError when there is no next
group. The replicate of ZRL is the `while length >= 16` loop. -/
def run_length_groups : List (Nat × Int) → Bool → Option (List (Nat × Int))
  | [], _ => some []
  | (len, key) :: rest, borrow =>
      let len1 := if borrow then len - 1 else len
      if len1 = 0 then run_length_groups rest false
      else if key = 0 then
        match rest with
        | [] => none
        | (_, nk) :: _ =>
            (run_length_groups rest true).map
              (fun tail => List.replicate (len1 / 16) ZRL ++ (len1 % 16, nk) :: tail)
      else
        (run_length_groups rest false).map
          (fun tail => List.replicate len1 (0, key) ++ tail)

/-- encode_run_length (codec.py 331-353). `none` covers the IndexError on
empty input (`groups[-1]`). A trailing all-zero group is dropped, the
group loop runs, and EOB is appended. -/
def encode_run_length (seq : List Int) : Option (List (Nat × Int)) :=
  match group_runs seq with
  | [] => none
  | g :: gs =>
      let groups := g :: gs
      let groups1 := if (groups.getLastD (0, 0)).2 = 0 then groups.dropLast else groups
      (run_length_groups groups1 false).map (fun ret => ret ++ [EOB])

/-- decode_run_length (codec.py 356-358): each pair (l, k) becomes l zeros
then k; the final element (the zero attached to EOB) is stripped. -/
def decode_run_length (seq : List (Nat × Int)) : List Int :=
  ((seq.map (fun p => List.replicate p.1 0 ++ [p.2])).flatten).dropLast

/-- move_zig_zag_idx (codec.py 393-396); Nat subtraction is max(0, i-1). -/
def move_zig_zag_idx (i j size : Nat) : Nat × Nat :=
  if j < size - 1 then (i - 1, j + 1) else (i + 1, j)

/-- One advance of the cursor (x, y) shared by `iter_zig_zag` and
`inverse_iter_zig_zag`: on odd diagonals `x, y = move(x, y)`, on even
diagonals `y, x = move(y, x)`. -/
def zig_zag_step (size : Nat) (p : Nat × Nat) : Nat × Nat :=
  if (p.1 + p.2) % 2 = 1 then
    move_zig_zag_idx p.1 p.2 size
  else
    let yx := move_zig_zag_idx p.2 p.1 size
    (yx.2, yx.1)

/-- The cursor positions visited, starting at `p`, for `n` iterations. -/
def zig_zag_path_from (size : Nat) (p : Nat × Nat) : Nat → List (Nat × Nat)
  | 0 => []
  | n + 1 => p :: zig_zag_path_from size (zig_zag_step size p) n

/-- iter_zig_zag (codec.py 361-370) on an N×N matrix given as a function
`m row col`; each visited position (x, y) yields `data[y][x]`. The numpy
shape (and its squareness check) is the explicit `size` argument here. -/
def iter_zig_zag (size : Nat) (m : Nat → Nat → Int) : List Int :=
  (zig_zag_path_from size (0, 0) (size * size)).map (fun p => m p.2 p.1)

/-- smallest_square_larger_than (codec.py 374-377). -/
def smallest_square_larger_than (value : Nat) : Nat :=
  if value ≤ Nat.sqrt value * Nat.sqrt value then Nat.sqrt value
  else Nat.sqrt value + 1

/-- The write loop of `inverse_iter_zig_zag`: store each value at the
cursor (`ret[y][x] = value`); a later write to the same cell wins. -/
def write_along : List (Nat × Nat) → List Int → (Nat → Nat → Int) → Nat → Nat → Int
  | p :: ps, v :: vs, m =>
      write_along ps vs (fun r c => if r = p.2 ∧ c = p.1 then v else m r c)
  | _, _, m => m

/-- np.empty: an uninitialized matrix, modelled as zeros. Every theorem
below reads only cells the write loop filled (the zig-zag path covers the
whole square), so the stand-in initial contents never show through. -/
def np_empty : Nat → Nat → Int := fun _ _ => 0

/-- inverse_iter_zig_zag (codec.py 373-390), write loop only: pad `seq`
with `fill` up to `size * size` (a sequence already longer gains nothing,
as in Python), then write the values along the zig-zag path. This total
version is the in-square fragment; `inverse_iter_zig_zag_checked` below
adds numpy's IndexError on an out-of-square write. -/
def inverse_iter_zig_zag (seq : List Int) (size : Option Nat) (fill : Int) :
    Nat → Nat → Int :=
  let n := size.getD (smallest_square_larger_than seq.length)
  let padded := seq ++ List.replicate (n * n - seq.length) fill
  write_along (zig_zag_path_from n (0, 0) padded.length) padded np_empty

/-- The write loop of `inverse_iter_zig_zag` with numpy's bounds check:
`ret[y][x] = value` on a `size`×`size` array raises IndexError (here:
`none`) as soon as the cursor leaves the square. -/
def write_along_checked (size : Nat) :
    List (Nat × Nat) → List Int → (Nat → Nat → Int) →
      Option (Nat → Nat → Int)
  | p :: ps, v :: vs, m =>
      if p.2 < size ∧ p.1 < size then
        write_along_checked size ps vs
          (fun r c => if r = p.2 ∧ c = p.1 then v else m r c)
      else none
  | _, _, m => some m

/-- inverse_iter_zig_zag (codec.py 373-390) with the error path: when the
padded sequence is longer than `size * size` the cursor steps outside the
`np.empty((size, size))` array and the write raises IndexError. -/
def inverse_iter_zig_zag_checked (seq : List Int) (size : Option Nat)
    (fill : Int) : Option (Nat → Nat → Int) :=
  let n := size.getD (smallest_square_larger_than seq.length)
  let padded := seq ++ List.replicate (n * n - seq.length) fill
  write_along_checked n (zig_zag_path_from n (0, 0) padded.length) padded np_empty

/-- Loop of `isplit` inside `Decoder._get_ac` (codec.py 177-183): chunks
ending with the splitter; items after the last splitter are dropped. -/
def isplit_go (splitter : Nat × Int) (ret : List (Nat × Int)) :
    List (Nat × Int) → List (List (Nat × Int))
  | [] => []
  | item :: rest =>
      if item = splitter then (ret ++ [item]) :: isplit_go splitter [] rest
      else isplit_go splitter (ret ++ [item]) rest

/-- isplit (codec.py 177-183). -/
def isplit (l : List (Nat × Int)) (splitter : Nat × Int) : List (List (Nat × Int)) :=
  isplit_go splitter [] l

/-- An 8×8 block of quantized coefficients. -/
abbrev Block : Type := Fin 8 → Fin 8 → Int

/-- A block as a total matrix function (cells outside 8×8 read 0). -/
def toMat (b : Block) : Nat → Nat → Int := fun r c =>
  if hr : r < 8 then if hc : c < 8 then b ⟨r, hr⟩ ⟨c, hc⟩ else 0 else 0

/-- DC column of a layer: block[0][0] of each block (codec.py 91). -/
def layer_dc (blocks : List Block) : List Int := blocks.map (fun b => toMat b 0 0)

/-- Per-block AC coefficients: list(iter_zig_zag(block))[1:] (codec.py 106). -/
def block_ac (b : Block) : List Int := (iter_zig_zag 8 (toMat b)).tail

/-- Encoder._get_diff_dc for one layer (codec.py 83-92). -/
def layer_diff_dc (blocks : List Block) : List Int :=
  encode_differential (layer_dc blocks)

/-- Encoder._get_run_length_ac for one layer (codec.py 94-107): the
concatenation of every block's run-length symbols. -/
def layer_run_length_ac (blocks : List Block) : Option (List (Nat × Int)) :=
  (blocks.mapM (fun b => encode_run_length (block_ac b))).map List.flatten

/-- Huffman-encoded DC bit stream of one layer (Encoder.encode, 75-76). -/
def encode_dc_bits (vals : List Int) (layer : LayerType) : Option (List Bool) :=
  (vals.mapM (fun v => encode_huffman_dc v layer)).map List.flatten

/-- Huffman-encoded AC bit stream of one layer (Encoder.encode, 77-80). -/
def encode_ac_bits (syms : List (Nat × Int)) (layer : LayerType) : Option (List Bool) :=
  (syms.mapM (fun s => encode_huffman_ac s layer)).map List.flatten

/-- Encoder.encode (codec.py 18-107): luminance layer is y, chrominance is
cb ++ cr (np.vstack). Result: (DC luma, DC chroma, AC luma, AC chroma). -/
def encoder_encode (y cb cr : List Block) :
    Option (List Bool × List Bool × List Bool × List Bool) := do
  let dcl ← encode_dc_bits (layer_diff_dc y) .luminance
  let dcc ← encode_dc_bits (layer_diff_dc (cb ++ cr)) .chrominance
  let acl ← (layer_run_length_ac y).bind (fun s => encode_ac_bits s .luminance)
  let acc2 ← (layer_run_length_ac (cb ++ cr)).bind (fun s => encode_ac_bits s .chrominance)
  some (dcl, dcc, acl, acc2)

/-- Decoder._get_dc for one layer (codec.py 170-174). -/
def decoder_dc (bits : List Bool) (layer : LayerType) : Option (List Int) :=
  (decode_huffman_dc bits layer).map decode_differential

/-- Decoder._get_ac for one layer (codec.py 176-190). -/
def decoder_ac (bits : List Bool) (layer : LayerType) : Option (List (List Int)) :=
  (decode_huffman_ac bits layer).map
    (fun syms => (isplit syms EOB).map decode_run_length)

/-- One reconstructed block: inverse_iter_zig_zag((dc,) + ac, size=8)
(codec.py 145-148), read back as an 8×8 block (total version, defined for
the in-square case). -/
def rebuild_block (dc : Int) (ac : List Int) : Block :=
  fun r c => inverse_iter_zig_zag (dc :: ac) (some 8) 0 r c

/-- One reconstructed block with the error path: `none` exactly when the
numpy write loop of `inverse_iter_zig_zag((dc,) + ac, size=8)` would
raise IndexError (the group carries more than 63 AC values). -/
def rebuild_block_checked (dc : Int) (ac : List Int) : Option Block :=
  (inverse_iter_zig_zag_checked (dc :: ac) (some 8) 0).map
    (fun m => fun r c => m r c)

/-- Decoder.decode (codec.py 131-156): the chrominance parity check, then
per layer (luminance first) the length check followed by the block
rebuilds — which, as in numpy, fail on a group longer than 63 AC values —
then the np.split of the chrominance blocks into cb and cr halves. -/
def decoder_decode (dcl dcc acl acc2 : List Bool) :
    Option (List Block × List Block × List Block) := do
  let dcY ← decoder_dc dcl .luminance
  let dcC ← decoder_dc dcc .chrominance
  let acY ← decoder_ac acl .luminance
  let acC ← decoder_ac acc2 .chrominance
  if dcC.length % 2 = 1 ∨ acC.length % 2 = 1 then none
  else if dcY.length ≠ acY.length then none
  else do
    let shapedY ← (dcY.zip acY).mapM (fun p => rebuild_block_checked p.1 p.2)
    if dcC.length ≠ acC.length then none
    else do
      let shapedC ← (dcC.zip acC).mapM (fun p => rebuild_block_checked p.1 p.2)
      some (shapedY, shapedC.take (shapedC.length / 2),
        shapedC.drop (shapedC.length / 2))

/-! Generic helpers: fast boolean checks with soundness bridges, and
association-list lookup facts. -/

/-- Boolean pairwise check (fast to evaluate in the kernel). -/
def pairwiseOk {α : Type} (f : α → α → Bool) : List α → Bool
  | [] => true
  | x :: xs => xs.all (f x) && pairwiseOk f xs

theorem pairwiseOk_pairwise {α : Type} {f : α → α → Bool} {R : α → α → Prop}
    (hf : ∀ a b, f a b = true → R a b) :
    ∀ l, pairwiseOk f l = true → List.Pairwise R l
  | [], _ => List.Pairwise.nil
  | x :: xs, h => by
      simp only [pairwiseOk, Bool.and_eq_true, List.all_eq_true] at h
      exact List.Pairwise.cons (fun b hb => hf _ _ (h.1 b hb))
        (pairwiseOk_pairwise hf xs h.2)

theorem all_imp {α : Type} {f : α → Bool} {P : α → Prop}
    (hf : ∀ a, f a = true → P a) (l : List α) (h : l.all f = true) :
    ∀ a ∈ l, P a := by
  intro a ha
  exact hf a ((List.all_eq_true.mp h) a ha)

/-- A codeword table is prefix-free: between any two entries, neither
codeword is a prefix of the other (so in particular all codewords are
distinct and nonconflicting for decoding). -/
def PrefFree {K : Type} (tbl : List (K × List Bool)) : Prop :=
  List.Pairwise (fun a b => ¬ a.2 <+: b.2 ∧ ¬ b.2 <+: a.2) tbl

/-- Numeric fingerprint of a codeword: its length paired with its value as
a big-endian binary numeral (cheap for the kernel to compare). -/
def cwCode (bs : List Bool) : Nat × Nat := (bs.length, bitsToNat bs)

/-- Prefix test on fingerprints: plain arithmetic. -/
def natIsPref (p q : Nat × Nat) : Bool :=
  decide (p.1 ≤ q.1) && (q.2 / 2 ^ (q.1 - p.1) == p.2)

/-- Boolean evaluation of `PrefFree`, on fingerprints. -/
def pf_check {K : Type} (tbl : List (K × List Bool)) : Bool :=
  pairwiseOk (fun p q => !(natIsPref p q) && !(natIsPref q p))
    (tbl.map (fun kv => cwCode kv.2))

theorem bitsToNat_foldl (c : List Bool) : ∀ init : Nat,
    c.foldl (fun n b => 2 * n + (if b then 1 else 0)) init
      = init * 2 ^ c.length + bitsToNat c := by
  induction c with
  | nil => intro init; simp [bitsToNat]
  | cons b c ih =>
      intro init
      have h0 := ih (2 * init + (if b then 1 else 0))
      have h1 := ih (2 * 0 + (if b then 1 else 0))
      simp only [bitsToNat, List.foldl_cons, List.length_cons] at h0 h1 ⊢
      rw [h0, h1, pow_succ]
      cases b <;> simp <;> ring

theorem bitsToNat_cons (b : Bool) (c : List Bool) :
    bitsToNat (b :: c) = (if b then 1 else 0) * 2 ^ c.length + bitsToNat c := by
  have h := bitsToNat_foldl c (2 * 0 + (if b then 1 else 0))
  simp only [bitsToNat, List.foldl_cons] at h ⊢
  rw [h]
  cases b <;> simp

theorem bitsToNat_lt (c : List Bool) : bitsToNat c < 2 ^ c.length := by
  induction c with
  | nil => simp [bitsToNat]
  | cons b c ih =>
      rw [bitsToNat_cons, List.length_cons, pow_succ]
      cases b <;> simp <;> omega

theorem bitsToNat_append (a c : List Bool) :
    bitsToNat (a ++ c) = bitsToNat a * 2 ^ c.length + bitsToNat c := by
  have h := bitsToNat_foldl c (bitsToNat a)
  simp only [bitsToNat, List.foldl_append] at *
  exact h

theorem bitsToNat_inj : ∀ a b : List Bool, a.length = b.length →
    bitsToNat a = bitsToNat b → a = b
  | [], [], _, _ => rfl
  | [], _ :: _, h, _ => by simp at h
  | _ :: _, [], h, _ => by simp at h
  | x :: a, y :: b, hl, hv => by
      have hab : a.length = b.length := by simpa using hl
      rw [bitsToNat_cons, bitsToNat_cons, hab] at hv
      have ha := bitsToNat_lt a
      have hb := bitsToNat_lt b
      rw [hab] at ha
      have hxy : x = y ∧ bitsToNat a = bitsToNat b := by
        cases x <;> cases y <;> simp at hv ⊢ <;> omega
      rw [hxy.1, bitsToNat_inj a b hab hxy.2]

theorem div_pow_shift (A C L : Nat) (hC : C < 2 ^ L) :
    (A * 2 ^ L + C) / 2 ^ L = A := by
  have hpos : 0 < 2 ^ L := pow_pos (by norm_num) L
  rw [Nat.add_comm, Nat.add_mul_div_right C A hpos, Nat.div_eq_of_lt hC]
  omega

/-- A bit string is a prefix of another iff their fingerprints agree:
the shorter length divides off the tail of the numeral. -/
theorem prefix_iff_code (a b : List Bool) :
    a <+: b ↔ (a.length ≤ b.length ∧
      bitsToNat b / 2 ^ (b.length - a.length) = bitsToNat a) := by
  constructor
  · rintro ⟨c, rfl⟩
    refine ⟨by simp, ?_⟩
    rw [bitsToNat_append]
    have hl : (a ++ c).length - a.length = c.length := by simp
    rw [hl, div_pow_shift _ _ _ (bitsToNat_lt c)]
  · rintro ⟨hlen, hdiv⟩
    have hsplit := List.take_append_drop a.length b
    have hta : (List.take a.length b).length = a.length := by
      simp [Nat.min_eq_left hlen]
    have hdc : (List.drop a.length b).length = b.length - a.length := by simp
    have hbv : bitsToNat b
        = bitsToNat (List.take a.length b) * 2 ^ (List.drop a.length b).length
          + bitsToNat (List.drop a.length b) := by
      conv_lhs => rw [← hsplit]
      exact bitsToNat_append _ _
    have hdv : bitsToNat b / 2 ^ (b.length - a.length)
        = bitsToNat (List.take a.length b) := by
      rw [hbv, hdc, div_pow_shift _ _ _ (by rw [← hdc]; exact bitsToNat_lt _)]
    have heq : List.take a.length b = a :=
      bitsToNat_inj _ _ (by rw [hta]) (by rw [← hdiv, hdv])
    refine ⟨List.drop a.length b, ?_⟩
    rw [heq] at hsplit
    exact hsplit

theorem natIsPref_of_prefix {a b : List Bool} (h : a <+: b) :
    natIsPref (cwCode a) (cwCode b) = true := by
  obtain ⟨hlen, hdiv⟩ := (prefix_iff_code a b).mp h
  simp [natIsPref, cwCode, hlen, hdiv]

theorem pf_check_sound {K : Type} (tbl : List (K × List Bool))
    (h : pf_check tbl = true) : PrefFree tbl := by
  have hp := pairwiseOk_pairwise
    (R := fun p q : Nat × Nat => (!(natIsPref p q) && !(natIsPref q p)) = true)
    (fun a b hab => hab) _ h
  rw [List.pairwise_map] at hp
  refine hp.imp ?_
  intro a b hab
  simp only [Bool.and_eq_true, Bool.not_eq_true'] at hab
  constructor
  · intro hpre
    have hc := natIsPref_of_prefix hpre
    rw [hab.1] at hc
    exact Bool.false_ne_true hc
  · intro hpre
    have hc := natIsPref_of_prefix hpre
    rw [hab.2] at hc
    exact Bool.false_ne_true hc

theorem prefFree_dc (layer : LayerType) : PrefFree (dc_codewords layer) := by
  cases layer
  · exact pf_check_sound _ (by decide)
  · exact pf_check_sound _ (by decide)

set_option maxHeartbeats 1600000 in
theorem prefFree_ac (layer : LayerType) : PrefFree (ac_codewords layer) := by
  cases layer
  · exact pf_check_sound _ (by decide)
  · exact pf_check_sound _ (by decide)

/-- Key columns of the tables are duplicate-free (the python tables are
dicts, so key lookup is well defined). -/
def NodupKeys {K V : Type} (tbl : List (K × V)) : Prop :=
  List.Pairwise (fun a b => a.1 ≠ b.1) tbl

/-- Duplicate-key check after mapping keys to numbers: distinct images
certify distinct keys. -/
def nd_check {K V : Type} (enc : K → Nat) (tbl : List (K × V)) : Bool :=
  pairwiseOk (fun a b => !(a == b)) (tbl.map (fun kv => enc kv.1))

theorem nd_check_sound {K V : Type} (enc : K → Nat) (tbl : List (K × V))
    (h : nd_check enc tbl = true) : NodupKeys tbl := by
  have hp := pairwiseOk_pairwise (R := fun a b : Nat => a ≠ b)
    (fun a b hab => by simpa using hab) _ h
  rw [List.pairwise_map] at hp
  exact hp.imp (fun hab hkeys => hab (congrArg enc hkeys))

theorem nodupKeys_dc (layer : LayerType) : NodupKeys (dc_codewords layer) := by
  cases layer
  · exact nd_check_sound (fun k => k) _ (by decide)
  · exact nd_check_sound (fun k => k) _ (by decide)

set_option maxHeartbeats 1600000 in
theorem nodupKeys_ac (layer : LayerType) : NodupKeys (ac_codewords layer) := by
  cases layer
  · exact nd_check_sound (fun k => k.1 * 16 + k.2) _ (by decide)
  · exact nd_check_sound (fun k => k.1 * 16 + k.2) _ (by decide)

theorem cw_bounds_dc (layer : LayerType) :
    ∀ kv ∈ dc_codewords layer, 1 ≤ kv.2.length ∧ kv.2.length ≤ 16 := by
  cases layer
  · exact all_imp (f := fun kv => decide (1 ≤ kv.2.length) && decide (kv.2.length ≤ 16))
      (fun a h => by simpa using h) _ (by decide)
  · exact all_imp (f := fun kv => decide (1 ≤ kv.2.length) && decide (kv.2.length ≤ 16))
      (fun a h => by simpa using h) _ (by decide)

theorem cw_bounds_ac (layer : LayerType) :
    ∀ kv ∈ ac_codewords layer, 1 ≤ kv.2.length ∧ kv.2.length ≤ 16 := by
  cases layer
  · exact all_imp (f := fun kv => decide (1 ≤ kv.2.length) && decide (kv.2.length ≤ 16))
      (fun a h => by simpa using h) _ (by decide)
  · exact all_imp (f := fun kv => decide (1 ≤ kv.2.length) && decide (kv.2.length ≤ 16))
      (fun a h => by simpa using h) _ (by decide)

theorem lookupKey_mem {K : Type} [DecidableEq K] {tbl : List (K × List Bool)}
    {k : K} {c : List Bool} (h : lookupKey tbl k = some c) : (k, c) ∈ tbl := by
  unfold lookupKey at h
  cases hf : tbl.find? (fun kv => kv.1 == k) with
  | none => rw [hf] at h; exact absurd h (by simp)
  | some kv =>
      rw [hf] at h
      have hm := List.mem_of_find?_eq_some hf
      have hp := List.find?_some hf
      simp only [beq_iff_eq] at hp
      simp only [Option.map_some'] at h
      obtain rfl := Option.some.injEq _ _ ▸ h
      have : kv = (k, kv.2) := by
        cases kv; simp_all
      rw [← this]
      exact hm

theorem dc_lookup_isSome (layer : LayerType) :
    ∀ s, s ≤ 11 → (lookupKey (dc_codewords layer) s).isSome = true := by
  cases layer
  · decide
  · decide

theorem ac_lookup_isSome (layer : LayerType) :
    ∀ r, r ≤ 15 → ∀ s, s ≤ 10 → 1 ≤ s →
      (lookupKey (ac_codewords layer) (r, s)).isSome = true := by
  cases layer
  · decide
  · decide

/-! Bit-string arithmetic: the fixed-width binary suffixes. -/

theorem natToBits_length (s n : Nat) : (natToBits s n).length = s := by
  induction s generalizing n with
  | zero => rfl
  | succ s ih => simp [natToBits, ih]

theorem bitsToNat_append_bit (l : List Bool) (b : Bool) :
    bitsToNat (l ++ [b]) = 2 * bitsToNat l + (if b then 1 else 0) := by
  simp [bitsToNat, List.foldl_append]

theorem bitsToNat_natToBits (s n : Nat) : bitsToNat (natToBits s n) = n % 2 ^ s := by
  induction s generalizing n with
  | zero => simp [natToBits, bitsToNat, Nat.mod_one]
  | succ s ih =>
      rw [natToBits, bitsToNat_append_bit, ih, Nat.pow_succ', Nat.mod_mul]
      rcases Nat.mod_two_eq_zero_or_one n with h | h
      all_goals simp [h]
      all_goals omega

theorem bitsToNat_natToBits_lt (s n : Nat) (h : n < 2 ^ s) :
    bitsToNat (natToBits s n) = n := by
  rw [bitsToNat_natToBits, Nat.mod_eq_of_lt h]

/-! Differential (DPCM) coder: decode is a left inverse of encode. -/

theorem acc_from_diff_from (prev : Int) (l : List Int) :
    acc_from prev (diff_from prev l) = l := by
  induction l generalizing prev with
  | nil => rfl
  | cons x xs ih =>
      show acc_from prev ((x - prev) :: diff_from x xs) = x :: xs
      simp only [acc_from]
      rw [show prev + (x - prev) = x by ring]
      exact congrArg (x :: ·) (ih x)

theorem decode_encode_differential (s : List Int) :
    decode_differential (encode_differential s) = s := by
  cases s with
  | nil => rfl
  | cons x xs =>
      show acc_from 0 (x :: diff_from x xs) = x :: xs
      simp only [acc_from, zero_add]
      exact congrArg (x :: ·) (acc_from_diff_from x xs)

theorem encode_differential_length (s : List Int) :
    (encode_differential s).length = s.length := by
  cases s with
  | nil => rfl
  | cons x xs =>
      show ((x :: diff_from x xs).length = _)
      have : ∀ (p : Int) (l : List Int), (diff_from p l).length = l.length := by
        intro p l
        induction l generalizing p with
        | nil => rfl
        | cons y ys ih => simp [diff_from, ih]
      simp [this]

/-! Category table: characterization of `row_index` and `index_2d` on
`HUFFMAN_CATEGORIES`. -/

theorem row_index_append_left (v : Int) (l1 l2 : List Int) (j : Nat)
    (h : row_index v l1 = some j) : row_index v (l1 ++ l2) = some j := by
  induction l1 generalizing j with
  | nil => exact absurd h (by simp [row_index])
  | cons x xs ih =>
      simp only [row_index, List.cons_append, List.append_eq] at h ⊢
      by_cases hx : x = v
      · rwa [if_pos hx] at h ⊢
      · rw [if_neg hx] at h ⊢
        cases hr : row_index v xs with
        | none => rw [hr] at h; exact absurd h (by simp)
        | some j0 =>
            rw [hr] at h
            rw [ih j0 hr]
            exact h

theorem row_index_append_right (v : Int) (l1 l2 : List Int)
    (h : row_index v l1 = none) :
    row_index v (l1 ++ l2) = (row_index v l2).map (· + l1.length) := by
  induction l1 with
  | nil =>
      simp only [List.nil_append, List.length_nil]
      cases row_index v l2 with
      | none => rfl
      | some j => simp
  | cons x xs ih =>
      simp only [row_index, List.cons_append, List.append_eq] at h ⊢
      by_cases hx : x = v
      · rw [if_pos hx] at h; exact absurd h (by simp)
      · rw [if_neg hx] at h ⊢
        have hxs : row_index v xs = none := by
          cases hr : row_index v xs with
          | none => rfl
          | some j0 => rw [hr] at h; exact absurd h (by simp)
        rw [ih hxs, hxs] at *
        cases row_index v l2 with
        | none => rfl
        | some j =>
            simp only [Option.map_some', List.length_cons]
            congr 1

theorem row_index_range_map (v a : Int) (n : Nat) :
    row_index v ((List.range n).map (fun k : Nat => a + (k : Int))) =
      if a ≤ v ∧ v < a + n then some (v - a).toNat else none := by
  induction n with
  | zero =>
      simp only [List.range_zero, List.map_nil, row_index, Nat.cast_zero]
      rw [if_neg (by omega)]
  | succ n ih =>
      rw [List.range_succ, List.map_append]
      by_cases hc : a ≤ v ∧ v < a + n
      · rw [row_index_append_left v _ _ _ (by rw [ih, if_pos hc])]
        rw [if_pos (by push_cast at hc ⊢; omega)]
      · rw [row_index_append_right v _ _ (by rw [ih, if_neg hc])]
        simp only [List.map_cons, List.map_nil, row_index]
        by_cases he : a + (n : Int) = v
        · rw [if_pos he]
          rw [if_pos (by push_cast at hc he ⊢; omega)]
          simp only [Option.map_some', List.length_map, List.length_range]
          congr 1
          push_cast at he
          omega
        · rw [if_neg he]
          rw [if_neg (by push_cast at hc he ⊢; omega)]
          rfl

theorem row_index_get (v : Int) :
    ∀ (l : List Int) (i : Nat), row_index v l = some i → l.get? i = some v := by
  intro l
  induction l with
  | nil => intro i h; exact absurd h (by simp [row_index])
  | cons x xs ih =>
      intro i h
      by_cases hx : x = v
      · simp only [row_index, if_pos hx] at h
        obtain rfl := Option.some.injEq _ _ ▸ h
        simp [hx]
      · simp only [row_index, if_neg hx] at h
        cases hr : row_index v xs with
        | none => rw [hr] at h; exact absurd h (by simp)
        | some j =>
            rw [hr] at h
            simp only [Option.map_some'] at h
            obtain rfl := Option.some.injEq _ _ ▸ h
            simpa using ih j hr

theorem row_index_lt_length (v : Int) :
    ∀ (l : List Int) (i : Nat), row_index v l = some i → i < l.length := by
  intro l i h
  have := row_index_get v l i h
  have := List.get?_eq_some.mp this
  exact this.1

theorem catRow_length (s : Nat) : (catRow s).length = 2 ^ s := by
  cases s with
  | zero => rfl
  | succ t =>
      simp only [catRow, List.length_append, List.length_map, List.length_range]
      rw [Nat.pow_succ]
      omega

/-- Position of a positive in-range value in its category row. -/
theorem row_index_catRow_pos (v : Int) (s : Nat) (h1 : (2 : Int) ^ s ≤ v)
    (h2 : v < 2 ^ (s + 1)) :
    row_index v (catRow (s + 1)) = some v.toNat := by
  have hp : (2 : Int) ^ (s + 1) = 2 * 2 ^ s := by ring
  have hpos : (0 : Int) < 2 ^ s := pow_pos (by norm_num) s
  rw [catRow, row_index_append_right, row_index_range_map]
  · rw [if_pos (by push_cast; omega)]
    simp only [Option.map_some', List.length_map, List.length_range]
    congr 1
    have hc : ((2 ^ s : Nat) : Int) = 2 ^ s := by push_cast; ring
    omega
  · rw [row_index_range_map, if_neg (by push_cast; omega)]

theorem row_index_catRow_neg (v : Int) (s : Nat) (h1 : -(2 : Int) ^ (s + 1) < v)
    (h2 : v ≤ -(2 : Int) ^ s) :
    row_index v (catRow (s + 1)) = some (v + 2 ^ (s + 1) - 1).toNat := by
  have hp : (2 : Int) ^ (s + 1) = 2 * 2 ^ s := by ring
  have hpos : (0 : Int) < 2 ^ s := pow_pos (by norm_num) s
  rw [catRow, row_index_append_left]
  rw [row_index_range_map, if_pos (by push_cast; omega)]
  congr 1
  omega

theorem row_index_catRow_none (v : Int) (s : Nat)
    (h : v.natAbs < 2 ^ s ∨ 2 ^ (s + 1) ≤ v.natAbs) :
    row_index v (catRow (s + 1)) = none := by
  have hp : (2 : Int) ^ (s + 1) = 2 * 2 ^ s := by ring
  have hpos : (0 : Int) < 2 ^ s := pow_pos (by norm_num) s
  have hc : ((2 ^ s : Nat) : Int) = 2 ^ s := by push_cast; ring
  have hc2 : ((2 ^ (s + 1) : Nat) : Int) = 2 ^ (s + 1) := by push_cast; ring
  rw [catRow, row_index_append_right]
  · rw [row_index_range_map, if_neg (by omega)]
    rfl
  · rw [row_index_range_map, if_neg (by omega)]

theorem row_index_catRow_zero (v : Int) (hv : v ≠ 0) :
    row_index v (catRow 0) = none := by
  show row_index v [0] = none
  simp only [row_index, if_neg (Ne.symm hv)]
  rfl

theorem index_2d_from_spec (v : Int) :
    ∀ (rows : List (List Int)) (i0 s j : Nat) (row : List Int),
      rows.get? s = some row →
      row_index v row = some j →
      (∀ t rowt, t < s → rows.get? t = some rowt → row_index v rowt = none) →
      index_2d_from v i0 rows = some (i0 + s, j) := by
  intro rows
  induction rows with
  | nil =>
      intro i0 s j row h
      exact absurd h (by simp)
  | cons r0 rest ih =>
      intro i0 s j row hrow hj hnone
      cases s with
      | zero =>
          have : r0 = row := by simpa using hrow
          subst this
          simp only [index_2d_from, hj, Nat.add_zero]
      | succ t =>
          have h0 : row_index v r0 = none := hnone 0 r0 (Nat.succ_pos t) rfl
          simp only [index_2d_from, h0]
          have hrec := ih (i0 + 1) t j row (by simpa using hrow)
            hj (fun u rowu hu hgu => hnone (u + 1) rowu (by omega) (by simpa using hgu))
          rw [hrec]
          congr 2
          omega

theorem huffman_categories_get (s : Nat) (hs : s < 16) :
    HUFFMAN_CATEGORIES.get? s = some (catRow s) := by
  rw [HUFFMAN_CATEGORIES, List.get?_map, List.get?_range hs]
  rfl

theorem index_2d_cats_spec (v : Int) (s j : Nat) (hs : s ≤ 15)
    (hj : row_index v (catRow s) = some j)
    (hlow : ∀ t, t < s → row_index v (catRow t) = none) :
    index_2d HUFFMAN_CATEGORIES v = some (s, j) := by
  have h := index_2d_from_spec v HUFFMAN_CATEGORIES 0 s j (catRow s)
    (huffman_categories_get s (by omega)) hj
    (fun t rowt ht hgt => by
      have := huffman_categories_get t (by omega)
      rw [this] at hgt
      have : rowt = catRow t := by simpa using hgt.symm
      rw [this]
      exact hlow t ht)
  rw [index_2d, h, Nat.zero_add]

/-- Classification of a nonzero value of magnitude at most 32767 by the
table search: the row found is `log2 |v| + 1` and the position holds `v`. -/
theorem classify_nonzero (v : Int) (hv : v ≠ 0) (hb : v.natAbs ≤ 32767) :
    ∃ s j, index_2d HUFFMAN_CATEGORIES v = some (s + 1, j) ∧
      s = Nat.log 2 v.natAbs ∧
      2 ^ s ≤ v.natAbs ∧ v.natAbs < 2 ^ (s + 1) ∧ s + 1 ≤ 15 ∧
      j < 2 ^ (s + 1) ∧
      row_index v (catRow (s + 1)) = some j ∧
      (catRow (s + 1)).get? j = some v := by
  have hn : v.natAbs ≠ 0 := Int.natAbs_ne_zero.mpr hv
  have h1 : 2 ^ Nat.log 2 v.natAbs ≤ v.natAbs := Nat.pow_log_le_self 2 hn
  have h2 : v.natAbs < 2 ^ (Nat.log 2 v.natAbs + 1) :=
    Nat.lt_pow_succ_log_self (by norm_num) v.natAbs
  have hs15 : Nat.log 2 v.natAbs + 1 ≤ 15 := by
    have hlt : v.natAbs < 2 ^ 15 := by
      have : (32767 : Nat) < 2 ^ 15 := by norm_num
      omega
    have := Nat.log_lt_of_lt_pow hn hlt
    omega
  have hlow : ∀ t, t < Nat.log 2 v.natAbs + 1 → row_index v (catRow t) = none := by
    intro t ht
    cases t with
    | zero => exact row_index_catRow_zero v hv
    | succ u =>
        refine row_index_catRow_none v u (Or.inr ?_)
        calc 2 ^ (u + 1) ≤ 2 ^ Nat.log 2 v.natAbs :=
              Nat.pow_le_pow_right (by norm_num) (by omega)
          _ ≤ v.natAbs := h1
  have hcast1 : ((2 ^ Nat.log 2 v.natAbs : Nat) : Int) = 2 ^ Nat.log 2 v.natAbs := by
    push_cast; ring
  have hcast2 : ((2 ^ (Nat.log 2 v.natAbs + 1) : Nat) : Int)
      = 2 ^ (Nat.log 2 v.natAbs + 1) := by
    push_cast; ring
  rcases lt_or_gt_of_ne hv with hneg | hpos
  · -- negative value
    have hj := row_index_catRow_neg v (Nat.log 2 v.natAbs) (by omega) (by omega)
    refine ⟨Nat.log 2 v.natAbs, (v + 2 ^ (Nat.log 2 v.natAbs + 1) - 1).toNat,
      index_2d_cats_spec v _ _ hs15 hj hlow, rfl, h1, h2, hs15, by omega, hj,
      row_index_get v _ _ hj⟩
  · -- positive value
    have hj := row_index_catRow_pos v (Nat.log 2 v.natAbs) (by omega) (by omega)
    refine ⟨Nat.log 2 v.natAbs, v.toNat,
      index_2d_cats_spec v _ _ hs15 hj hlow, rfl, h1, h2, hs15, by omega, hj,
      row_index_get v _ _ hj⟩

theorem classify_zero : index_2d HUFFMAN_CATEGORIES 0 = some (0, 0) := by
  refine index_2d_cats_spec 0 0 0 (by omega) (by decide) ?_
  intro t ht
  exact absurd ht (by omega)

theorem row_index_indexOf (v : Int) :
    ∀ (l : List Int) (i : Nat), row_index v l = some i → l.indexOf v = i := by
  intro l
  induction l with
  | nil =>
      intro i h
      exact absurd h (by simp [row_index])
  | cons x xs ih =>
      intro i h
      by_cases hx : x = v
      · simp only [row_index, if_pos hx] at h
        have : i = 0 := by simpa using h.symm
        subst this
        exact List.indexOf_cons_eq xs hx
      · simp only [row_index, if_neg hx] at h
        cases hr : row_index v xs with
        | none => rw [hr] at h; exact absurd h (by simp)
        | some j =>
            rw [hr] at h
            have : i = j + 1 := by simpa using h.symm
            subst this
            rw [List.indexOf_cons_ne xs hx, ih j hr]

/-- The canonical category ordering of size `s` spelled exactly as the
specification words it: the `2 ^ s` values from `-(2^s - 1)` ascending to
`-2^(s-1)`, then from `2^(s-1)` ascending to `2^s - 1`. -/
def spec_category_order (s : Nat) : List Int :=
  ((List.range (2 ^ (s - 1))).map (fun k : Nat => -((2 : Int) ^ s - 1) + (k : Int))) ++
  ((List.range (2 ^ (s - 1))).map (fun k : Nat => ((2 : Int) ^ (s - 1)) + (k : Int)))

theorem spec_category_order_eq_catRow (s : Nat) (hs : 1 ≤ s) :
    spec_category_order s = catRow s := by
  cases s with
  | zero => exact absurd hs (by omega)
  | succ t => rfl

/-! Huffman encoding: structure of the emitted bit strings. -/

theorem encode_huffman_dc_spec (v : Int) (layer : LayerType)
    (h1 : -2048 < v) (h2 : v < 2048) :
    ∃ s j cw,
      index_2d HUFFMAN_CATEGORIES v = some (s, j) ∧
      lookupKey (dc_codewords layer) s = some cw ∧
      s ≤ 11 ∧ j < 2 ^ s ∧
      (HUFFMAN_CATEGORIES.get? s).bind (fun row => row.get? j) = some v ∧
      encode_huffman_dc v layer = some (cw ++ natToBits s j) := by
  have hnotrange : ¬ (v ≤ -2048 ∨ 2048 ≤ v) := by omega
  by_cases hv : v = 0
  · subst hv
    obtain ⟨cw, hcw⟩ := Option.isSome_iff_exists.mp (dc_lookup_isSome layer 0 (by omega))
    refine ⟨0, 0, cw, classify_zero, hcw, by omega, by omega, ?_, ?_⟩
    · rw [huffman_categories_get 0 (by omega)]
      rfl
    · simp only [encode_huffman_dc, if_neg hnotrange, classify_zero, hcw]
      simp [natToBits]
  · obtain ⟨s, j, hidx, hlog, hle, hlt, hs15, hj, hri, hget⟩ :=
      classify_nonzero v hv (by omega)
    have hs11 : s + 1 ≤ 11 := by
      have hb : v.natAbs < 2 ^ 11 := by norm_num; omega
      have : 2 ^ s < 2 ^ 11 := lt_of_le_of_lt hle hb
      have := (Nat.pow_lt_pow_iff_right (by norm_num : 1 < 2)).mp this
      omega
    obtain ⟨cw, hcw⟩ := Option.isSome_iff_exists.mp (dc_lookup_isSome layer (s + 1) hs11)
    refine ⟨s + 1, j, cw, hidx, hcw, hs11, hj, ?_, ?_⟩
    · rw [huffman_categories_get (s + 1) (by omega)]
      simpa using hget
    · simp only [encode_huffman_dc, if_neg hnotrange, hidx, hcw]
      rw [if_neg (by omega)]

theorem encode_huffman_ac_spec (rv : Nat × Int) (layer : LayerType)
    (hrun : rv.1 ≤ 15) (h0 : rv.2 ≠ 0) (hlo : -1024 < rv.2) (hhi : rv.2 < 1024) :
    ∃ s j cw,
      index_2d HUFFMAN_CATEGORIES rv.2 = some (s, j) ∧
      lookupKey (ac_codewords layer) (rv.1, s) = some cw ∧
      1 ≤ s ∧ s ≤ 10 ∧ j < 2 ^ s ∧
      (HUFFMAN_CATEGORIES.get? s).bind (fun row => row.get? j) = some rv.2 ∧
      encode_huffman_ac rv layer = some (cw ++ natToBits s j) := by
  have hne : rv ≠ EOB := by
    intro h
    rw [h] at h0
    exact h0 rfl
  have hnz : rv ≠ ZRL := by
    intro h
    rw [h] at h0
    exact h0 rfl
  obtain ⟨s, j, hidx, hlog, hle, hlt, hs15, hj, hri, hget⟩ :=
    classify_nonzero rv.2 h0 (by omega)
  have hs10 : s + 1 ≤ 10 := by
    have hb : rv.2.natAbs < 2 ^ 10 := by norm_num; omega
    have : 2 ^ s < 2 ^ 10 := lt_of_le_of_lt hle hb
    have := (Nat.pow_lt_pow_iff_right (by norm_num : 1 < 2)).mp this
    omega
  obtain ⟨cw, hcw⟩ := Option.isSome_iff_exists.mp
    (ac_lookup_isSome layer rv.1 hrun (s + 1) hs10 (by omega))
  refine ⟨s + 1, j, cw, hidx, hcw, by omega, hs10, hj, ?_, ?_⟩
  · rw [huffman_categories_get (s + 1) (by omega)]
    simpa using hget
  · simp only [encode_huffman_ac, if_neg hne, if_neg hnz, if_neg (show ¬ (rv.2 = 0 ∨ rv.2 ≤ -1024 ∨ 1024 ≤ rv.2) by omega), hidx, hcw]
    rfl

/-! The decoding inner loop finds exactly the codeword that was emitted. -/

theorem strip_match_spec {K : Type} [DecidableEq K] (tbl : List (K × List Bool))
    (hpf : PrefFree tbl)
    (key : K) (cw : List Bool) (hmem : (key, cw) ∈ tbl) (hcw1 : 1 ≤ cw.length)
    (window : List Bool) (hwin : cw <+: window) :
    ∀ n, cw.length ≤ n → n ≤ window.length →
      strip_match tbl window n = some (key, cw.length) := by
  have hsymm : Symmetric (fun (a b : K × List Bool) => ¬ a.2 <+: b.2 ∧ ¬ b.2 <+: a.2) :=
    fun a b h => ⟨h.2, h.1⟩
  intro n
  induction n with
  | zero => intro hc _; omega
  | succ m ih =>
      intro hc hn
      by_cases heq : cw.length = m + 1
      · -- the slice length equals the codeword length: the lookup hits
        obtain ⟨tail, rfl⟩ := hwin
        have htake : (cw ++ tail).take (m + 1) = cw := List.take_left' heq
        rw [strip_match, htake]
        have hfindsome : ((tbl.find? (fun kv => kv.2 == cw)).isSome) := by
          rw [List.find?_isSome]
          exact ⟨(key, cw), hmem, by simp⟩
        obtain ⟨kv, hkv⟩ := Option.isSome_iff_exists.mp hfindsome
        have hkvmem := List.mem_of_find?_eq_some hkv
        have hkvcw : kv.2 = cw := by simpa using List.find?_some hkv
        have : kv = (key, cw) := by
          by_contra hne
          have hr := (List.Pairwise.forall hsymm hpf) hkvmem hmem hne
          rw [hkvcw] at hr
          exact hr.1 (List.prefix_refl cw)
        rw [hkv, this, heq]
      · -- the slice is longer than the codeword: no table entry matches
        have hlt : cw.length < m + 1 := by omega
        have hfindnone : tbl.find? (fun kv => kv.2 == window.take (m + 1)) = none := by
          rw [List.find?_eq_none]
          intro kv hkvmem hbeq
          have hkvcw : kv.2 = window.take (m + 1) := by simpa using hbeq
          have hpref : cw <+: window.take (m + 1) := by
            obtain ⟨tail, rfl⟩ := hwin
            rw [List.take_append_eq_append_take, List.take_all_of_le (by omega)]
            exact List.prefix_append cw _
          have hlen : (window.take (m + 1)).length = m + 1 := by
            rw [List.length_take]
            omega
          have hkne : kv ≠ (key, cw) := by
            intro h
            rw [h] at hkvcw
            have h2 : cw = window.take (m + 1) := hkvcw
            have : cw.length = m + 1 := by rw [h2, hlen]
            omega
          have hr := (List.Pairwise.forall hsymm hpf) hkvmem hmem hkne
          rw [hkvcw] at hr
          exact hr.2 hpref
        rw [strip_match, hfindnone]
        exact ih (by omega) (by omega)

/-! Per-symbol behavior of the Huffman decoder. -/

theorem decode_dc_go_cons (layer : LayerType) (fuel : Nat) (bits : List Bool)
    (hne : bits ≠ []) :
    decode_huffman_dc_go layer (fuel + 1) bits =
      match strip_match (dc_codewords layer) (bits.take 16) ((bits.take 16).length) with
      | none => none
      | some (size, clen) =>
          if size = 0 then
            (decode_huffman_dc_go layer fuel (bits.drop clen)).map (fun r => 0 :: r)
          else
            if (bits.drop clen).length = 0 ∨ (bits.drop clen).length < size then none
            else
              match (HUFFMAN_CATEGORIES.get? size).bind
                  (fun row => row.get? (bitsToNat ((bits.drop clen).take size))) with
              | none => none
              | some v =>
                  (decode_huffman_dc_go layer fuel (bits.drop (clen + size))).map
                    (fun r => v :: r) := by
  cases bits with
  | nil => exact absurd rfl hne
  | cons b bs => rfl

theorem decode_ac_go_cons (layer : LayerType) (fuel : Nat) (bits : List Bool)
    (hne : bits ≠ []) :
    decode_huffman_ac_go layer (fuel + 1) bits =
      match strip_match (ac_codewords layer) (bits.take 16) ((bits.take 16).length) with
      | none => none
      | some (key, clen) =>
          if key = (0, 0) ∨ key = (15, 0) then
            (decode_huffman_ac_go layer fuel (bits.drop (clen + key.2))).map
              (fun r => (key.1, (key.2 : Int)) :: r)
          else
            if (bits.drop clen).length = 0 ∨ (bits.drop clen).length < key.2 then none
            else
              match (HUFFMAN_CATEGORIES.get? key.2).bind
                  (fun row => row.get? (bitsToNat ((bits.drop clen).take key.2))) with
              | none => none
              | some v =>
                  (decode_huffman_ac_go layer fuel (bits.drop (clen + key.2))).map
                    (fun r => (key.1, v) :: r) := by
  cases bits with
  | nil => exact absurd rfl hne
  | cons b bs => rfl

theorem decode_dc_step (layer : LayerType) (v : Int) (eb : List Bool)
    (h1 : -2048 < v) (h2 : v < 2048)
    (henc : encode_huffman_dc v layer = some eb) :
    1 ≤ eb.length ∧ ∀ (rest : List Bool) (fuel : Nat),
      decode_huffman_dc_go layer (fuel + 1) (eb ++ rest) =
        (decode_huffman_dc_go layer fuel rest).map (fun r => v :: r) := by
  obtain ⟨s, j, cw, hidx, hcw, hs11, hj, hget, hencx⟩ := encode_huffman_dc_spec v layer h1 h2
  have heb : eb = cw ++ natToBits s j := by
    rw [henc] at hencx
    exact Option.some.inj hencx
  have hcwb := cw_bounds_dc layer _ (lookupKey_mem hcw)
  have hcw1 : 1 ≤ cw.length := hcwb.1
  have hcw16 : cw.length ≤ 16 := hcwb.2
  subst heb
  refine ⟨by rw [List.length_append]; omega, ?_⟩
  intro rest fuel
  rw [List.append_assoc]
  have hne : cw ++ (natToBits s j ++ rest) ≠ [] := by
    intro h
    have := congrArg List.length h
    rw [List.length_append] at this
    simp only [List.length_nil] at this
    omega
  rw [decode_dc_go_cons layer fuel _ hne]
  have hwin : cw <+: (cw ++ (natToBits s j ++ rest)).take 16 := by
    rw [List.take_append_eq_append_take, List.take_of_length_le (by omega)]
    exact List.prefix_append cw _
  have hwl : ((cw ++ (natToBits s j ++ rest)).take 16).length
      = min 16 (cw.length + (s + rest.length)) := by
    rw [List.length_take, List.length_append, List.length_append, natToBits_length]
  have hsm := strip_match_spec (dc_codewords layer) (prefFree_dc layer) s cw
    (lookupKey_mem hcw) hcw1 _ hwin (((cw ++ (natToBits s j ++ rest)).take 16).length)
    (by rw [hwl]; omega) (le_refl _)
  simp only [hsm]
  have hdrop : (cw ++ (natToBits s j ++ rest)).drop cw.length = natToBits s j ++ rest :=
    List.drop_left _ _
  by_cases hs0 : s = 0
  · subst hs0
    have hv0 : v = 0 := by
      rw [huffman_categories_get 0 (by omega)] at hget
      cases j with
      | zero =>
          simp only [Option.some_bind] at hget
          have hsome : some (0 : Int) = some v := by simpa [catRow] using hget
          have := Option.some.inj hsome
          omega
      | succ t => simp [catRow] at hget
    rw [if_pos rfl, hdrop]
    show (decode_huffman_dc_go layer fuel rest).map (fun r => (0 : Int) :: r) = _
    rw [hv0]
  · rw [if_neg hs0, hdrop]
    rw [List.length_append, natToBits_length]
    rw [if_neg (by omega)]
    rw [List.take_left' (natToBits_length s j)]
    rw [bitsToNat_natToBits_lt s j hj]
    simp only [hget]
    have hdrop2 : (cw ++ (natToBits s j ++ rest)).drop (cw.length + s) = rest := by
      rw [← List.append_assoc]
      refine List.drop_left' ?_
      rw [List.length_append, natToBits_length]
    rw [hdrop2]

/-- The run-length symbols the encoder may emit (and `encode_huffman`
accepts): EOB, ZRL, or a pair with run at most 15 and a nonzero value of
magnitude at most 1023. -/
def ValidAC (p : Nat × Int) : Prop :=
  p = EOB ∨ p = ZRL ∨ (p.1 ≤ 15 ∧ p.2 ≠ 0 ∧ -1024 < p.2 ∧ p.2 < 1024)

theorem ac_lookup_eob_isSome (layer : LayerType) :
    (lookupKey (ac_codewords layer) (0, 0)).isSome = true := by
  cases layer
  · decide
  · decide

theorem ac_lookup_zrl_isSome (layer : LayerType) :
    (lookupKey (ac_codewords layer) (15, 0)).isSome = true := by
  cases layer
  · decide
  · decide

theorem encode_huffman_ac_eob (layer : LayerType) :
    encode_huffman_ac EOB layer = lookupKey (ac_codewords layer) (0, 0) := rfl

theorem encode_huffman_ac_zrl (layer : LayerType) :
    encode_huffman_ac ZRL layer = lookupKey (ac_codewords layer) (15, 0) := by
  rw [encode_huffman_ac, if_neg (by decide), if_pos rfl]

theorem decode_ac_step_sentinel (layer : LayerType) (key : Nat × Nat) (eb : List Bool)
    (hkey : key = (0, 0) ∨ key = (15, 0))
    (hlk : lookupKey (ac_codewords layer) key = some eb) :
    1 ≤ eb.length ∧ ∀ (rest : List Bool) (fuel : Nat),
      decode_huffman_ac_go layer (fuel + 1) (eb ++ rest) =
        (decode_huffman_ac_go layer fuel rest).map
          (fun r => (key.1, (key.2 : Int)) :: r) := by
  have hmem := lookupKey_mem hlk
  have hcwb := cw_bounds_ac layer _ hmem
  have hcw1 : 1 ≤ eb.length := hcwb.1
  have hcw16 : eb.length ≤ 16 := hcwb.2
  refine ⟨hcw1, ?_⟩
  intro rest fuel
  have hne : eb ++ rest ≠ [] := by
    intro h
    have := congrArg List.length h
    rw [List.length_append] at this
    simp only [List.length_nil] at this
    omega
  rw [decode_ac_go_cons layer fuel _ hne]
  have hwin : eb <+: (eb ++ rest).take 16 := by
    rw [List.take_append_eq_append_take, List.take_of_length_le (by omega)]
    exact List.prefix_append eb _
  have hwl : ((eb ++ rest).take 16).length = min 16 (eb.length + rest.length) := by
    rw [List.length_take, List.length_append]
  have hsm := strip_match_spec (ac_codewords layer) (prefFree_ac layer) key eb
    hmem hcw1 _ hwin (((eb ++ rest).take 16).length) (by rw [hwl]; omega) (le_refl _)
  simp only [hsm]
  rw [if_pos hkey]
  have hkey2 : key.2 = 0 := by
    rcases hkey with h | h
    · rw [h]
    · rw [h]
  rw [hkey2, Nat.add_zero, List.drop_left]

theorem decode_ac_step_val (layer : LayerType) (run : Nat) (val : Int) (eb : List Bool)
    (hrun : run ≤ 15) (h0 : val ≠ 0) (hlo : -1024 < val) (hhi : val < 1024)
    (henc : encode_huffman_ac (run, val) layer = some eb) :
    1 ≤ eb.length ∧ ∀ (rest : List Bool) (fuel : Nat),
      decode_huffman_ac_go layer (fuel + 1) (eb ++ rest) =
        (decode_huffman_ac_go layer fuel rest).map (fun r => (run, val) :: r) := by
  obtain ⟨s, j, cw, hidx, hcw, hs1, hs10, hj, hget, hencx⟩ :=
    encode_huffman_ac_spec (run, val) layer hrun h0 hlo hhi
  have heb : eb = cw ++ natToBits s j := by
    rw [henc] at hencx
    exact Option.some.inj hencx
  have hmem := lookupKey_mem hcw
  have hcwb := cw_bounds_ac layer _ hmem
  have hcw1 : 1 ≤ cw.length := hcwb.1
  have hcw16 : cw.length ≤ 16 := hcwb.2
  subst heb
  refine ⟨by rw [List.length_append]; omega, ?_⟩
  intro rest fuel
  rw [List.append_assoc]
  have hne : cw ++ (natToBits s j ++ rest) ≠ [] := by
    intro h
    have := congrArg List.length h
    rw [List.length_append] at this
    simp only [List.length_nil] at this
    omega
  rw [decode_ac_go_cons layer fuel _ hne]
  have hwin : cw <+: (cw ++ (natToBits s j ++ rest)).take 16 := by
    rw [List.take_append_eq_append_take, List.take_of_length_le (by omega)]
    exact List.prefix_append cw _
  have hwl : ((cw ++ (natToBits s j ++ rest)).take 16).length
      = min 16 (cw.length + (s + rest.length)) := by
    rw [List.length_take, List.length_append, List.length_append, natToBits_length]
  have hsm := strip_match_spec (ac_codewords layer) (prefFree_ac layer) (run, s) cw
    hmem hcw1 _ hwin (((cw ++ (natToBits s j ++ rest)).take 16).length)
    (by rw [hwl]; omega) (le_refl _)
  simp only [hsm]
  rw [if_neg (by
    rintro (h | h)
    · have := congrArg Prod.snd h
      simp only at this
      omega
    · have := congrArg Prod.snd h
      simp only at this
      omega)]
  have hdrop : (cw ++ (natToBits s j ++ rest)).drop cw.length = natToBits s j ++ rest :=
    List.drop_left _ _
  rw [hdrop]
  rw [List.length_append, natToBits_length]
  rw [if_neg (by omega)]
  rw [List.take_left' (natToBits_length s j)]
  rw [bitsToNat_natToBits_lt s j hj]
  simp only [hget]
  have hdrop2 : (cw ++ (natToBits s j ++ rest)).drop (cw.length + s) = rest := by
    rw [← List.append_assoc]
    refine List.drop_left' ?_
    rw [List.length_append, natToBits_length]
  rw [hdrop2]

theorem encode_huffman_ac_some (p : Nat × Int) (layer : LayerType) (h : ValidAC p) :
    ∃ eb, encode_huffman_ac p layer = some eb := by
  rcases h with h | h | h
  · subst h
    rw [encode_huffman_ac_eob]
    exact Option.isSome_iff_exists.mp (ac_lookup_eob_isSome layer)
  · subst h
    rw [encode_huffman_ac_zrl]
    exact Option.isSome_iff_exists.mp (ac_lookup_zrl_isSome layer)
  · obtain ⟨s, j, cw, _, _, _, _, _, _, hx⟩ :=
      encode_huffman_ac_spec p layer h.1 h.2.1 h.2.2.1 h.2.2.2
    exact ⟨_, hx⟩

theorem decode_ac_step (layer : LayerType) (p : Nat × Int) (eb : List Bool)
    (hval : ValidAC p) (henc : encode_huffman_ac p layer = some eb) :
    1 ≤ eb.length ∧ ∀ (rest : List Bool) (fuel : Nat),
      decode_huffman_ac_go layer (fuel + 1) (eb ++ rest) =
        (decode_huffman_ac_go layer fuel rest).map (fun r => p :: r) := by
  rcases hval with h | h | h
  · subst h
    rw [encode_huffman_ac_eob] at henc
    exact decode_ac_step_sentinel layer (0, 0) eb (Or.inl rfl) henc
  · subst h
    rw [encode_huffman_ac_zrl] at henc
    exact decode_ac_step_sentinel layer (15, 0) eb (Or.inr rfl) henc
  · obtain ⟨run, val⟩ := p
    exact decode_ac_step_val layer run val eb h.1 h.2.1 h.2.2.1 h.2.2.2 henc

/-! Whole-stream Huffman round trips. -/

theorem decode_dc_go_nil (layer : LayerType) (fuel : Nat) :
    decode_huffman_dc_go layer fuel [] = some [] := by
  cases fuel with
  | zero => rfl
  | succ f => rfl

theorem decode_ac_go_nil (layer : LayerType) (fuel : Nat) :
    decode_huffman_ac_go layer fuel [] = some [] := by
  cases fuel with
  | zero => rfl
  | succ f => rfl

theorem decode_dc_stream (layer : LayerType) :
    ∀ (vs : List Int), (∀ v ∈ vs, -2048 < v ∧ v < 2048) →
      ∃ bits, encode_dc_bits vs layer = some bits ∧
        vs.length ≤ bits.length ∧
        ∀ fuel, vs.length ≤ fuel → decode_huffman_dc_go layer fuel bits = some vs := by
  intro vs
  induction vs with
  | nil =>
      intro _
      exact ⟨[], rfl, Nat.le_refl 0, fun fuel _ => decode_dc_go_nil layer fuel⟩
  | cons v tl ih =>
      intro hrange
      obtain ⟨bits_tl, henc_tl, hlen_tl, hdec_tl⟩ :=
        ih (fun u hu => hrange u (List.mem_cons_of_mem v hu))
      have hv := hrange v (List.mem_cons_self v tl)
      obtain ⟨eb, heb⟩ : ∃ eb, encode_huffman_dc v layer = some eb := by
        obtain ⟨s, j, cw, _, _, _, _, _, hx⟩ := encode_huffman_dc_spec v layer hv.1 hv.2
        exact ⟨_, hx⟩
      obtain ⟨heb1, hstep⟩ := decode_dc_step layer v eb hv.1 hv.2 heb
      refine ⟨eb ++ bits_tl, ?_, ?_, ?_⟩
      · rw [encode_dc_bits] at henc_tl ⊢
        cases hm : tl.mapM (fun u => encode_huffman_dc u layer) with
        | none => rw [hm] at henc_tl; exact absurd henc_tl (by simp)
        | some ebs =>
            rw [hm] at henc_tl
            simp only [Option.map_some'] at henc_tl
            have hfl : List.flatten ebs = bits_tl := Option.some.inj henc_tl
            rw [List.mapM_cons, heb, hm]
            simp [hfl]
      · rw [List.length_append, List.length_cons]
        omega
      · intro fuel hf
        cases fuel with
        | zero => rw [List.length_cons] at hf; omega
        | succ f =>
            rw [hstep bits_tl f, hdec_tl f (by rw [List.length_cons] at hf; omega)]
            rfl

theorem decode_ac_stream (layer : LayerType) :
    ∀ (ps : List (Nat × Int)), (∀ p ∈ ps, ValidAC p) →
      ∃ bits, encode_ac_bits ps layer = some bits ∧
        ps.length ≤ bits.length ∧
        ∀ fuel, ps.length ≤ fuel → decode_huffman_ac_go layer fuel bits = some ps := by
  intro ps
  induction ps with
  | nil =>
      intro _
      exact ⟨[], rfl, Nat.le_refl 0, fun fuel _ => decode_ac_go_nil layer fuel⟩
  | cons p tl ih =>
      intro hvalid
      obtain ⟨bits_tl, henc_tl, hlen_tl, hdec_tl⟩ :=
        ih (fun u hu => hvalid u (List.mem_cons_of_mem p hu))
      have hp := hvalid p (List.mem_cons_self p tl)
      obtain ⟨eb, heb⟩ := encode_huffman_ac_some p layer hp
      obtain ⟨heb1, hstep⟩ := decode_ac_step layer p eb hp heb
      refine ⟨eb ++ bits_tl, ?_, ?_, ?_⟩
      · rw [encode_ac_bits] at henc_tl ⊢
        cases hm : tl.mapM (fun u => encode_huffman_ac u layer) with
        | none => rw [hm] at henc_tl; exact absurd henc_tl (by simp)
        | some ebs =>
            rw [hm] at henc_tl
            simp only [Option.map_some'] at henc_tl
            have hfl : List.flatten ebs = bits_tl := Option.some.inj henc_tl
            rw [List.mapM_cons, heb, hm]
            simp [hfl]
      · rw [List.length_append, List.length_cons]
        omega
      · intro fuel hf
        cases fuel with
        | zero => rw [List.length_cons] at hf; omega
        | succ f =>
            rw [hstep bits_tl f, hdec_tl f (by rw [List.length_cons] at hf; omega)]
            rfl

theorem decode_encode_dc_bits (layer : LayerType) (vs : List Int)
    (h : ∀ v ∈ vs, -2048 < v ∧ v < 2048) :
    ∃ bits, encode_dc_bits vs layer = some bits ∧
      decode_huffman_dc bits layer = some vs := by
  obtain ⟨bits, henc, hlen, hdec⟩ := decode_dc_stream layer vs h
  exact ⟨bits, henc, hdec bits.length hlen⟩

theorem decode_encode_ac_bits (layer : LayerType) (ps : List (Nat × Int))
    (h : ∀ p ∈ ps, ValidAC p) :
    ∃ bits, encode_ac_bits ps layer = some bits ∧
      decode_huffman_ac bits layer = some ps := by
  obtain ⟨bits, henc, hlen, hdec⟩ := decode_ac_stream layer ps h
  exact ⟨bits, henc, hdec bits.length hlen⟩

/-! Single-symbol Huffman round trips. -/

theorem huffman_single_dc (layer : LayerType) (v : Int) (h1 : -2048 < v) (h2 : v < 2048) :
    ∃ bits, encode_huffman_dc v layer = some bits ∧
      decode_huffman_dc bits layer = some [v] := by
  obtain ⟨eb, heb⟩ : ∃ eb, encode_huffman_dc v layer = some eb := by
    obtain ⟨s, j, cw, _, _, _, _, _, hx⟩ := encode_huffman_dc_spec v layer h1 h2
    exact ⟨_, hx⟩
  obtain ⟨heb1, hstep⟩ := decode_dc_step layer v eb h1 h2 heb
  refine ⟨eb, heb, ?_⟩
  rw [decode_huffman_dc]
  obtain ⟨f, hf⟩ : ∃ f, eb.length = f + 1 := ⟨eb.length - 1, by omega⟩
  rw [hf]
  have hx := hstep [] f
  rw [List.append_nil] at hx
  rw [hx, decode_dc_go_nil]
  rfl

theorem huffman_single_ac (layer : LayerType) (p : Nat × Int) (h : ValidAC p) :
    ∃ bits, encode_huffman_ac p layer = some bits ∧
      decode_huffman_ac bits layer = some [p] := by
  obtain ⟨eb, heb⟩ := encode_huffman_ac_some p layer h
  obtain ⟨heb1, hstep⟩ := decode_ac_step layer p eb h heb
  refine ⟨eb, heb, ?_⟩
  rw [decode_huffman_ac]
  obtain ⟨f, hf⟩ : ∃ f, eb.length = f + 1 := ⟨eb.length - 1, by omega⟩
  rw [hf]
  have hx := hstep [] f
  rw [List.append_nil] at hx
  rw [hx, decode_ac_go_nil]
  rfl

/-- C4: each of the four Huffman codeword tables (DC and AC, for
luminance and chrominance) is an injective mapping from symbols to bit
strings — keys are pairwise distinct and so are codewords — and each
table is prefix-free: no codeword is a proper prefix of another codeword
of the same table. -/
theorem claim_C4_tables_injective_prefix_free :
    ∀ layer : LayerType,
      (NodupKeys (dc_codewords layer) ∧
        List.Pairwise (fun a b => a.2 ≠ b.2) (dc_codewords layer) ∧
        PrefFree (dc_codewords layer)) ∧
      (NodupKeys (ac_codewords layer) ∧
        List.Pairwise (fun a b => a.2 ≠ b.2) (ac_codewords layer) ∧
        PrefFree (ac_codewords layer)) := by
  intro layer
  refine ⟨⟨nodupKeys_dc layer, ?_, prefFree_dc layer⟩,
    ⟨nodupKeys_ac layer, ?_, prefFree_ac layer⟩⟩
  · refine (prefFree_dc layer).imp ?_
    intro a b hab hcontra
    exact hab.1 (hcontra ▸ List.prefix_refl a.2)
  · refine (prefFree_ac layer).imp ?_
    intro a b hab hcontra
    exact hab.1 (hcontra ▸ List.prefix_refl a.2)

/-- C5: single-symbol Huffman round trip. For every layer type, every DC
difference of magnitude at most 2047, and every AC argument that is EOB,
ZRL, or a pair (run, value) with run in [0, 15] and 1 ≤ |value| ≤ 1023,
decoding the bit string produced by `encode_huffman` (in the matching
DC/AC mode) yields exactly that one value and nothing more. -/
theorem claim_C5_single_symbol_roundtrip (layer : LayerType) :
    (∀ v : Int, -2048 < v → v < 2048 →
      ∃ bits, encode_huffman_dc v layer = some bits ∧
        decode_huffman_dc bits layer = some [v]) ∧
    (∀ p : Nat × Int, ValidAC p →
      ∃ bits, encode_huffman_ac p layer = some bits ∧
        decode_huffman_ac bits layer = some [p]) :=
  ⟨fun v h1 h2 => huffman_single_dc layer v h1 h2,
   fun p h => huffman_single_ac layer p h⟩

theorem claim_C5_witness :
    (∃ bits, encode_huffman_dc 5 LayerType.luminance = some bits ∧
      decode_huffman_dc bits LayerType.luminance = some [5]) ∧
    (∃ bits, encode_huffman_ac (2, -3) LayerType.chrominance = some bits ∧
      decode_huffman_ac bits LayerType.chrominance = some [(2, -3)]) :=
  ⟨(claim_C5_single_symbol_roundtrip LayerType.luminance).1 5 (by decide) (by decide),
   (claim_C5_single_symbol_roundtrip LayerType.chrominance).2 (2, -3)
     (Or.inr (Or.inr (by refine ⟨by omega, by decide, by decide, by decide⟩)))⟩

/-- C6: category classification is canonical. For v = 0 the table search
yields (0, 0). For nonzero v with |v| ≤ 32767 it yields a pair
(size, index) with size = ⌊log₂ |v|⌋ + 1, index the zero-based position
of v in the canonical ordering `[-(2^size - 1), …, -2^(size-1),
2^(size-1), …, 2^size - 1]`, and equivalently
`HUFFMAN_CATEGORIES[size][index] = v`. -/
theorem claim_C6_category_classification (v : Int) (hb : v.natAbs ≤ 32767) :
    (v = 0 → index_2d HUFFMAN_CATEGORIES v = some (0, 0)) ∧
    (v ≠ 0 → ∃ size idx, index_2d HUFFMAN_CATEGORIES v = some (size, idx) ∧
      size = Nat.log 2 v.natAbs + 1 ∧
      (spec_category_order size).get? idx = some v ∧
      (spec_category_order size).indexOf v = idx ∧
      (HUFFMAN_CATEGORIES.get? size).bind (fun row => row.get? idx) = some v) := by
  constructor
  · intro h
    subst h
    exact classify_zero
  · intro hv
    obtain ⟨s, j, hidx, hlog, hle, hlt, hs15, hj, hri, hget⟩ := classify_nonzero v hv hb
    refine ⟨s + 1, j, hidx, by omega, ?_, ?_, ?_⟩
    · rw [spec_category_order_eq_catRow (s + 1) (by omega)]
      exact hget
    · rw [spec_category_order_eq_catRow (s + 1) (by omega)]
      exact row_index_indexOf v _ j hri
    · rw [huffman_categories_get (s + 1) (by omega)]
      simpa using hget

theorem claim_C6_witness :
    (-5 : Int).natAbs ≤ 32767 ∧
    ((-5 : Int) ≠ 0 → ∃ size idx,
      index_2d HUFFMAN_CATEGORIES (-5) = some (size, idx) ∧
      size = Nat.log 2 (-5 : Int).natAbs + 1 ∧
      (spec_category_order size).get? idx = some (-5) ∧
      (spec_category_order size).indexOf (-5) = idx ∧
      (HUFFMAN_CATEGORIES.get? size).bind (fun row => row.get? idx) = some (-5)) :=
  ⟨by decide, (claim_C6_category_classification (-5) (by decide)).2⟩

/-- C7: `encode_huffman` raises exactly on out-of-range input: a DC
difference fails iff |v| ≥ 2048; an AC pair (run, value) with run in
[0, 15] that is neither EOB nor ZRL fails iff value = 0 or |value| ≥ 1024;
otherwise a bit string is returned. -/
theorem claim_C7_encode_out_of_range (layer : LayerType) :
    (∀ v : Int, encode_huffman_dc v layer = none ↔ 2048 ≤ v.natAbs) ∧
    (∀ p : Nat × Int, p.1 ≤ 15 → p ≠ EOB → p ≠ ZRL →
      (encode_huffman_ac p layer = none ↔ (p.2 = 0 ∨ 1024 ≤ p.2.natAbs))) := by
  constructor
  · intro v
    constructor
    · intro hnone
      by_contra hc
      obtain ⟨s, j, cw, _, _, _, _, _, hx⟩ :=
        encode_huffman_dc_spec v layer (by omega) (by omega)
      rw [hnone] at hx
      exact absurd hx (by simp)
    · intro hc
      rw [encode_huffman_dc, if_pos (by omega)]
  · intro p hrun hne hnz
    constructor
    · intro hnone
      by_contra hc
      push_neg at hc
      have h0 : p.2 ≠ 0 := hc.1
      obtain ⟨s, j, cw, _, _, _, _, _, _, hx⟩ :=
        encode_huffman_ac_spec p layer hrun h0 (by omega) (by omega)
      rw [hnone] at hx
      exact absurd hx (by simp)
    · intro hc
      rw [encode_huffman_ac, if_neg hne, if_neg hnz, if_pos (by omega)]

theorem claim_C7_witness :
    (encode_huffman_dc 2048 LayerType.luminance = none ↔
      2048 ≤ (2048 : Int).natAbs) ∧
    ((3, 0) ≠ EOB ∧ (3, 0) ≠ ZRL) ∧
    (encode_huffman_ac (3, 0) LayerType.luminance = none ↔
      ((3, 0) : Nat × Int).2 = 0 ∨ 1024 ≤ ((3, 0) : Nat × Int).2.natAbs) :=
  ⟨(claim_C7_encode_out_of_range LayerType.luminance).1 2048,
   ⟨by decide, by decide⟩,
   (claim_C7_encode_out_of_range LayerType.luminance).2 (3, 0) (by decide)
     (by decide) (by decide)⟩

/-! Run-length coder: grouping and ungrouping. -/

/-- Inverse of run grouping: expand (length, key) pairs. -/
def ungroup (gs : List (Nat × Int)) : List Int :=
  (gs.map (fun p => List.replicate p.1 p.2)).flatten

theorem ungroup_append (a b : List (Nat × Int)) :
    ungroup (a ++ b) = ungroup a ++ ungroup b := by
  rw [ungroup, ungroup, ungroup, List.map_append, List.flatten_append]

theorem ungroup_cons (n : Nat) (k : Int) (t : List (Nat × Int)) :
    ungroup ((n, k) :: t) = List.replicate n k ++ ungroup t := by
  rw [ungroup, List.map_cons, List.flatten_cons]
  rfl

theorem group_runs_cons_nil (x : Int) (xs : List Int) (h : group_runs xs = []) :
    group_runs (x :: xs) = [(1, x)] := by
  simp only [group_runs, h]

theorem group_runs_cons_eq (x : Int) (xs : List Int) (n : Nat) (k : Int)
    (rest : List (Nat × Int)) (hg : group_runs xs = (n, k) :: rest) (hk : k = x) :
    group_runs (x :: xs) = (n + 1, x) :: rest := by
  simp only [group_runs, hg, if_pos hk]

theorem group_runs_cons_ne (x : Int) (xs : List Int) (n : Nat) (k : Int)
    (rest : List (Nat × Int)) (hg : group_runs xs = (n, k) :: rest) (hk : ¬ k = x) :
    group_runs (x :: xs) = (1, x) :: (n, k) :: rest := by
  simp only [group_runs, hg, if_neg hk]

theorem group_runs_ne_nil (s : List Int) (h : s ≠ []) : group_runs s ≠ [] := by
  cases s with
  | nil => exact absurd rfl h
  | cons x xs =>
      cases hg : group_runs xs with
      | nil => rw [group_runs_cons_nil x xs hg]; simp
      | cons g rest =>
          obtain ⟨n, k⟩ := g
          by_cases hk : k = x
          · rw [group_runs_cons_eq x xs n k rest hg hk]; simp
          · rw [group_runs_cons_ne x xs n k rest hg hk]; simp

theorem ungroup_group_runs (s : List Int) : ungroup (group_runs s) = s := by
  induction s with
  | nil => rfl
  | cons x xs ih =>
      cases hg : group_runs xs with
      | nil =>
          have hxs : xs = [] := by
            by_contra hne
            exact group_runs_ne_nil xs hne hg
          subst hxs
          rw [group_runs_cons_nil x [] hg]
          rfl
      | cons g rest =>
          obtain ⟨n, k⟩ := g
          rw [hg] at ih
          by_cases hk : k = x
          · rw [group_runs_cons_eq x xs n k rest hg hk]
            subst hk
            rw [ungroup, List.map_cons, List.flatten_cons] at ih ⊢
            rw [List.replicate_succ, List.cons_append, ih]
          · rw [group_runs_cons_ne x xs n k rest hg hk]
            rw [ungroup, List.map_cons, List.flatten_cons]
            rw [ungroup] at ih
            rw [List.replicate_succ, List.replicate_zero, List.cons_append,
              List.nil_append, ih]

theorem group_runs_lengths (s : List Int) : ∀ g ∈ group_runs s, 1 ≤ g.1 := by
  induction s with
  | nil => intro g hg; exact absurd hg (by simp [group_runs])
  | cons x xs ih =>
      intro g hg
      cases hgr : group_runs xs with
      | nil =>
          rw [group_runs_cons_nil x xs hgr] at hg
          simp only [List.mem_singleton] at hg
          subst hg
          exact Nat.le_refl 1
      | cons g0 rest =>
          obtain ⟨n, k⟩ := g0
          rw [hgr] at ih
          by_cases hk : k = x
          · rw [group_runs_cons_eq x xs n k rest hgr hk] at hg
            rcases List.mem_cons.mp hg with h | h
            · subst h; exact Nat.le_add_left 1 n
            · exact ih g (List.mem_cons_of_mem _ h)
          · rw [group_runs_cons_ne x xs n k rest hgr hk] at hg
            rcases List.mem_cons.mp hg with h | h
            · subst h; exact Nat.le_refl 1
            · exact ih g h

theorem group_runs_chain (s : List Int) :
    List.Chain' (fun a b : Nat × Int => a.2 ≠ b.2) (group_runs s) := by
  induction s with
  | nil => exact List.chain'_nil
  | cons x xs ih =>
      cases hgr : group_runs xs with
      | nil => rw [group_runs_cons_nil x xs hgr]; simp
      | cons g0 rest =>
          obtain ⟨n, k⟩ := g0
          rw [hgr] at ih
          by_cases hk : k = x
          · rw [group_runs_cons_eq x xs n k rest hgr hk]
            subst hk
            cases rest with
            | nil => simp
            | cons r1 rtail =>
                rw [List.chain'_cons] at ih ⊢
                exact ⟨ih.1, ih.2⟩
          · rw [group_runs_cons_ne x xs n k rest hgr hk]
            rw [List.chain'_cons]
            exact ⟨fun h => hk h.symm, ih⟩

theorem group_runs_keys (s : List Int) : ∀ g ∈ group_runs s, g.2 ∈ s := by
  induction s with
  | nil => intro g hg; exact absurd hg (by simp [group_runs])
  | cons x xs ih =>
      intro g hg
      cases hgr : group_runs xs with
      | nil =>
          rw [group_runs_cons_nil x xs hgr] at hg
          simp only [List.mem_singleton] at hg
          subst hg
          exact List.mem_cons_self x xs
      | cons g0 rest =>
          obtain ⟨n, k⟩ := g0
          rw [hgr] at ih
          by_cases hk : k = x
          · rw [group_runs_cons_eq x xs n k rest hgr hk] at hg
            rcases List.mem_cons.mp hg with h | h
            · subst h; exact List.mem_cons_self x xs
            · exact List.mem_cons_of_mem x (ih g (List.mem_cons_of_mem _ h))
          · rw [group_runs_cons_ne x xs n k rest hgr hk] at hg
            rcases List.mem_cons.mp hg with h | h
            · subst h; exact List.mem_cons_self x xs
            · exact List.mem_cons_of_mem x (ih g h)

/-- The input with its trailing zeros removed: what `decode_run_length`
recovers from the symbols `encode_run_length` emits. -/
def removeTrailingZeros (s : List Int) : List Int :=
  (s.reverse.dropWhile (fun x => x == 0)).reverse

theorem removeTrailingZeros_append_zeros (s : List Int) (z : Nat) :
    removeTrailingZeros (s ++ List.replicate z 0) = removeTrailingZeros s := by
  rw [removeTrailingZeros, removeTrailingZeros, List.reverse_append,
    List.reverse_replicate]
  congr 1
  induction z with
  | zero => rw [List.replicate_zero, List.nil_append]
  | succ n ih =>
      rw [List.replicate_succ, List.cons_append, List.dropWhile_cons]
      simp only [show ((0 : Int) == 0) = true from rfl, if_true]
      exact ih

theorem removeTrailingZeros_concat_ne (s : List Int) (k : Int) (hk : k ≠ 0) :
    removeTrailingZeros (s ++ [k]) = s ++ [k] := by
  rw [removeTrailingZeros, List.reverse_append, List.reverse_singleton,
    List.singleton_append, List.dropWhile_cons]
  rw [if_neg (by simpa using hk)]
  rw [List.reverse_cons, List.reverse_reverse]

theorem removeTrailingZeros_pad (s : List Int) :
    ∃ z, s = removeTrailingZeros s ++ List.replicate z 0 := by
  refine ⟨(s.reverse.takeWhile (fun x => x == 0)).length, ?_⟩
  have hrep : s.reverse.takeWhile (fun x => x == 0)
      = List.replicate (s.reverse.takeWhile (fun x => x == 0)).length 0 := by
    apply List.eq_replicate_of_mem
    intro b hb
    have := List.mem_takeWhile_imp hb
    simpa using this
  calc s = s.reverse.reverse := (List.reverse_reverse s).symm
    _ = (s.reverse.takeWhile (fun x => x == 0)
          ++ s.reverse.dropWhile (fun x => x == 0)).reverse := by
        rw [List.takeWhile_append_dropWhile]
    _ = removeTrailingZeros s ++ List.replicate
          (s.reverse.takeWhile (fun x => x == 0)).length 0 := by
        rw [List.reverse_append, removeTrailingZeros]
        congr 1
        rw [hrep, List.reverse_replicate, List.length_replicate]

/-- Group list after the borrow flag has consumed one element of the head. -/
def adjustBorrow : Bool → List (Nat × Int) → List (Nat × Int)
  | false, gs => gs
  | true, [] => []
  | true, (n, k) :: t => (n - 1, k) :: t

theorem rlg_cons (len : Nat) (key : Int) (rest : List (Nat × Int)) (borrow : Bool) :
    run_length_groups ((len, key) :: rest) borrow =
      if (if borrow then len - 1 else len) = 0 then run_length_groups rest false
      else if key = 0 then
        match rest with
        | [] => none
        | (_, nk) :: _ =>
            (run_length_groups rest true).map
              (fun tail => List.replicate ((if borrow then len - 1 else len) / 16) ZRL
                ++ ((if borrow then len - 1 else len) % 16, nk) :: tail)
      else
        (run_length_groups rest false).map
          (fun tail => List.replicate (if borrow then len - 1 else len) (0, key) ++ tail) :=
  rfl

theorem flatten_zrl (m : Nat) :
    ((List.replicate m ZRL).map (fun p => List.replicate p.1 0 ++ [p.2])).flatten
      = List.replicate (16 * m) (0 : Int) := by
  induction m with
  | zero => rfl
  | succ n ih =>
      rw [List.replicate_succ, List.map_cons, List.flatten_cons, ih]
      have hz : List.replicate ZRL.1 (0 : Int) ++ [ZRL.2]
          = List.replicate 16 (0 : Int) := by
        rw [show ZRL.1 = 15 from rfl, show ZRL.2 = (0 : Int) from rfl]
        exact (List.replicate_succ' 15 (0 : Int)).symm
      rw [hz, ← List.replicate_add]
      congr 1
      omega

theorem flatten_replicate_singleton (m : Nat) (k : Int) :
    ((List.replicate m ((0 : Nat), k)).map
      (fun p => List.replicate p.1 0 ++ [p.2])).flatten = List.replicate m k := by
  induction m with
  | zero => rfl
  | succ n ih =>
      rw [List.replicate_succ, List.map_cons, List.flatten_cons, ih,
        List.replicate_succ]
      rfl

theorem run_length_groups_spec :
    ∀ (gs : List (Nat × Int)) (borrow : Bool),
      (∀ g ∈ gs, 1 ≤ g.1) →
      List.Chain' (fun a b : Nat × Int => a.2 ≠ b.2) gs →
      (∀ g, gs.getLast? = some g → g.2 ≠ 0) →
      (borrow = true → ∃ n k t, gs = (n, k) :: t ∧ k ≠ 0) →
      ∃ body, run_length_groups gs borrow = some body ∧
        (body.map (fun p => List.replicate p.1 0 ++ [p.2])).flatten
          = ungroup (adjustBorrow borrow gs) ∧
        ∀ p ∈ body, p = ZRL ∨ (p.1 ≤ 15 ∧ p.2 ≠ 0 ∧ ∃ g ∈ gs, g.2 = p.2) := by
  intro gs
  induction gs with
  | nil =>
      intro borrow _ _ _ hborrow
      refine ⟨[], ?_, ?_, by intro p hp; exact absurd hp (by simp)⟩
      · rfl
      · cases borrow with
        | false => rfl
        | true => rfl
  | cons g rest ih =>
      obtain ⟨len, key⟩ := g
      intro borrow hlen hchain hlast hborrow
      have hlen1 : 1 ≤ len := hlen (len, key) (List.mem_cons_self _ _)
      by_cases hL : (if borrow then len - 1 else len) = 0
      · -- borrowed-away group: skip it
        have hbt : borrow = true := by
          cases borrow with
          | false =>
              have h0 : len = 0 := by simpa using hL
              omega
          | true => rfl
        subst hbt
        obtain ⟨body, hrun, hflat, hsym⟩ := ih false
          (fun u hu => hlen u (List.mem_cons_of_mem _ hu))
          hchain.tail
          (fun u hu => by
            cases rest with
            | nil => exact absurd hu (by simp)
            | cons r t => exact hlast u (by rw [List.getLast?_cons_cons]; exact hu))
          (by intro h; exact absurd h (by simp))
        refine ⟨body, ?_, ?_, ?_⟩
        · rw [rlg_cons, if_pos hL]
          exact hrun
        · rw [hflat]
          show ungroup rest = ungroup ((len - 1, key) :: rest)
          rw [ungroup_cons, show len - 1 = 0 from by simpa using hL,
            List.replicate_zero, List.nil_append]
        · intro p hp
          rcases hsym p hp with h | h
          · exact Or.inl h
          · exact Or.inr ⟨h.1, h.2.1, by
              obtain ⟨u, hu, hue⟩ := h.2.2
              exact ⟨u, List.mem_cons_of_mem _ hu, hue⟩⟩
      · by_cases hkey : key = 0
        · -- zero run: borrow must be off, and a next group exists
          have hbf : borrow = false := by
            cases borrow with
            | true =>
                obtain ⟨n, k, t, heq, hk⟩ := hborrow rfl
                have : key = k := by
                  have := congrArg (fun l => List.head? l) heq
                  simp only [List.head?_cons] at this
                  have := Option.some.inj this
                  exact congrArg Prod.snd this
                rw [hkey] at this
                exact absurd this.symm hk
            | false => rfl
          subst hbf
          cases rest with
          | nil =>
              exfalso
              refine hlast (len, key) (by rw [List.getLast?_singleton]) ?_
              rw [hkey]
          | cons r0 rtail =>
              obtain ⟨nl, nk⟩ := r0
              have hnk : nk ≠ 0 := by
                have hrel : key ≠ nk := (List.chain'_cons.mp hchain).1
                intro h
                rw [hkey, h] at hrel
                exact hrel rfl
              have hnl : 1 ≤ nl := hlen (nl, nk)
                (List.mem_cons_of_mem _ (List.mem_cons_self _ _))
              obtain ⟨tailbody, hrun, hflat, hsym⟩ := ih true
                (fun u hu => hlen u (List.mem_cons_of_mem _ hu))
                hchain.tail
                (fun u hu => hlast u (by rw [List.getLast?_cons_cons]; exact hu))
                (fun _ => ⟨nl, nk, rtail, rfl, hnk⟩)
              refine ⟨List.replicate (len / 16) ZRL ++ (len % 16, nk) :: tailbody,
                ?_, ?_, ?_⟩
              · rw [rlg_cons, if_neg hL, if_pos hkey]
                rw [hrun]
                rfl
              · simp only [List.map_append, List.flatten_append, flatten_zrl,
                  List.map_cons, List.flatten_cons, hflat, hkey, adjustBorrow,
                  ungroup_cons]
                have h1 : List.replicate len (0 : Int)
                    = List.replicate (16 * (len / 16)) 0
                      ++ List.replicate (len % 16) 0 := by
                  rw [← List.replicate_add]
                  congr 1
                  omega
                have h2 : List.replicate nl nk = nk :: List.replicate (nl - 1) nk := by
                  rw [← List.replicate_succ]
                  congr 1
                  omega
                rw [h1, h2]
                simp only [List.append_assoc, List.nil_append, List.cons_append]
              · intro p hp
                rcases List.mem_append.mp hp with h | h
                · exact Or.inl (List.eq_of_mem_replicate h)
                · rcases List.mem_cons.mp h with h | h
                  · refine Or.inr ⟨by rw [h]; exact Nat.le_of_lt_succ (by
                      have := Nat.mod_lt len (y := 16) (by omega)
                      omega), ?_, ?_⟩
                    · rw [h]
                      exact hnk
                    · refine ⟨(nl, nk), List.mem_cons_of_mem _
                        (List.mem_cons_self _ _), by rw [h]⟩
                  · rcases hsym p h with h2 | h2
                    · exact Or.inl h2
                    · exact Or.inr ⟨h2.1, h2.2.1, by
                        obtain ⟨u, hu, hue⟩ := h2.2.2
                        exact ⟨u, List.mem_cons_of_mem _ hu, hue⟩⟩
        · -- nonzero run
          obtain ⟨tailbody, hrun, hflat, hsym⟩ := ih false
            (fun u hu => hlen u (List.mem_cons_of_mem _ hu))
            hchain.tail
            (fun u hu => by
              cases rest with
              | nil => exact absurd hu (by simp)
              | cons r t => exact hlast u (by rw [List.getLast?_cons_cons]; exact hu))
            (by intro h; exact absurd h (by simp))
          refine ⟨List.replicate (if borrow then len - 1 else len) (0, key) ++ tailbody,
            ?_, ?_, ?_⟩
          · rw [rlg_cons, if_neg hL, if_neg hkey, hrun]
            rfl
          · have hflat2 : (List.map (fun p => List.replicate p.1 0 ++ [p.2]) tailbody).flatten
                = ungroup rest := hflat
            simp only [List.map_append, List.flatten_append,
              flatten_replicate_singleton, hflat2]
            have hadj : ungroup (adjustBorrow borrow ((len, key) :: rest))
                = List.replicate (if borrow then len - 1 else len) key
                  ++ ungroup rest := by
              cases borrow with
              | false => simp [adjustBorrow, ungroup_cons]
              | true => simp [adjustBorrow, ungroup_cons]
            rw [hadj]
          · intro p hp
            rcases List.mem_append.mp hp with h | h
            · have := List.eq_of_mem_replicate h
              refine Or.inr ⟨by rw [this]; omega, by rw [this]; exact hkey, ?_⟩
              exact ⟨(len, key), List.mem_cons_self _ _, by rw [this]⟩
            · rcases hsym p h with h2 | h2
              · exact Or.inl h2
              · exact Or.inr ⟨h2.1, h2.2.1, by
                  obtain ⟨u, hu, hue⟩ := h2.2.2
                  exact ⟨u, List.mem_cons_of_mem _ hu, hue⟩⟩

theorem decode_run_length_concat_eob (body : List (Nat × Int)) :
    decode_run_length (body ++ [EOB])
      = (body.map (fun p => List.replicate p.1 0 ++ [p.2])).flatten := by
  rw [decode_run_length, List.map_append, List.flatten_append]
  simp only [List.map_cons, List.map_nil, List.flatten_cons, List.flatten_nil,
    List.append_nil]
  rw [show List.replicate EOB.1 (0 : Int) ++ [EOB.2] = [(0 : Int)] from rfl]
  exact List.dropLast_concat

theorem ungroup_singleton (g : Nat × Int) : ungroup [g] = List.replicate g.1 g.2 := by
  obtain ⟨n, k⟩ := g
  rw [ungroup_cons]
  rw [show ungroup [] = [] from rfl, List.append_nil]

theorem removeTrailingZeros_ungroup (gs2 : List (Nat × Int))
    (hlen : ∀ g ∈ gs2, 1 ≤ g.1)
    (hlast : ∀ g, gs2.getLast? = some g → g.2 ≠ 0) :
    removeTrailingZeros (ungroup gs2) = ungroup gs2 := by
  rcases List.eq_nil_or_concat gs2 with h | ⟨L, b, h⟩
  · rw [h]
    rfl
  · rw [List.concat_eq_append] at h
    obtain ⟨p1, k⟩ := b
    subst h
    have hk : k ≠ 0 := hlast (p1, k) (List.getLast?_concat L)
    have hp1 : 1 ≤ p1 :=
      hlen (p1, k) (List.mem_append_right L (List.mem_singleton_self _))
    rw [ungroup_append, ungroup_singleton]
    rw [show ((p1, k) : Nat × Int).1 = p1 from rfl,
      show ((p1, k) : Nat × Int).2 = k from rfl]
    rw [show List.replicate p1 k = List.replicate (p1 - 1) k ++ [k] from by
      rw [← List.replicate_succ']
      congr 1
      omega]
    rw [← List.append_assoc]
    exact removeTrailingZeros_concat_ne _ k hk

theorem encode_run_length_eq (seq : List Int) (g0 : Nat × Int)
    (grest : List (Nat × Int)) (hgs : group_runs seq = g0 :: grest) :
    encode_run_length seq =
      (run_length_groups
        (if ((g0 :: grest).getLastD (0, 0)).2 = 0 then (g0 :: grest).dropLast
         else g0 :: grest) false).map (fun ret => ret ++ [EOB]) := by
  simp only [encode_run_length, hgs]

theorem encode_run_length_spec (seq : List Int) (hne : seq ≠ []) :
    ∃ body, encode_run_length seq = some (body ++ [EOB]) ∧
      decode_run_length (body ++ [EOB]) = removeTrailingZeros seq ∧
      EOB ∉ body ∧
      ∀ p ∈ body, p = ZRL ∨ (p.1 ≤ 15 ∧ p.2 ≠ 0 ∧ p.2 ∈ seq) := by
  obtain ⟨g0, grest, hgs⟩ : ∃ g0 grest, group_runs seq = g0 :: grest := by
    cases h : group_runs seq with
    | nil => exact absurd h (group_runs_ne_nil seq hne)
    | cons a b => exact ⟨a, b, rfl⟩
  have hlen : ∀ g ∈ g0 :: grest, 1 ≤ g.1 := by
    rw [← hgs]
    exact group_runs_lengths seq
  have hchain : List.Chain' (fun a b : Nat × Int => a.2 ≠ b.2) (g0 :: grest) := by
    rw [← hgs]
    exact group_runs_chain seq
  have hkeys : ∀ g ∈ g0 :: grest, g.2 ∈ seq := by
    rw [← hgs]
    exact group_runs_keys seq
  have hung : ungroup (g0 :: grest) = seq := by
    rw [← hgs]
    exact ungroup_group_runs seq
  rw [encode_run_length_eq seq g0 grest hgs]
  obtain ⟨L1, K1, hgl⟩ : ∃ a b, (g0 :: grest).getLast (by simp) = (a, b) :=
    ⟨((g0 :: grest).getLast (by simp)).1, ((g0 :: grest).getLast (by simp)).2, rfl⟩
  have hconcat : (g0 :: grest).dropLast ++ [(L1, K1)] = g0 :: grest := by
    rw [← hgl]
    exact List.dropLast_append_getLast (by simp)
  have hgetD : (g0 :: grest).getLastD (0, 0) = (L1, K1) := by
    rw [List.getLastD_eq_getLast?, List.getLast?_eq_getLast _ (by simp), hgl]
    rfl
  by_cases hzero : ((g0 :: grest).getLastD (0, 0)).2 = 0
  · -- drop the trailing zero group
    rw [if_pos hzero]
    rw [hgetD] at hzero
    have hK1 : K1 = 0 := hzero
    have hsplit := List.chain'_append.mp (hconcat ▸ hchain)
    have hpremem : ∀ u ∈ (g0 :: grest).dropLast, u ∈ g0 :: grest := by
      intro u hu
      rw [← hconcat]
      exact List.mem_append_left _ hu
    have hprelast : ∀ u, ((g0 :: grest).dropLast).getLast? = some u → u.2 ≠ 0 := by
      intro u hu
      have hrel := hsplit.2.2 u (by rw [Option.mem_def]; exact hu) (L1, K1)
        (by rw [Option.mem_def, List.head?_cons])
      intro h0
      rw [h0] at hrel
      rw [hK1] at hrel
      exact hrel rfl
    obtain ⟨body, hrun, hflat, hsym⟩ := run_length_groups_spec
      ((g0 :: grest).dropLast) false
      (fun u hu => hlen u (hpremem u hu))
      hsplit.1
      hprelast
      (by intro h; exact absurd h (by simp))
    have hflat2 : (body.map (fun p => List.replicate p.1 0 ++ [p.2])).flatten
        = ungroup ((g0 :: grest).dropLast) := hflat
    refine ⟨body, by rw [hrun]; rfl, ?_, ?_, ?_⟩
    · rw [decode_run_length_concat_eob, hflat2]
      have hseq : seq = ungroup ((g0 :: grest).dropLast)
          ++ List.replicate L1 K1 := by
        have h2 := congrArg ungroup hconcat
        rw [ungroup_append, ungroup_singleton] at h2
        rw [← hung, ← h2]
      rw [hseq, hK1, removeTrailingZeros_append_zeros]
      rw [removeTrailingZeros_ungroup ((g0 :: grest).dropLast)
        (fun u hu => hlen u (hpremem u hu)) hprelast]
    · intro hmem
      rcases hsym EOB hmem with h | h
      · exact absurd h (by decide)
      · exact h.2.1 rfl
    · intro p hp
      rcases hsym p hp with h | h
      · exact Or.inl h
      · refine Or.inr ⟨h.1, h.2.1, ?_⟩
        obtain ⟨u, hu, hue⟩ := h.2.2
        rw [← hue]
        exact hkeys u (hpremem u hu)
  · -- last group is nonzero: keep all groups
    rw [if_neg hzero]
    rw [hgetD] at hzero
    have hlast : ∀ g, (g0 :: grest).getLast? = some g → g.2 ≠ 0 := by
      intro g hg
      rw [List.getLast?_eq_getLast _ (by simp), hgl] at hg
      have hgeq : (L1, K1) = g := Option.some.inj hg
      rw [← hgeq]
      exact hzero
    obtain ⟨body, hrun, hflat, hsym⟩ := run_length_groups_spec
      (g0 :: grest) false hlen hchain hlast
      (by intro h; exact absurd h (by simp))
    have hflat2 : (body.map (fun p => List.replicate p.1 0 ++ [p.2])).flatten
        = ungroup (g0 :: grest) := hflat
    refine ⟨body, by rw [hrun]; rfl, ?_, ?_, ?_⟩
    · rw [decode_run_length_concat_eob, hflat2, hung]
      rw [show removeTrailingZeros seq = seq from by
        rw [← hung]
        exact removeTrailingZeros_ungroup _ hlen hlast]
    · intro hmem
      rcases hsym EOB hmem with h | h
      · exact absurd h (by decide)
      · exact h.2.1 rfl
    · intro p hp
      rcases hsym p hp with h | h
      · exact Or.inl h
      · refine Or.inr ⟨h.1, h.2.1, ?_⟩
        obtain ⟨u, hu, hue⟩ := h.2.2
        rw [← hue]
        exact hkeys u hu

theorem zig_zag_path_from_length (size : Nat) (p : Nat × Nat) (n : Nat) :
    (zig_zag_path_from size p n).length = n := by
  induction n generalizing p with
  | zero => rfl
  | succ k ih => rw [zig_zag_path_from, List.length_cons, ih]

theorem iter_zig_zag_length (size : Nat) (m : Nat → Nat → Int) :
    (iter_zig_zag size m).length = size * size := by
  rw [iter_zig_zag, List.length_map, zig_zag_path_from_length]

theorem block_ac_length (b : Block) : (block_ac b).length = 63 := by
  rw [block_ac, List.length_tail, iter_zig_zag_length]

theorem block_ac_ne_nil (b : Block) : block_ac b ≠ [] := by
  intro h
  have := congrArg List.length h
  rw [block_ac_length] at this
  exact absurd this (by simp)

theorem encode_run_length_eob_count (seq : List Int) (hne : seq ≠ []) :
    ∃ out, encode_run_length seq = some out ∧
      out.count EOB = 1 ∧ out.getLast? = some EOB := by
  obtain ⟨body, henc, _, hnotin, _⟩ := encode_run_length_spec seq hne
  refine ⟨body ++ [EOB], henc, ?_, List.getLast?_concat body⟩
  rw [List.count_append, List.count_eq_zero.mpr hnotin]
  rfl

/-- C2 counterexample: the all-zero length-63 vector round-trips to the
empty vector, not to itself. -/
theorem claim_C2_counterexample :
    (encode_run_length (List.replicate 63 0)).map decode_run_length
      ≠ some (List.replicate 63 (0 : Int)) := by
  decide

/-- C2 (amended): for every length-63 AC vector, the run-length round trip
succeeds and returns the vector with its trailing zeros removed; in
particular it returns the vector itself exactly when the final
coefficient is nonzero, and the decoded result has 63 minus the number
of trailing zeros values, not always 63. -/
theorem claim_C2_run_length_roundtrip (a : List Int) (hlen : a.length = 63) :
    ∃ out, encode_run_length a = some out ∧
      decode_run_length out = removeTrailingZeros a ∧
      (∀ z, a.getLast? = some z → z ≠ 0 → decode_run_length out = a) := by
  have hne : a ≠ [] := by
    intro h
    rw [h] at hlen
    exact absurd hlen (by decide)
  obtain ⟨body, henc, hdec, _, _⟩ := encode_run_length_spec a hne
  refine ⟨body ++ [EOB], henc, hdec, ?_⟩
  intro z hz hz0
  rw [hdec]
  rcases List.eq_nil_or_concat a with h | ⟨L, b, h⟩
  · exact absurd h hne
  · rw [List.concat_eq_append] at h
    subst h
    have : b = z := by
      have := List.getLast?_concat L (a := b)
      rw [this] at hz
      exact Option.some.inj hz
    subst this
    exact removeTrailingZeros_concat_ne L b hz0

theorem claim_C2_witness :
    (List.replicate 62 (0 : Int) ++ [7]).length = 63 ∧
    ∃ out, encode_run_length (List.replicate 62 (0 : Int) ++ [7]) = some out ∧
      decode_run_length out
        = removeTrailingZeros (List.replicate 62 (0 : Int) ++ [7]) ∧
      (∀ z, (List.replicate 62 (0 : Int) ++ [7]).getLast? = some z → z ≠ 0 →
        decode_run_length out = List.replicate 62 (0 : Int) ++ [7]) :=
  ⟨by decide, claim_C2_run_length_roundtrip _ (by decide)⟩

/-- C8: for every nonempty AC coefficient vector the symbol list of
`encode_run_length` holds EOB exactly once, as its final element; hence
the flat per-layer AC symbol stream of the encoder holds as many EOB
symbols as the layer has blocks. -/
theorem claim_C8_eob_invariant :
    (∀ seq : List Int, seq ≠ [] →
      ∃ out, encode_run_length seq = some out ∧
        out.count EOB = 1 ∧ out.getLast? = some EOB) ∧
    (∀ blocks : List Block,
      ∃ stream, layer_run_length_ac blocks = some stream ∧
        stream.count EOB = blocks.length) := by
  refine ⟨encode_run_length_eob_count, ?_⟩
  intro blocks
  induction blocks with
  | nil => exact ⟨[], rfl, rfl⟩
  | cons b bs ih =>
      obtain ⟨stream, hs, hcount⟩ := ih
      obtain ⟨out, hout, hcount1, _⟩ :=
        encode_run_length_eob_count (block_ac b) (block_ac_ne_nil b)
      rw [layer_run_length_ac] at hs ⊢
      cases hm : bs.mapM (fun u => encode_run_length (block_ac u)) with
      | none => rw [hm] at hs; exact absurd hs (by simp)
      | some outs =>
          rw [hm] at hs
          simp only [Option.map_some'] at hs
          have hfl : List.flatten outs = stream := Option.some.inj hs
          refine ⟨out ++ stream, ?_, ?_⟩
          · rw [List.mapM_cons, hout, hm]
            simp [hfl]
          · rw [List.count_append, hcount1, hcount, List.length_cons]
            omega

theorem isplit_go_append_no_splitter (tail : List (Nat × Int))
    (htail : EOB ∉ tail) :
    ∀ (l : List (Nat × Int)) (acc : List (Nat × Int)),
      isplit_go EOB acc (l ++ tail) = isplit_go EOB acc l := by
  intro l
  induction l with
  | nil =>
      intro acc
      show isplit_go EOB acc tail = []
      induction tail generalizing acc with
      | nil => rfl
      | cons t ts ih =>
          rw [isplit_go, if_neg (fun h => htail (by
            rw [← h]
            exact List.mem_cons_self t ts))]
          exact ih (fun hm => htail (List.mem_cons_of_mem t hm)) _
  | cons x xs ih =>
      intro acc
      rw [List.cons_append, isplit_go, isplit_go]
      by_cases hx : x = EOB
      · rw [if_pos hx, if_pos hx, ih]
      · rw [if_neg hx, if_neg hx, ih]

/-- C10: the AC grouping of `Decoder._get_ac` keeps only EOB-terminated
groups. Symbols after the last EOB are silently dropped (no error), and a
symbol stream without any EOB yields zero groups, hence zero blocks for
that layer. -/
theorem claim_C10_ac_grouping_drops_tail :
    (∀ (syms tail : List (Nat × Int)), EOB ∉ tail →
      isplit (syms ++ tail) EOB = isplit syms EOB) ∧
    (∀ syms : List (Nat × Int), EOB ∉ syms → isplit syms EOB = []) ∧
    (∀ (bits : List Bool) (layer : LayerType) (syms tail : List (Nat × Int)),
      decode_huffman_ac bits layer = some (syms ++ tail) → EOB ∉ tail →
      decoder_ac bits layer = some ((isplit syms EOB).map decode_run_length)) := by
  refine ⟨?_, ?_, ?_⟩
  · intro syms tail htail
    exact isplit_go_append_no_splitter tail htail syms []
  · intro syms hsyms
    have := isplit_go_append_no_splitter syms hsyms [] []
    rw [List.nil_append] at this
    exact this
  · intro bits layer syms tail hdec htail
    rw [decoder_ac, hdec]
    simp only [Option.map_some']
    rw [isplit, isplit_go_append_no_splitter tail htail syms []]
    rfl

theorem claim_C10_witness :
    (EOB ∉ [((3 : Nat), (5 : Int))] ∧
      isplit ([EOB] ++ [((3 : Nat), (5 : Int))]) EOB = isplit [EOB] EOB) ∧
    (isplit [((3 : Nat), (5 : Int))] EOB = []) ∧
    (decoder_ac (w [1, 0, 1, 0, 1, 0, 0, 1, 0, 1]) LayerType.luminance
      = some ((isplit [EOB] EOB).map decode_run_length)) :=
  ⟨⟨by decide, claim_C10_ac_grouping_drops_tail.1 [EOB] _ (by decide)⟩,
   claim_C10_ac_grouping_drops_tail.2.1 _ (by decide),
   claim_C10_ac_grouping_drops_tail.2.2 (w [1, 0, 1, 0, 1, 0, 0, 1, 0, 1])
     LayerType.luminance [EOB] [((0 : Nat), (5 : Int))] (by decide) (by decide)⟩

/-! Zig-zag traversal: the visiting order is ranked by diagonals, the rank
increases by one per step, and the path covers the whole square. -/

/-- Number of cells of an N×N square on diagonal d (cells (x, y) with
x + y = d). -/
def diagSize (N d : Nat) : Nat := min d (N - 1) + 1 - (d - (N - 1))

/-- Number of cells on diagonals before d. -/
def diagBefore (N : Nat) : Nat → Nat
  | 0 => 0
  | d + 1 => diagBefore N d + diagSize N d

/-- Position of a cell in the zig-zag visiting order: cells are ordered by
diagonal; even diagonals run with x ascending, odd diagonals with x
descending. -/
def zigRank (N : Nat) : Nat × Nat → Nat
  | (x, y) =>
      diagBefore N (x + y) +
        (if (x + y) % 2 = 0 then x - (x + y - (N - 1))
         else min (x + y) (N - 1) - x)

theorem zigRank_eval (N x y : Nat) :
    zigRank N (x, y) =
      diagBefore N (x + y) +
        (if (x + y) % 2 = 0 then x - (x + y - (N - 1))
         else min (x + y) (N - 1) - x) := rfl

theorem diagBefore_succ (N d : Nat) :
    diagBefore N (d + 1) = diagBefore N d + diagSize N d := rfl

theorem diagBefore_sum (N d : Nat) :
    diagBefore N d = ∑ e ∈ Finset.range d, diagSize N e := by
  induction d with
  | zero => rfl
  | succ k ih => rw [diagBefore_succ, ih, Finset.sum_range_succ]

theorem diagBefore_total (N : Nat) (hN : 1 ≤ N) :
    diagBefore N (2 * N - 1) = N * N := by
  have h2 : 2 * N - 1 = N + (N - 1) := by omega
  rw [diagBefore_sum, h2, Finset.sum_range_add]
  have hfst : ∑ e ∈ Finset.range N, diagSize N e
      = ∑ e ∈ Finset.range N, (e + 1) := by
    refine Finset.sum_congr rfl ?_
    intro e he
    rw [Finset.mem_range] at he
    rw [diagSize]
    omega
  have hsnd : ∑ e ∈ Finset.range (N - 1), diagSize N (N + e)
      = ∑ e ∈ Finset.range (N - 1), (N - 1 - e) := by
    refine Finset.sum_congr rfl ?_
    intro e he
    rw [Finset.mem_range] at he
    rw [diagSize]
    omega
  have hrefl : ∑ e ∈ Finset.range (N - 1), (N - 1 - e)
      = ∑ e ∈ Finset.range (N - 1), (e + 1) := by
    have := Finset.sum_range_reflect (fun j => j + 1) (N - 1)
    rw [← this]
    refine Finset.sum_congr rfl ?_
    intro e he
    rw [Finset.mem_range] at he
    omega
  rw [hfst, hsnd, hrefl]
  have hgauss : ∀ M : Nat, (∑ e ∈ Finset.range M, (e + 1)) * 2 = M * (M + 1) := by
    intro M
    induction M with
    | zero => rfl
    | succ k ihk =>
        rw [Finset.sum_range_succ, Nat.add_mul, ihk]
        ring
  have h1 := hgauss N
  have h2g := hgauss (N - 1)
  have hcombined : (∑ e ∈ Finset.range N, (e + 1)
      + ∑ e ∈ Finset.range (N - 1), (e + 1)) * 2 = N * N * 2 := by
    rw [Nat.add_mul, h1, h2g]
    have hrw : N - 1 + 1 = N := by omega
    rw [hrw]
    cases N with
    | zero => omega
    | succ m =>
        have : m + 1 - 1 = m := by omega
        rw [this]
        ring
  omega

theorem zigRank_corner (N : Nat) (hN : 1 ≤ N) :
    zigRank N (N - 1, N - 1) = N * N - 1 := by
  rw [zigRank_eval]
  rw [if_pos (by omega)]
  have htot := diagBefore_total N hN
  have hsucc : diagBefore N (2 * N - 2 + 1) = diagBefore N (2 * N - 2)
      + diagSize N (2 * N - 2) := diagBefore_succ N (2 * N - 2)
  have h21 : 2 * N - 2 + 1 = 2 * N - 1 := by omega
  rw [h21] at hsucc
  have hsz : diagSize N (2 * N - 2) = 1 := by
    rw [diagSize]
    omega
  have hdd : N - 1 + (N - 1) = 2 * N - 2 := by omega
  rw [hdd]
  omega

theorem zig_zag_step_eval (N x y : Nat) :
    zig_zag_step N (x, y) =
      if (x + y) % 2 = 1 then move_zig_zag_idx x y N
      else ((move_zig_zag_idx y x N).2, (move_zig_zag_idx y x N).1) := rfl

theorem zigRank_step (N x y : Nat) (hx : x < N) (hy : y < N)
    (hne : ¬(x = N - 1 ∧ y = N - 1)) :
    ∃ a b, zig_zag_step N (x, y) = (a, b) ∧ a < N ∧ b < N ∧
      zigRank N (a, b) = zigRank N (x, y) + 1 := by
  by_cases hpar : (x + y) % 2 = 1
  · by_cases hyN : y < N - 1
    · refine ⟨x - 1, y + 1, ?_, by omega, by omega, ?_⟩
      · rw [zig_zag_step_eval, if_pos hpar, move_zig_zag_idx, if_pos hyN]
      · by_cases hx0 : x = 0
        · rw [zigRank_eval, zigRank_eval]
          rw [show x - 1 + (y + 1) = (x + y) + 1 from by omega]
          rw [if_pos (by omega), if_neg (by omega)]
          have hdb := diagBefore_succ N (x + y)
          rw [diagSize] at hdb
          omega
        · rw [zigRank_eval, zigRank_eval]
          rw [show x - 1 + (y + 1) = x + y from by omega]
          rw [if_neg (by omega), if_neg (by omega)]
          omega
    · have hyeq : y = N - 1 := by omega
      have hxne : x ≠ N - 1 := fun h => hne ⟨h, hyeq⟩
      refine ⟨x + 1, y, ?_, by omega, hy, ?_⟩
      · rw [zig_zag_step_eval, if_pos hpar, move_zig_zag_idx, if_neg hyN]
      · rw [zigRank_eval, zigRank_eval]
        rw [show x + 1 + y = (x + y) + 1 from by omega]
        rw [if_pos (by omega), if_neg (by omega)]
        have hdb := diagBefore_succ N (x + y)
        rw [diagSize] at hdb
        omega
  · by_cases hxN : x < N - 1
    · refine ⟨x + 1, y - 1, ?_, by omega, by omega, ?_⟩
      · show zig_zag_step N (x, y) = (x + 1, y - 1)
        rw [zig_zag_step_eval, if_neg hpar, move_zig_zag_idx, if_pos hxN]
      · by_cases hy0 : y = 0
        · rw [zigRank_eval, zigRank_eval]
          rw [show x + 1 + (y - 1) = (x + y) + 1 from by omega]
          rw [if_neg (by omega), if_pos (by omega)]
          have hdb := diagBefore_succ N (x + y)
          rw [diagSize] at hdb
          omega
        · rw [zigRank_eval, zigRank_eval]
          rw [show x + 1 + (y - 1) = x + y from by omega]
          rw [if_pos (by omega), if_pos (by omega)]
          omega
    · have hxeq : x = N - 1 := by omega
      have hyne : y ≠ N - 1 := fun h => hne ⟨hxeq, h⟩
      refine ⟨x, y + 1, ?_, hx, by omega, ?_⟩
      · show zig_zag_step N (x, y) = (x, y + 1)
        rw [zig_zag_step_eval, if_neg hpar, move_zig_zag_idx, if_neg hxN]
      · rw [zigRank_eval, zigRank_eval]
        rw [show x + (y + 1) = (x + y) + 1 from by omega]
        rw [if_neg (by omega), if_pos (by omega)]
        have hdb := diagBefore_succ N (x + y)
        rw [diagSize] at hdb
        omega

/-! The zig-zag path: ranks along the path count up one by one, so the
path is duplicate-free and covers the whole N×N square; writing the
traversal back along the path therefore restores the matrix. -/

theorem zig_zag_path_ranks (N : Nat) (hN : 1 ≤ N) :
    ∀ (n : Nat) (p : Nat × Nat), p.1 < N → p.2 < N →
      zigRank N p + n ≤ N * N →
      (zig_zag_path_from N p n).map (zigRank N) = List.range' (zigRank N p) n ∧
      ∀ q ∈ zig_zag_path_from N p n, q.1 < N ∧ q.2 < N := by
  intro n
  induction n with
  | zero =>
      intro p _ _ _
      exact ⟨rfl, fun q hq => absurd hq (by simp [zig_zag_path_from])⟩
  | succ k ih =>
      intro p hp1 hp2 hbound
      by_cases hk0 : k = 0
      · subst hk0
        refine ⟨rfl, ?_⟩
        intro q hq
        have hqp : q = p := by
          simp [zig_zag_path_from] at hq
          exact hq
        rw [hqp]
        exact ⟨hp1, hp2⟩
      · have hcorner : ¬(p.1 = N - 1 ∧ p.2 = N - 1) := by
          intro hcor
          have hpe : p = (N - 1, N - 1) := by
            obtain ⟨a, b⟩ := p
            simp only at hcor
            rw [hcor.1, hcor.2]
          have hrank : zigRank N p = N * N - 1 := by
            rw [hpe]
            exact zigRank_corner N hN
          have hle : N ≤ N * N := Nat.le_mul_of_pos_left N (by omega)
          omega
        obtain ⟨a, b, hstep, ha, hb, hrank⟩ := zigRank_step N p.1 p.2 hp1 hp2 hcorner
        have hpeta : (p.1, p.2) = p := rfl
        rw [hpeta] at hstep hrank
        obtain ⟨hmap, hin⟩ := ih (a, b) ha hb (by omega)
        constructor
        · show (p :: zig_zag_path_from N (zig_zag_step N p) k).map (zigRank N)
            = List.range' (zigRank N p) (k + 1)
          rw [List.map_cons, hstep, hmap, hrank, List.range'_succ]
        · intro q hq
          rw [show zig_zag_path_from N p (k + 1)
              = p :: zig_zag_path_from N (zig_zag_step N p) k from rfl] at hq
          rcases List.mem_cons.mp hq with h | h
          · rw [h]; exact ⟨hp1, hp2⟩
          · rw [hstep] at h
            exact hin q h

theorem zigRank_zero (N : Nat) : zigRank N (0, 0) = 0 := by
  rw [zigRank_eval]
  rw [if_pos (by omega)]
  have hdb : diagBefore N (0 + 0) = 0 := rfl
  omega

theorem zig_zag_path_nodup (N : Nat) (hN : 1 ≤ N) :
    (zig_zag_path_from N (0, 0) (N * N)).Nodup := by
  have h0 := zigRank_zero N
  have hm := zig_zag_path_ranks N hN (N * N) (0, 0) (by omega) (by omega)
    (by rw [h0]; omega)
  have hnd : ((zig_zag_path_from N (0, 0) (N * N)).map (zigRank N)).Nodup := by
    rw [hm.1]
    exact List.nodup_range' _ _
  exact List.Nodup.of_map _ hnd

theorem zig_zag_path_coverage (N : Nat) (hN : 1 ≤ N) (q : Nat × Nat)
    (h1 : q.1 < N) (h2 : q.2 < N) :
    q ∈ zig_zag_path_from N (0, 0) (N * N) := by
  have h0 := zigRank_zero N
  have hnd := zig_zag_path_nodup N hN
  have hlen := zig_zag_path_from_length N (0, 0) (N * N)
  have hin := (zig_zag_path_ranks N hN (N * N) (0, 0) (by omega) (by omega)
    (by rw [h0]; omega)).2
  have hsub : (zig_zag_path_from N (0, 0) (N * N)).toFinset
      ⊆ Finset.range N ×ˢ Finset.range N := by
    intro x hx
    rw [List.mem_toFinset] at hx
    obtain ⟨hx1, hx2⟩ := hin x hx
    rw [Finset.mem_product, Finset.mem_range, Finset.mem_range]
    exact ⟨hx1, hx2⟩
  have hcard : (zig_zag_path_from N (0, 0) (N * N)).toFinset.card = N * N := by
    rw [List.toFinset_card_of_nodup hnd, hlen]
  have hTcard : (Finset.range N ×ˢ Finset.range N).card = N * N := by
    rw [Finset.card_product, Finset.card_range]
  have heqset : (zig_zag_path_from N (0, 0) (N * N)).toFinset
      = Finset.range N ×ˢ Finset.range N :=
    Finset.eq_of_subset_of_card_le hsub (by rw [hcard, hTcard])
  have hqT : q ∈ Finset.range N ×ˢ Finset.range N := by
    rw [Finset.mem_product, Finset.mem_range, Finset.mem_range]
    exact ⟨h1, h2⟩
  rw [← heqset] at hqT
  exact List.mem_toFinset.mp hqT

theorem write_along_preserve : ∀ (ps : List (Nat × Nat)) (vs : List Int)
    (m : Nat → Nat → Int) (r c : Nat),
    (∀ q ∈ ps, ¬(r = q.2 ∧ c = q.1)) →
    write_along ps vs m r c = m r c := by
  intro ps
  induction ps with
  | nil =>
      intro vs m r c _
      cases vs <;> rfl
  | cons p ps ih =>
      intro vs m r c h
      cases vs with
      | nil => rfl
      | cons v vs =>
          show write_along ps vs
            (fun r' c' => if r' = p.2 ∧ c' = p.1 then v else m r' c') r c = m r c
          rw [ih vs _ r c (fun q hq => h q (List.mem_cons_of_mem p hq))]
          exact if_neg (h p (List.mem_cons_self p ps))

theorem write_along_get : ∀ (ps : List (Nat × Nat)) (vs : List Int)
    (m : Nat → Nat → Int), ps.Nodup →
    ∀ (k : Nat) (hk : k < ps.length) (hk2 : k < vs.length),
    write_along ps vs m (ps.get ⟨k, hk⟩).2 (ps.get ⟨k, hk⟩).1
      = vs.get ⟨k, hk2⟩ := by
  intro ps
  induction ps with
  | nil =>
      intro vs m _ k hk
      exact absurd hk (by simp)
  | cons p ps ih =>
      intro vs m hnd k hk hk2
      cases vs with
      | nil => exact absurd hk2 (by simp)
      | cons v vs =>
          cases k with
          | zero =>
              show write_along ps vs
                (fun r' c' => if r' = p.2 ∧ c' = p.1 then v else m r' c') p.2 p.1 = v
              have hnotin : p ∉ ps := (List.nodup_cons.mp hnd).1
              rw [write_along_preserve ps vs _ p.2 p.1 ?_]
              · exact if_pos ⟨rfl, rfl⟩
              · intro q hq hcell
                apply hnotin
                have hqp : p = q := by
                  obtain ⟨q1, q2⟩ := q
                  obtain ⟨p1, p2⟩ := p
                  simp only at hcell
                  rw [Prod.mk.injEq]
                  exact ⟨hcell.2, hcell.1⟩
                rw [hqp]
                exact hq
          | succ j =>
              exact ih vs _ (List.nodup_cons.mp hnd).2 j
                (Nat.lt_of_succ_lt_succ hk) (Nat.lt_of_succ_lt_succ hk2)

theorem get_map_pair (M : Nat → Nat → Int) :
    ∀ (l : List (Nat × Nat)) (k : Nat) (h1 : k < l.length)
      (h2 : k < (l.map (fun p => M p.2 p.1)).length),
    (l.map (fun p => M p.2 p.1)).get ⟨k, h2⟩
      = M (l.get ⟨k, h1⟩).2 (l.get ⟨k, h1⟩).1
  | _ :: _, 0, _, _ => rfl
  | _ :: l, k + 1, h1, h2 =>
      get_map_pair M l k (Nat.lt_of_succ_lt_succ h1) (Nat.lt_of_succ_lt_succ h2)

/-- Writing the zig-zag traversal back along the path restores every cell
of the square. -/
theorem inverse_iter_zig_zag_roundtrip (N : Nat) (hN : 1 ≤ N)
    (M : Nat → Nat → Int) (r c : Nat) (hr : r < N) (hc : c < N) :
    inverse_iter_zig_zag (iter_zig_zag N M) (some N) 0 r c = M r c := by
  have hseqlen : (iter_zig_zag N M).length = N * N := iter_zig_zag_length N M
  have hpad : iter_zig_zag N M
      ++ List.replicate (N * N - (iter_zig_zag N M).length) 0
      = iter_zig_zag N M := by
    rw [hseqlen, Nat.sub_self, List.replicate_zero, List.append_nil]
  have hmain : write_along
      (zig_zag_path_from N (0, 0)
        ((iter_zig_zag N M
          ++ List.replicate (N * N - (iter_zig_zag N M).length) 0).length))
      (iter_zig_zag N M
        ++ List.replicate (N * N - (iter_zig_zag N M).length) 0)
      np_empty r c = M r c := by
    rw [hpad, hseqlen]
    obtain ⟨i, hi⟩ := List.mem_iff_get.mp
      (zig_zag_path_coverage N hN (c, r) hc hr)
    obtain ⟨iv, hivlt⟩ := i
    have hivn : iv < N * N := by
      have h := hivlt
      rw [zig_zag_path_from_length] at h
      exact h
    have hi2 : iv < (iter_zig_zag N M).length := by
      rw [hseqlen]
      exact hivn
    have hget := write_along_get (zig_zag_path_from N (0, 0) (N * N))
      (iter_zig_zag N M) np_empty (zig_zag_path_nodup N hN) iv hivlt hi2
    rw [hi] at hget
    have hgoal : write_along (zig_zag_path_from N (0, 0) (N * N))
        (iter_zig_zag N M) np_empty r c
        = (iter_zig_zag N M).get ⟨iv, hi2⟩ := hget
    rw [hgoal]
    have hlm : iv < ((zig_zag_path_from N (0, 0) (N * N)).map
        (fun p => M p.2 p.1)).length := by
      rw [List.length_map]
      exact hivlt
    have hiter : (iter_zig_zag N M).get ⟨iv, hi2⟩
        = ((zig_zag_path_from N (0, 0) (N * N)).map
            (fun p => M p.2 p.1)).get ⟨iv, hlm⟩ := rfl
    rw [hiter, get_map_pair M _ iv hivlt hlm, hi]
  exact hmain

/-- C3: zig-zag round trip. For every N ≥ 1 and every N×N integer matrix
M, `inverse_iter_zig_zag` applied to the traversal `iter_zig_zag` of M,
with explicit size N, reconstructs M exactly (every cell of the square
reads back its original value). -/
theorem claim_C3_zig_zag_roundtrip (N : Nat) (hN : 1 ≤ N)
    (M : Nat → Nat → Int) (r c : Nat) (hr : r < N) (hc : c < N) :
    inverse_iter_zig_zag (iter_zig_zag N M) (some N) 0 r c = M r c :=
  inverse_iter_zig_zag_roundtrip N hN M r c hr hc

theorem claim_C3_witness :
    1 ≤ 2 ∧ (0 : Nat) < 2 ∧ (1 : Nat) < 2 ∧
    inverse_iter_zig_zag
        (iter_zig_zag 2 (fun r c => (r : Int) * 10 + (c : Int))) (some 2) 0 0 1
      = (fun r c => (r : Int) * 10 + (c : Int)) 0 1 :=
  ⟨by decide, by decide, by decide,
    claim_C3_zig_zag_roundtrip 2 (by decide) (fun r c => (r : Int) * 10 + (c : Int))
      0 1 (by decide) (by decide)⟩

theorem claim_C8_witness :
    (([1, 2] : List Int) ≠ [] ∧
      ∃ out, encode_run_length ([1, 2] : List Int) = some out ∧
        out.count EOB = 1 ∧ out.getLast? = some EOB) ∧
    (∃ stream, layer_run_length_ac [fun _ _ => 0] = some stream ∧
      stream.count EOB = ([fun _ _ => 0] : List Block).length) :=
  ⟨⟨by decide, claim_C8_eob_invariant.1 ([1, 2] : List Int) (by decide)⟩,
    claim_C8_eob_invariant.2 [fun _ _ => 0]⟩

/-! Reassembling blocks: decode of the per-block run-length symbols is the
AC vector with trailing zeros stripped, and `rebuild_block` pads them back
with zeros, so each block survives the trip. -/

theorem inverse_iter_zig_zag_congr (s1 s2 : List Int) (n : Nat) (f : Int)
    (h : s1 ++ List.replicate (n * n - s1.length) f
       = s2 ++ List.replicate (n * n - s2.length) f) :
    inverse_iter_zig_zag s1 (some n) f = inverse_iter_zig_zag s2 (some n) f := by
  simp only [inverse_iter_zig_zag, Option.getD_some]
  rw [h]

theorem rebuild_block_roundtrip (b : Block) :
    rebuild_block (toMat b 0 0) (removeTrailingZeros (block_ac b)) = b := by
  obtain ⟨z, hz⟩ := removeTrailingZeros_pad (block_ac b)
  have hlen63 : (block_ac b).length = 63 := block_ac_length b
  have hzlen : (removeTrailingZeros (block_ac b)).length + z = 63 := by
    have hl := congrArg List.length hz
    rw [List.length_append, List.length_replicate] at hl
    omega
  have hiter : iter_zig_zag 8 (toMat b) = toMat b 0 0 :: block_ac b := rfl
  have hpadeq : (toMat b 0 0 :: removeTrailingZeros (block_ac b))
      ++ List.replicate
        (8 * 8 - (toMat b 0 0 :: removeTrailingZeros (block_ac b)).length) 0
      = iter_zig_zag 8 (toMat b)
        ++ List.replicate (8 * 8 - (iter_zig_zag 8 (toMat b)).length) 0 := by
    rw [hiter]
    have h1 : 8 * 8
        - (toMat b 0 0 :: removeTrailingZeros (block_ac b)).length = z := by
      rw [List.length_cons]
      omega
    have h2 : 8 * 8 - (toMat b 0 0 :: block_ac b).length = 0 := by
      rw [List.length_cons, hlen63]
    rw [h1, h2, List.replicate_zero, List.append_nil, List.cons_append, ← hz]
  have hfun : inverse_iter_zig_zag
      (toMat b 0 0 :: removeTrailingZeros (block_ac b)) (some 8) 0
      = inverse_iter_zig_zag (iter_zig_zag 8 (toMat b)) (some 8) 0 :=
    inverse_iter_zig_zag_congr _ _ 8 0 hpadeq
  funext r c
  show inverse_iter_zig_zag
      (toMat b 0 0 :: removeTrailingZeros (block_ac b)) (some 8) 0 r.1 c.1
    = b r c
  rw [hfun, inverse_iter_zig_zag_roundtrip 8 (by omega) (toMat b) r.1 c.1 r.2 c.2]
  show toMat b r.1 c.1 = b r c
  simp only [toMat]
  rw [dif_pos r.2, dif_pos c.2]

theorem isplit_go_group (body : List (Nat × Int)) (hb : EOB ∉ body) :
    ∀ (rest acc : List (Nat × Int)),
      isplit_go EOB acc (body ++ EOB :: rest)
        = (acc ++ body ++ [EOB]) :: isplit_go EOB [] rest := by
  induction body with
  | nil =>
      intro rest acc
      rw [List.nil_append, isplit_go, if_pos rfl, List.append_nil]
  | cons x xs ih =>
      intro rest acc
      have hx : x ≠ EOB := fun h => hb (by rw [← h]; exact List.mem_cons_self x xs)
      have hxs : EOB ∉ xs := fun h => hb (List.mem_cons_of_mem x h)
      rw [List.cons_append, isplit_go, if_neg (fun h => hx h), ih hxs rest (acc ++ [x])]
      rw [List.append_assoc acc [x] xs, List.singleton_append]

theorem isplit_flatten : ∀ (outs : List (List (Nat × Int))),
    (∀ o ∈ outs, ∃ body, o = body ++ [EOB] ∧ EOB ∉ body) →
    isplit (List.flatten outs) EOB = outs := by
  intro outs
  induction outs with
  | nil => intro _; rfl
  | cons o os ih =>
      intro h
      obtain ⟨body, ho, hb⟩ := h o (List.mem_cons_self o os)
      rw [List.flatten_cons, ho, isplit, List.append_assoc, List.singleton_append]
      rw [isplit_go_group body hb (List.flatten os) [], List.nil_append]
      have htail : isplit_go EOB [] (List.flatten os) = isplit (List.flatten os) EOB := rfl
      rw [htail, ih (fun u hu => h u (List.mem_cons_of_mem o hu)), ← ho]

/-! The checked write loop: it agrees with the total one while the cursor
stays inside the square, and fails exactly when the padded sequence
overruns the 8×8 square (the numpy IndexError of the source). -/

/-- The cursor after `k` zig-zag steps. -/
def zz_iter (n : Nat) : Nat → (Nat × Nat) → Nat × Nat
  | 0, p => p
  | k + 1, p => zz_iter n k (zig_zag_step n p)

theorem zig_zag_path_from_add (n a : Nat) : ∀ (p : Nat × Nat) (b : Nat),
    zig_zag_path_from n p (a + b)
      = zig_zag_path_from n p a ++ zig_zag_path_from n (zz_iter n a p) b := by
  induction a with
  | zero =>
      intro p b
      rw [Nat.zero_add]
      rfl
  | succ k ih =>
      intro p b
      rw [Nat.succ_add]
      show p :: zig_zag_path_from n (zig_zag_step n p) (k + b)
        = (p :: zig_zag_path_from n (zig_zag_step n p) k)
          ++ zig_zag_path_from n (zz_iter n (k + 1) p) b
      rw [ih (zig_zag_step n p) b, List.cons_append]
      rfl

theorem write_along_checked_ok (n : Nat) :
    ∀ (ps : List (Nat × Nat)) (vs : List Int) (m : Nat → Nat → Int),
      (∀ q ∈ ps, q.2 < n ∧ q.1 < n) →
      write_along_checked n ps vs m = some (write_along ps vs m)
  | [], vs, m, _ => by cases vs <;> rfl
  | _ :: _, [], m, _ => rfl
  | p :: ps, v :: vs, m, h => by
      show (if p.2 < n ∧ p.1 < n then
          write_along_checked n ps vs
            (fun r c => if r = p.2 ∧ c = p.1 then v else m r c)
        else none) = _
      rw [if_pos (h p (List.mem_cons_self p ps))]
      exact write_along_checked_ok n ps vs _
        (fun q hq => h q (List.mem_cons_of_mem p hq))

theorem write_along_checked_append_out (n : Nat) :
    ∀ (ps : List (Nat × Nat)) (vs : List Int), ps.length = vs.length →
      (∀ r ∈ ps, r.2 < n ∧ r.1 < n) →
      ∀ (q : Nat × Nat) (ps2 : List (Nat × Nat)) (v : Int) (vs2 : List Int)
        (m : Nat → Nat → Int), ¬(q.2 < n ∧ q.1 < n) →
      write_along_checked n (ps ++ q :: ps2) (vs ++ v :: vs2) m = none
  | [], [], _, _ => by
      intro q ps2 v vs2 m hq
      show (if q.2 < n ∧ q.1 < n then
          write_along_checked n ps2 vs2
            (fun r c => if r = q.2 ∧ c = q.1 then v else m r c)
        else none) = none
      rw [if_neg hq]
  | [], _ :: _, h, _ => by simp at h
  | _ :: _, [], h, _ => by simp at h
  | p :: ps, w :: vs, h, hok => by
      intro q ps2 v vs2 m hq
      show (if p.2 < n ∧ p.1 < n then
          write_along_checked n (ps ++ q :: ps2) (vs ++ v :: vs2)
            (fun r c => if r = p.2 ∧ c = p.1 then w else m r c)
        else none) = none
      rw [if_pos (hok p (List.mem_cons_self p ps))]
      exact write_along_checked_append_out n ps vs (by simpa using h)
        (fun r hr => hok r (List.mem_cons_of_mem p hr)) q ps2 v vs2 _ hq

theorem inverse_iter_zig_zag_checked_of_le (seq : List Int) (n : Nat)
    (hn : 1 ≤ n) (fill : Int) (hlen : seq.length ≤ n * n) :
    inverse_iter_zig_zag_checked seq (some n) fill
      = some (inverse_iter_zig_zag seq (some n) fill) := by
  simp only [inverse_iter_zig_zag_checked, inverse_iter_zig_zag,
    Option.getD_some]
  have hplen : (seq ++ List.replicate (n * n - seq.length) fill).length
      = n * n := by
    rw [List.length_append, List.length_replicate]
    omega
  rw [hplen]
  refine write_along_checked_ok n _ _ np_empty ?_
  intro q hq
  have hin := (zig_zag_path_ranks n hn (n * n) (0, 0) (by omega) (by omega)
    (by rw [zigRank_zero]; omega)).2 q hq
  exact ⟨hin.2, hin.1⟩

set_option maxRecDepth 4000 in
theorem inverse_iter_zig_zag_checked_overflow (seq : List Int) (fill : Int)
    (hlen : 64 < seq.length) :
    inverse_iter_zig_zag_checked seq (some 8) fill = none := by
  simp only [inverse_iter_zig_zag_checked, Option.getD_some]
  rw [show (8 * 8 - seq.length) = 0 from by omega, List.replicate_zero,
    List.append_nil]
  obtain ⟨k, hk⟩ : ∃ k, seq.length = 64 + (k + 1) :=
    ⟨seq.length - 65, by omega⟩
  rw [hk, zig_zag_path_from_add 8 64 (0, 0) (k + 1)]
  rw [show zz_iter 8 64 (0, 0) = (7, 8) from by decide]
  rw [show zig_zag_path_from 8 (7, 8) (k + 1)
      = (7, 8) :: zig_zag_path_from 8 (zig_zag_step 8 (7, 8)) k from rfl]
  obtain ⟨v, vs2, hdrop⟩ : ∃ v vs2, seq.drop 64 = v :: vs2 := by
    cases hd : seq.drop 64 with
    | nil =>
        exfalso
        have hdl := congrArg List.length hd
        rw [List.length_drop] at hdl
        simp only [List.length_nil] at hdl
        omega
    | cons a b => exact ⟨a, b, rfl⟩
  have hsplit : seq = seq.take 64 ++ v :: vs2 := by
    rw [← hdrop, List.take_append_drop]
  conv_lhs => rw [hsplit]
  refine write_along_checked_append_out 8 (zig_zag_path_from 8 (0, 0) 64)
    (seq.take 64) ?_ ?_ (7, 8) _ v vs2 np_empty (by decide)
  · rw [zig_zag_path_from_length, List.length_take]
    omega
  · intro r hr
    have hin := (zig_zag_path_ranks 8 (by omega) 64 (0, 0) (by omega)
      (by omega) (by have h0 := zigRank_zero 8; omega)).2 r hr
    exact ⟨hin.2, hin.1⟩

theorem rebuild_block_checked_some (dc : Int) (g : List Int)
    (hg : g.length ≤ 63) :
    rebuild_block_checked dc g = some (rebuild_block dc g) := by
  rw [rebuild_block_checked, inverse_iter_zig_zag_checked_of_le (dc :: g) 8
    (by omega) 0 (by rw [List.length_cons]; omega)]
  rfl

theorem rebuild_block_checked_none (dc : Int) (g : List Int)
    (hg : 63 < g.length) :
    rebuild_block_checked dc g = none := by
  rw [rebuild_block_checked, inverse_iter_zig_zag_checked_overflow (dc :: g) 0
    (by rw [List.length_cons]; omega)]
  rfl

theorem zip_mem_right {A B : Type} : ∀ (l1 : List A) (l2 : List B),
    l1.length = l2.length → ∀ b ∈ l2, ∃ a, (a, b) ∈ l1.zip l2
  | [], [], _, _, hb => absurd hb (by simp)
  | [], _ :: _, h, _, _ => by simp at h
  | _ :: _, [], h, _, _ => by simp at h
  | x :: l1, y :: l2, h, b, hb => by
      rw [List.zip_cons_cons]
      rcases List.mem_cons.mp hb with hb | hb
      · exact ⟨x, by rw [hb]; exact List.mem_cons_self _ _⟩
      · obtain ⟨a, ha⟩ := zip_mem_right l1 l2 (by simpa using h) b hb
        exact ⟨a, List.mem_cons_of_mem _ ha⟩

theorem mapM_rebuild_some (l : List (Int × List Int))
    (h : ∀ p ∈ l, p.2.length ≤ 63) :
    l.mapM (fun p => rebuild_block_checked p.1 p.2)
      = some (l.map (fun p => rebuild_block p.1 p.2)) := by
  induction l with
  | nil => rfl
  | cons p ps ih =>
      rw [List.mapM_cons,
        rebuild_block_checked_some p.1 p.2 (h p (List.mem_cons_self p ps)),
        ih (fun q hq => h q (List.mem_cons_of_mem p hq))]
      rfl

theorem mapM_rebuild_none (l : List (Int × List Int))
    (h : ∃ p ∈ l, 63 < p.2.length) :
    l.mapM (fun p => rebuild_block_checked p.1 p.2) = none := by
  induction l with
  | nil =>
      obtain ⟨p, hp, _⟩ := h
      exact absurd hp (by simp)
  | cons p ps ih =>
      by_cases hp63 : 63 < p.2.length
      · rw [List.mapM_cons, rebuild_block_checked_none p.1 p.2 hp63]
        rfl
      · obtain ⟨q, hq, hql⟩ := h
        have hqs : q ∈ ps := by
          rcases List.mem_cons.mp hq with hqp | hqs
          · exact absurd (hqp ▸ hql) hp63
          · exact hqs
        rw [List.mapM_cons, rebuild_block_checked_some p.1 p.2 (by omega),
          ih ⟨q, hqs, hql⟩]
        rfl

/-! Per-layer pipelines: each layer's DC and AC bit streams decode back to
the layer data whenever the coefficients are within Huffman range. -/

theorem layer_dc_pipeline (layer : LayerType) (blocks : List Block)
    (hbound : ∀ d ∈ layer_diff_dc blocks, -2048 < d ∧ d < 2048) :
    ∃ bits, encode_dc_bits (layer_diff_dc blocks) layer = some bits ∧
      decoder_dc bits layer = some (layer_dc blocks) := by
  obtain ⟨bits, henc, hdec⟩ :=
    decode_encode_dc_bits layer (layer_diff_dc blocks) hbound
  refine ⟨bits, henc, ?_⟩
  rw [decoder_dc, hdec]
  simp only [Option.map_some']
  rw [layer_diff_dc, decode_encode_differential]

theorem layer_ac_syms (blocks : List Block)
    (hbound : ∀ b ∈ blocks, ∀ v ∈ block_ac b, v ≠ 0 → -1024 < v ∧ v < 1024) :
    ∃ outs : List (List (Nat × Int)),
      blocks.mapM (fun u => encode_run_length (block_ac u)) = some outs ∧
      (∀ o ∈ outs, ∃ body, o = body ++ [EOB] ∧ EOB ∉ body) ∧
      (∀ o ∈ outs, ∀ p ∈ o, ValidAC p) ∧
      outs.map decode_run_length
        = blocks.map (fun u => removeTrailingZeros (block_ac u)) := by
  induction blocks with
  | nil => exact ⟨[], rfl, by simp, by simp, rfl⟩
  | cons b bs ih =>
      obtain ⟨outs, hmapM, hshape, hvalid, hdec⟩ :=
        ih (fun u hu => hbound u (List.mem_cons_of_mem b hu))
      obtain ⟨body, henc, hdecb, hnotin, hsyms⟩ :=
        encode_run_length_spec (block_ac b) (block_ac_ne_nil b)
      refine ⟨(body ++ [EOB]) :: outs, ?_, ?_, ?_, ?_⟩
      · rw [List.mapM_cons, henc, hmapM]
        rfl
      · intro o ho
        rcases List.mem_cons.mp ho with h | h
        · exact ⟨body, h, hnotin⟩
        · exact hshape o h
      · intro o ho p hp
        rcases List.mem_cons.mp ho with h | h
        · rw [h] at hp
          rcases List.mem_append.mp hp with hpb | hpe
          · rcases hsyms p hpb with hz | ho2
            · exact Or.inr (Or.inl hz)
            · refine Or.inr (Or.inr ⟨ho2.1, ho2.2.1, ?_, ?_⟩)
              · exact (hbound b (List.mem_cons_self b bs) p.2 ho2.2.2 ho2.2.1).1
              · exact (hbound b (List.mem_cons_self b bs) p.2 ho2.2.2 ho2.2.1).2
          · have hpeob : p = EOB := by simpa using hpe
            exact Or.inl hpeob
        · exact hvalid o h p hp
      · rw [List.map_cons, List.map_cons, hdecb, hdec]

theorem layer_ac_pipeline (layer : LayerType) (blocks : List Block)
    (hbound : ∀ b ∈ blocks, ∀ v ∈ block_ac b, v ≠ 0 → -1024 < v ∧ v < 1024) :
    ∃ bits, (layer_run_length_ac blocks).bind (fun s => encode_ac_bits s layer)
        = some bits ∧
      decoder_ac bits layer
        = some (blocks.map (fun u => removeTrailingZeros (block_ac u))) := by
  obtain ⟨outs, hmapM, hshape, hvalid, hdec⟩ := layer_ac_syms blocks hbound
  have hsymsvalid : ∀ p ∈ List.flatten outs, ValidAC p := by
    intro p hp
    obtain ⟨o, ho, hpo⟩ := List.mem_flatten.mp hp
    exact hvalid o ho p hpo
  obtain ⟨bits, henc, hdecbits⟩ :=
    decode_encode_ac_bits layer (List.flatten outs) hsymsvalid
  refine ⟨bits, ?_, ?_⟩
  · rw [layer_run_length_ac, hmapM]
    simp only [Option.map_some', Option.some_bind]
    exact henc
  · rw [decoder_ac, hdecbits]
    simp only [Option.map_some']
    rw [isplit_flatten outs hshape, hdec]

/-- C9 (amended): decoder shape preconditions. Given the four entropy
decode stages succeed, `Decoder.decode` errors (no partial result)
exactly when a layer's DC count differs from its AC group count, the
chrominance DC or AC count is odd, or some decoded AC group carries more
than 63 values (the 65-value rebuild walks off the 8×8 array — numpy's
IndexError); when all shape checks pass and every group fits, it returns
the y/cb/cr block sequences rebuilt from the zipped DC/AC data. -/
theorem claim_C9_decoder_shape_checks (dcl dcc acl acc2 : List Bool)
    (dcY dcC : List Int) (acY acC : List (List Int))
    (h1 : decoder_dc dcl LayerType.luminance = some dcY)
    (h2 : decoder_dc dcc LayerType.chrominance = some dcC)
    (h3 : decoder_ac acl LayerType.luminance = some acY)
    (h4 : decoder_ac acc2 LayerType.chrominance = some acC) :
    (decoder_decode dcl dcc acl acc2 = none ↔
      (dcY.length ≠ acY.length ∨ dcC.length ≠ acC.length ∨
        dcC.length % 2 = 1 ∨ acC.length % 2 = 1 ∨
        (∃ g ∈ acY, 63 < g.length) ∨ (∃ g ∈ acC, 63 < g.length))) ∧
    ((dcY.length = acY.length ∧ dcC.length = acC.length ∧
        dcC.length % 2 = 0 ∧ acC.length % 2 = 0 ∧
        (∀ g ∈ acY, g.length ≤ 63) ∧ (∀ g ∈ acC, g.length ≤ 63)) →
      decoder_decode dcl dcc acl acc2 = some
        ((dcY.zip acY).map (fun p => rebuild_block p.1 p.2),
         ((dcC.zip acC).map (fun p => rebuild_block p.1 p.2)).take
           (((dcC.zip acC).map (fun p => rebuild_block p.1 p.2)).length / 2),
         ((dcC.zip acC).map (fun p => rebuild_block p.1 p.2)).drop
           (((dcC.zip acC).map (fun p => rebuild_block p.1 p.2)).length / 2))) := by
  have hred : decoder_decode dcl dcc acl acc2 =
      (if dcC.length % 2 = 1 ∨ acC.length % 2 = 1 then none
      else if dcY.length ≠ acY.length then none
      else ((dcY.zip acY).mapM (fun p => rebuild_block_checked p.1 p.2)).bind
        (fun shapedY =>
          if dcC.length ≠ acC.length then none
          else ((dcC.zip acC).mapM
              (fun p => rebuild_block_checked p.1 p.2)).bind
            (fun shapedC => some (shapedY, shapedC.take (shapedC.length / 2),
              shapedC.drop (shapedC.length / 2))))) := by
    simp only [decoder_decode, h1, h2, h3, h4, Option.bind_eq_bind,
      Option.some_bind]
  rw [hred]
  constructor
  · by_cases hA : dcC.length % 2 = 1 ∨ acC.length % 2 = 1
    · rw [if_pos hA]
      refine ⟨fun _ => ?_, fun _ => rfl⟩
      rcases hA with h | h
      · exact Or.inr (Or.inr (Or.inl h))
      · exact Or.inr (Or.inr (Or.inr (Or.inl h)))
    · rw [if_neg hA]
      by_cases hY : dcY.length ≠ acY.length
      · rw [if_pos hY]
        exact ⟨fun _ => Or.inl hY, fun _ => rfl⟩
      · rw [if_neg hY]
        by_cases hGY : ∃ g ∈ acY, 63 < g.length
        · obtain ⟨g, hg, hgl⟩ := hGY
          obtain ⟨a, ha⟩ := zip_mem_right dcY acY (by omega) g hg
          rw [mapM_rebuild_none _ ⟨(a, g), ha, hgl⟩]
          exact ⟨fun _ =>
              Or.inr (Or.inr (Or.inr (Or.inr (Or.inl ⟨g, hg, hgl⟩)))),
            fun _ => rfl⟩
        · push_neg at hGY
          rw [mapM_rebuild_some _
            (fun p hp => hGY p.2 (List.of_mem_zip hp).2)]
          simp only [Option.some_bind]
          by_cases hC : dcC.length ≠ acC.length
          · rw [if_pos hC]
            exact ⟨fun _ => Or.inr (Or.inl hC), fun _ => rfl⟩
          · rw [if_neg hC]
            by_cases hGC : ∃ g ∈ acC, 63 < g.length
            · obtain ⟨g, hg, hgl⟩ := hGC
              obtain ⟨a, ha⟩ := zip_mem_right dcC acC (by omega) g hg
              rw [mapM_rebuild_none _ ⟨(a, g), ha, hgl⟩]
              exact ⟨fun _ =>
                  Or.inr (Or.inr (Or.inr (Or.inr (Or.inr ⟨g, hg, hgl⟩)))),
                fun _ => rfl⟩
            · push_neg at hGC
              rw [mapM_rebuild_some _
                (fun p hp => hGC p.2 (List.of_mem_zip hp).2)]
              simp only [Option.some_bind]
              constructor
              · intro h
                exact absurd h (by simp)
              · intro hdisj
                exfalso
                rcases hdisj with h | h | h | h | h | h
                · exact hY h
                · exact hC h
                · exact hA (Or.inl h)
                · exact hA (Or.inr h)
                · obtain ⟨g, hg, hgl⟩ := h
                  have := hGY g hg
                  omega
                · obtain ⟨g, hg, hgl⟩ := h
                  have := hGC g hg
                  omega
  · intro hpass
    obtain ⟨hp1, hp2, hp3, hp4, hp5, hp6⟩ := hpass
    rw [if_neg (by omega), if_neg (by omega)]
    rw [mapM_rebuild_some _ (fun p hp => hp5 p.2 (List.of_mem_zip hp).2)]
    simp only [Option.some_bind]
    rw [if_neg (by omega),
      mapM_rebuild_some _ (fun p hp => hp6 p.2 (List.of_mem_zip hp).2)]
    simp only [Option.some_bind]

set_option maxRecDepth 8000 in
set_option maxHeartbeats 1600000 in
/-- C9 counterexample to the original claim: an AC luminance stream of
four ZRL codewords and an EOB decodes to a single EOB-terminated group of
64 values; with one DC luminance value and empty chrominance streams
every shape check passes (1 group = 1 DC, 0 = 0, even parities), yet
`Decoder.decode` fails — the 65-value rebuild writes outside the 8×8
array (numpy IndexError) — instead of returning the block sequences. -/
theorem claim_C9_counterexample :
    decoder_dc (w [0, 0]) LayerType.luminance = some [0] ∧
    decoder_ac (w [1, 1, 1, 1, 1, 1, 1, 1, 0, 0, 1,
                   1, 1, 1, 1, 1, 1, 1, 1, 0, 0, 1,
                   1, 1, 1, 1, 1, 1, 1, 1, 0, 0, 1,
                   1, 1, 1, 1, 1, 1, 1, 1, 0, 0, 1,
                   1, 0, 1, 0]) LayerType.luminance
      = some [List.replicate 64 0] ∧
    decoder_dc [] LayerType.chrominance = some [] ∧
    decoder_ac [] LayerType.chrominance = some [] ∧
    ([0] : List Int).length = [List.replicate 64 (0 : Int)].length ∧
    ([] : List Int).length = ([] : List (List Int)).length ∧
    ([] : List Int).length % 2 = 0 ∧
    ([] : List (List Int)).length % 2 = 0 ∧
    (decoder_decode (w [0, 0]) []
      (w [1, 1, 1, 1, 1, 1, 1, 1, 0, 0, 1,
          1, 1, 1, 1, 1, 1, 1, 1, 0, 0, 1,
          1, 1, 1, 1, 1, 1, 1, 1, 0, 0, 1,
          1, 1, 1, 1, 1, 1, 1, 1, 0, 0, 1,
          1, 0, 1, 0]) []).isNone = true := by
  refine ⟨by decide, by decide, by decide, by decide, by decide, by decide,
    by decide, by decide, by decide⟩

theorem claim_C9_witness :
    (decoder_dc (w [0, 0]) LayerType.luminance = some [0] ∧
     decoder_dc (w [0, 0, 0, 0]) LayerType.chrominance = some [0, 0] ∧
     decoder_ac (w [1, 0, 1, 0]) LayerType.luminance = some [[]] ∧
     decoder_ac (w [0, 0, 0, 0]) LayerType.chrominance = some [[], []]) ∧
    ((decoder_decode (w [0, 0]) (w [0, 0, 0, 0]) (w [1, 0, 1, 0]) (w [0, 0, 0, 0])
        = none ↔
      (([0] : List Int).length ≠ ([[]] : List (List Int)).length ∨
        ([0, 0] : List Int).length ≠ ([[], []] : List (List Int)).length ∨
        ([0, 0] : List Int).length % 2 = 1 ∨
        ([[], []] : List (List Int)).length % 2 = 1 ∨
        (∃ g ∈ ([[]] : List (List Int)), 63 < g.length) ∨
        (∃ g ∈ ([[], []] : List (List Int)), 63 < g.length))) ∧
     ((([0] : List Int).length = ([[]] : List (List Int)).length ∧
        ([0, 0] : List Int).length = ([[], []] : List (List Int)).length ∧
        ([0, 0] : List Int).length % 2 = 0 ∧
        ([[], []] : List (List Int)).length % 2 = 0 ∧
        (∀ g ∈ ([[]] : List (List Int)), g.length ≤ 63) ∧
        (∀ g ∈ ([[], []] : List (List Int)), g.length ≤ 63)) →
      decoder_decode (w [0, 0]) (w [0, 0, 0, 0]) (w [1, 0, 1, 0]) (w [0, 0, 0, 0])
        = some
        ((([0] : List Int).zip ([[]] : List (List Int))).map
            (fun p => rebuild_block p.1 p.2),
         ((([0, 0] : List Int).zip ([[], []] : List (List Int))).map
            (fun p => rebuild_block p.1 p.2)).take
           (((([0, 0] : List Int).zip ([[], []] : List (List Int))).map
              (fun p => rebuild_block p.1 p.2)).length / 2),
         ((([0, 0] : List Int).zip ([[], []] : List (List Int))).map
            (fun p => rebuild_block p.1 p.2)).drop
           (((([0, 0] : List Int).zip ([[], []] : List (List Int))).map
              (fun p => rebuild_block p.1 p.2)).length / 2)))) :=
  ⟨⟨by decide, by decide, by decide, by decide⟩,
    claim_C9_decoder_shape_checks (w [0, 0]) (w [0, 0, 0, 0]) (w [1, 0, 1, 0])
      (w [0, 0, 0, 0]) [0] [0, 0] [[]] [[], []]
      (by decide) (by decide) (by decide) (by decide)⟩

set_option maxRecDepth 4000 in
/-- C1: full codec round trip. For block sequences y, cb, cr with at
least one block in each layer, equally many cb and cr blocks, every DPCM
DC difference in (-2048, 2048) and every nonzero AC coefficient in
(-1024, 1024), the four bitstrings produced by the encoder decode back to
exactly the original y, cb and cr sequences, in order. -/
theorem claim_C1_codec_roundtrip (y cb cr : List Block)
    (hy : y ≠ []) (hcb : cb ≠ []) (heq : cb.length = cr.length)
    (hdcy : ∀ d ∈ layer_diff_dc y, -2048 < d ∧ d < 2048)
    (hdcc : ∀ d ∈ layer_diff_dc (cb ++ cr), -2048 < d ∧ d < 2048)
    (hacy : ∀ b ∈ y, ∀ v ∈ block_ac b, v ≠ 0 → -1024 < v ∧ v < 1024)
    (hacc : ∀ b ∈ cb ++ cr, ∀ v ∈ block_ac b, v ≠ 0 → -1024 < v ∧ v < 1024) :
    ∃ dcl dcc2 acl acc2,
      encoder_encode y cb cr = some (dcl, dcc2, acl, acc2) ∧
      decoder_decode dcl dcc2 acl acc2 = some (y, cb, cr) := by
  obtain ⟨dclb, hencY, hdecY⟩ := layer_dc_pipeline LayerType.luminance y hdcy
  obtain ⟨dccb, hencC, hdecC⟩ :=
    layer_dc_pipeline LayerType.chrominance (cb ++ cr) hdcc
  obtain ⟨aclb, hencAY, hdecAY⟩ := layer_ac_pipeline LayerType.luminance y hacy
  obtain ⟨accb, hencAC, hdecAC⟩ :=
    layer_ac_pipeline LayerType.chrominance (cb ++ cr) hacc
  refine ⟨dclb, dccb, aclb, accb, ?_, ?_⟩
  · simp only [encoder_encode, hencY, hencC, hencAY, hencAC,
      Option.bind_eq_bind, Option.some_bind]
  · simp only [decoder_decode, hdecY, hdecC, hdecAY, hdecAC,
      Option.bind_eq_bind, Option.some_bind]
    have hLy : (layer_dc y).length = y.length := by
      rw [layer_dc, List.length_map]
    have hLyA : (y.map (fun u => removeTrailingZeros (block_ac u))).length
        = y.length := by rw [List.length_map]
    have hLC : (layer_dc (cb ++ cr)).length = cb.length + cr.length := by
      rw [layer_dc, List.length_map, List.length_append]
    have hLCA : ((cb ++ cr).map
          (fun u => removeTrailingZeros (block_ac u))).length
        = cb.length + cr.length := by
      rw [List.length_map, List.length_append]
    have hg63 : ∀ u : Block, (removeTrailingZeros (block_ac u)).length ≤ 63 := by
      intro u
      obtain ⟨z, hz⟩ := removeTrailingZeros_pad (block_ac u)
      have h63 := block_ac_length u
      have hl := congrArg List.length hz
      rw [List.length_append, List.length_replicate] at hl
      omega
    have hpairY : ∀ p ∈ (layer_dc y).zip
        (y.map (fun u => removeTrailingZeros (block_ac u))),
        p.2.length ≤ 63 := by
      intro p hp
      obtain ⟨u, _, hu⟩ := List.mem_map.mp (List.of_mem_zip hp).2
      rw [← hu]
      exact hg63 u
    have hpairC : ∀ p ∈ (layer_dc (cb ++ cr)).zip
        ((cb ++ cr).map (fun u => removeTrailingZeros (block_ac u))),
        p.2.length ≤ 63 := by
      intro p hp
      obtain ⟨u, _, hu⟩ := List.mem_map.mp (List.of_mem_zip hp).2
      rw [← hu]
      exact hg63 u
    rw [if_neg (by rw [hLC, hLCA]; omega)]
    rw [if_neg (by rw [hLy, hLyA]; omega)]
    rw [mapM_rebuild_some _ hpairY]
    simp only [Option.some_bind]
    rw [if_neg (by rw [hLC, hLCA]; omega)]
    rw [mapM_rebuild_some _ hpairC]
    simp only [Option.some_bind]
    have hshY : ((layer_dc y).zip
          (y.map (fun u => removeTrailingZeros (block_ac u)))).map
        (fun p => rebuild_block p.1 p.2) = y := by
      rw [layer_dc, List.zip_map', List.map_map]
      rw [show ((fun p : Int × List Int => rebuild_block p.1 p.2) ∘
            fun u => (toMat u 0 0, removeTrailingZeros (block_ac u)))
          = fun u => rebuild_block (toMat u 0 0)
              (removeTrailingZeros (block_ac u)) from rfl]
      rw [List.map_congr_left (fun u _ => rebuild_block_roundtrip u)]
      exact List.map_id y
    have hshC : ((layer_dc (cb ++ cr)).zip
          ((cb ++ cr).map (fun u => removeTrailingZeros (block_ac u)))).map
        (fun p => rebuild_block p.1 p.2) = cb ++ cr := by
      rw [layer_dc, List.zip_map', List.map_map]
      rw [show ((fun p : Int × List Int => rebuild_block p.1 p.2) ∘
            fun u => (toMat u 0 0, removeTrailingZeros (block_ac u)))
          = fun u => rebuild_block (toMat u 0 0)
              (removeTrailingZeros (block_ac u)) from rfl]
      rw [List.map_congr_left (fun u _ => rebuild_block_roundtrip u)]
      exact List.map_id (cb ++ cr)
    rw [hshY, hshC]
    have hhalf : ((cb ++ cr) : List Block).length / 2 = cb.length := by
      rw [List.length_append]
      omega
    rw [hhalf, List.take_left' rfl, List.drop_left' rfl]

theorem claim_C1_witness :
    (([fun _ _ => 0] : List Block) ≠ [] ∧
     ([fun _ _ => 0] : List Block) ≠ [] ∧
     ([fun _ _ => 0] : List Block).length = ([fun _ _ => 0] : List Block).length ∧
     (∀ d ∈ layer_diff_dc [fun _ _ => 0], -2048 < d ∧ d < 2048) ∧
     (∀ d ∈ layer_diff_dc ([fun _ _ => 0] ++ [fun _ _ => 0]),
        -2048 < d ∧ d < 2048) ∧
     (∀ b ∈ ([fun _ _ => 0] : List Block), ∀ v ∈ block_ac b,
        v ≠ 0 → -1024 < v ∧ v < 1024) ∧
     (∀ b ∈ ([fun _ _ => 0] ++ [fun _ _ => 0] : List Block), ∀ v ∈ block_ac b,
        v ≠ 0 → -1024 < v ∧ v < 1024)) ∧
    ∃ dcl dcc2 acl acc2,
      encoder_encode [fun _ _ => 0] [fun _ _ => 0] [fun _ _ => 0]
        = some (dcl, dcc2, acl, acc2) ∧
      decoder_decode dcl dcc2 acl acc2
        = some ([fun _ _ => 0], [fun _ _ => 0], [fun _ _ => 0]) :=
  ⟨⟨List.cons_ne_nil _ _, List.cons_ne_nil _ _, rfl, by decide, by decide,
      by decide, by decide⟩,
    claim_C1_codec_roundtrip [fun _ _ => 0] [fun _ _ => 0] [fun _ _ => 0]
      (List.cons_ne_nil _ _) (List.cons_ne_nil _ _) rfl
      (by decide) (by decide) (by decide) (by decide)⟩
